import Mathlib

/-! FastSTL::unordered_map, an open-addressing hash table.

A shallow embedding of `FastSTL/UnorderedMap.h` and a verification of its
contract.

Modelling conventions.

* `size_type` values are natural numbers; arithmetic that can wrap in the
  source is reduced modulo `2 ^ 64` explicitly.
* A call can fail to return normally.  `Outcome.fault` records how: an
  exception (`bad_alloc`, `out_of_range`) or `undefined` (an access outside an
  allocated array, a read of a pair that was never constructed, or a loop that
  does not terminate within the number of iterations the model grants it).
* `m_buckets` is raw storage: a slot is `some p` when a pair has been
  constructed there and `none` otherwise.  `m_flags` is the array of 32-bit
  state words.  A null pointer is the empty array.
* The hash function, the equality predicate and the allocator are template
  parameters of the class; they are collected in `Config`.  Of the allocator
  only `max_size` matters: a request for more elements throws.
* `max_load_factor` is a `float`; it is represented by a fraction.  The
  conversion of an integer to `float` (round to nearest even on 24 significant
  bits) is `to_float`.  Products and quotients with the load factor are taken
  exactly, which is what binary32 does when the bucket count is a power of two
  and the factor is a power of two such as the default `0.5`.
-/

namespace FastSTL

/-! ## Outcomes -/

/-- Ways in which a call does not return normally. -/
inductive Fault where
  | bad_alloc
  | out_of_range
  | undefined
deriving DecidableEq

/-- Result of a call: a value, or the fault that ended it. -/
inductive Outcome (α : Type) where
  | ok : α → Outcome α
  | fault : Fault → Outcome α
deriving DecidableEq

/-- Sequencing of calls: the first fault ends the computation. -/
def Outcome.bind {α β : Type} (x : Outcome α) (f : α → Outcome β) : Outcome β :=
  match x with
  | .ok a => f a
  | .fault e => .fault e

instance : Monad Outcome where
  pure := Outcome.ok
  bind := Outcome.bind

/-! ## State encoding -/

/-- Type `enum class State : uint8_t`, as the value of its underlying type. -/
abbrev State := Nat

/-- Enumerator `State::Occupied = 0b00`. -/
abbrev State.Occupied : State := 0b00

/-- Enumerator `State::Deleted = 0b01`. -/
abbrev State.Deleted : State := 0b01

/-- Enumerator `State::Empty = 0b10`. -/
abbrev State.Empty : State := 0b10

/-- Number of 2-bit state fields in one 32-bit word. -/
abbrev FLAGS_PER_U32 : Nat := 16

/-- Function `get_state(i)`: the 2-bit field of slot `i`. -/
def get_state (m_flags : List Nat) (i : Nat) : Outcome State :=
  match m_flags[i >>> 4]? with
  | none => .fault .undefined
  | some flag_word =>
    let shift := (i &&& (FLAGS_PER_U32 - 1)) * 2
    .ok ((flag_word >>> shift) &&& 0b11)

/-- Function `set_state(i, state)`: clear the 2-bit field of slot `i` in its
word (the mask is the 64-bit complement of `0b11UL << shift`, the result is
stored back into 32 bits), then or the new state in. -/
def set_state (m_flags : List Nat) (i : Nat) (state : State) : Outcome (List Nat) :=
  match m_flags[i >>> 4]? with
  | none => .fault .undefined
  | some flag_word =>
    let shift := (i &&& (FLAGS_PER_U32 - 1)) * 2
    let cleared := (flag_word &&& (2 ^ 64 - 1 - (0b11 <<< shift))) % 2 ^ 32
    let flag_word' := cleared ||| ((state <<< shift) % 2 ^ 32)
    .ok (m_flags.set (i >>> 4) flag_word')

/-- Function `is_occupied(i)`. -/
def is_occupied (m_flags : List Nat) (i : Nat) : Outcome Bool :=
  match get_state m_flags i with
  | .ok s => .ok (decide (s = State.Occupied))
  | .fault e => .fault e

/-- Function `roundup32(n)` on a 64-bit `size_type`. -/
def roundup32 (n : Nat) : Nat :=
  let n := if n < 4 then 4 else n
  let n := n - 1
  let n := n ||| (n >>> 1)
  let n := n ||| (n >>> 2)
  let n := n ||| (n >>> 4)
  let n := n ||| (n >>> 8)
  let n := n ||| (n >>> 16)
  let n := n ||| (n >>> 32)
  (n + 1) % 2 ^ 64

/-! ## Floating-point load factor -/

/-- Number of low bits that binary32 drops from `n`: the least `e` with
`n / 2 ^ e < 2 ^ 24`, searched over at most `fuel` halvings. -/
def f32_drop : Nat → Nat → Nat
  | 0, _ => 0
  | fuel + 1, n => if n < 2 ^ 24 then 0 else f32_drop fuel (n / 2) + 1

/-- Conversion of a `size_type` to `float`: round to the nearest number with 24
significant bits, ties to the even significand.  The result is given as the
integer the `float` denotes. -/
def to_float (n : Nat) : Nat :=
  let e := f32_drop 64 n
  let q := n >>> e
  let r := n % 2 ^ e
  let q' := if 2 ^ e < 2 * r ∨ (2 ^ e = 2 * r ∧ q % 2 = 1) then q + 1 else q
  q' * 2 ^ e

/-- Value of `m_max_load_factor`, the fraction `num / den`. -/
structure LoadFactor where
  num : Nat
  den : Nat
deriving DecidableEq

/-- Comparison `x > b * f` of two `size_type` values and the load factor, as
evaluated in `float`. -/
def exceeds (x b : Nat) (f : LoadFactor) : Bool :=
  decide (to_float b * f.num < to_float x * f.den)

/-! ## The table -/

/-- Template parameters of `unordered_map`: the hasher, the equality predicate
and the largest element count the allocator serves. -/
structure Config (K : Type) where
  m_hasher : K → Nat
  m_key_equal : K → K → Bool
  max_size : Nat

/-- Data members of `unordered_map`. -/
structure Table (K V : Type) where
  m_buckets : List (Option (K × V))
  m_flags : List Nat
  m_bucket_count : Nat
  m_size : Nat
  m_occupied : Nat
  m_max_load_factor : LoadFactor
deriving DecidableEq

/-- Default constructor: no storage, zero counts, load factor `0.5f`. -/
def Table.init {K V : Type} : Table K V :=
  { m_buckets := [], m_flags := [], m_bucket_count := 0, m_size := 0, m_occupied := 0,
    m_max_load_factor := ⟨1, 2⟩ }

section Ops

variable {K V : Type}

/-- Loop of `find_key`.  The arguments after the iteration budget are the loop
variables `i`, `word_idx` and `flag_word`. -/
def find_key_loop (c : Config K) (t : Table K V) (key : K) (mask start : Nat) :
    Nat → Nat → Nat → Nat → Outcome Nat
  | 0, _, _, _ => .fault .undefined
  | fuel + 1, i, word_idx, flag_word =>
    let shift := (i &&& (FLAGS_PER_U32 - 1)) * 2
    let current_state : State := (flag_word >>> shift) &&& 0b11
    let returned : Outcome (Option Nat) :=
      if current_state = State.Occupied then
        match t.m_buckets[i]? with
        | some (some p) => if c.m_key_equal p.1 key then .ok (some i) else .ok none
        | _ => .fault .undefined
      else if current_state = State.Empty then .ok (some t.m_bucket_count)
      else .ok none
    match returned with
    | .fault e => .fault e
    | .ok (some r) => .ok r
    | .ok none =>
      let i' := (i + 1) &&& mask
      if i' = start then .ok t.m_bucket_count
      else
        let new_word_idx := i' >>> 4
        if new_word_idx ≠ word_idx then
          match t.m_flags[new_word_idx]? with
          | none => .fault .undefined
          | some w => find_key_loop c t key mask start fuel i' new_word_idx w
        else find_key_loop c t key mask start fuel i' word_idx flag_word

/-- Function `find_key(key)`: index of the slot holding `key`, or
`m_bucket_count`.  The loop body runs at most once per bucket. -/
def find_key (c : Config K) (t : Table K V) (key : K) : Outcome Nat :=
  if t.m_bucket_count = 0 then .ok t.m_bucket_count
  else
    let mask := t.m_bucket_count - 1
    let k := c.m_hasher key
    let i := k &&& mask
    match t.m_flags[i >>> 4]? with
    | none => .fault .undefined
    | some flag_word => find_key_loop c t key mask i t.m_bucket_count i (i >>> 4) flag_word

/-- Loop of `find_insert_slot`.  The arguments after the iteration budget are
the loop variables `i`, `tombstone`, `word_idx` and `flag_word`. -/
def find_insert_slot_loop (t : Table K V) (mask start : Nat) :
    Nat → Nat → Nat → Nat → Nat → Outcome Nat
  | 0, _, _, _, _ => .fault .undefined
  | fuel + 1, i, tombstone, word_idx, flag_word =>
    let shift := (i &&& (FLAGS_PER_U32 - 1)) * 2
    let current_state : State := (flag_word >>> shift) &&& 0b11
    let tombstone :=
      if current_state = State.Deleted then
        (if tombstone = t.m_bucket_count then i else tombstone)
      else tombstone
    let returned : Option Nat :=
      if current_state = State.Deleted then none
      else if current_state = State.Empty then
        some (if tombstone ≠ t.m_bucket_count then tombstone else i)
      else none
    match returned with
    | some r => .ok r
    | none =>
      let i' := (i + 1) &&& mask
      if i' = start then .ok tombstone
      else
        let new_word_idx := i' >>> 4
        if new_word_idx ≠ word_idx then
          match t.m_flags[new_word_idx]? with
          | none => .fault .undefined
          | some w => find_insert_slot_loop t mask start fuel i' tombstone new_word_idx w
        else find_insert_slot_loop t mask start fuel i' tombstone word_idx flag_word

/-- Function `find_insert_slot(key)`: first tombstone on the probe path if one
precedes the first empty slot, else that empty slot; `m_bucket_count` when the
path holds neither. -/
def find_insert_slot (c : Config K) (t : Table K V) (key : K) : Outcome Nat :=
  let mask := (t.m_bucket_count + 2 ^ 64 - 1) % 2 ^ 64
  let k := c.m_hasher key
  let i := k &&& mask
  match t.m_flags[i >>> 4]? with
  | none => .fault .undefined
  | some flag_word =>
    find_insert_slot_loop t mask i t.m_bucket_count i t.m_bucket_count (i >>> 4) flag_word

/-- Construction of a pair in the raw slot `m_buckets + slot`. -/
def construct (m_buckets : List (Option (K × V))) (slot : Nat) (p : K × V) :
    Outcome (List (Option (K × V))) :=
  if slot < m_buckets.length then .ok (m_buckets.set slot (some p)) else .fault .undefined

/-- Destruction of the pair in slot `m_buckets + index`. -/
def destroy (m_buckets : List (Option (K × V))) (index : Nat) :
    Outcome (List (Option (K × V))) :=
  if index < m_buckets.length then .ok (m_buckets.set index none) else .fault .undefined

/-- Loop of `destroy_elements` over `i = m_bucket_count - remaining, ...`. -/
def destroy_elements_loop (m_flags : List Nat) :
    Nat → Nat → List (Option (K × V)) → Outcome (List (Option (K × V)))
  | 0, _, m_buckets => .ok m_buckets
  | remaining + 1, i, m_buckets =>
    match is_occupied m_flags i with
    | .fault e => .fault e
    | .ok true =>
      match destroy m_buckets i with
      | .fault e => .fault e
      | .ok b => destroy_elements_loop m_flags remaining (i + 1) b
    | .ok false => destroy_elements_loop m_flags remaining (i + 1) m_buckets

/-- Function `destroy_elements()`. -/
def destroy_elements (t : Table K V) : Outcome (Table K V) :=
  if t.m_buckets.isEmpty then .ok t
  else
    match destroy_elements_loop t.m_flags t.m_bucket_count 0 t.m_buckets with
    | .fault e => .fault e
    | .ok b => .ok { t with m_buckets := b }

/-- The call `memset(flags, 0xaa, flag_array_size * sizeof(uint32_t))`. -/
def memset_flags (m_flags : List Nat) (flag_array_size : Nat) : Outcome (List Nat) :=
  if flag_array_size ≤ m_flags.length then
    .ok (List.replicate flag_array_size 0xaaaaaaaa ++ m_flags.drop flag_array_size)
  else .fault .undefined

/-- Function `clear()`. -/
def clear (t : Table K V) : Outcome (Table K V) :=
  match destroy_elements t with
  | .fault e => .fault e
  | .ok t1 =>
    if !t1.m_flags.isEmpty then
      let flag_array_size := (t1.m_bucket_count + FLAGS_PER_U32 - 1) / FLAGS_PER_U32
      match memset_flags t1.m_flags flag_array_size with
      | .fault e => .fault e
      | .ok fl => .ok { t1 with m_flags := fl, m_size := 0, m_occupied := 0 }
    else .ok { t1 with m_size := 0, m_occupied := 0 }

/-- Function `deallocate_storage()`. -/
def deallocate_storage (t : Table K V) : Table K V :=
  { t with m_buckets := [], m_flags := [], m_bucket_count := 0, m_size := 0, m_occupied := 0 }

/-- Loop of `rehash_internal` over the old slots `i = old_n_buckets - remaining,
...`: every occupied old slot is moved to its insert slot in the new table.
The moved-from pair is then destroyed and the old arrays are released, which
leaves no trace in the table. -/
def rehash_move_loop (c : Config K) (old_buckets : List (Option (K × V))) (old_flags : List Nat) :
    Nat → Nat → Table K V → Outcome (Table K V)
  | 0, _, t => .ok t
  | remaining + 1, i, t =>
    match get_state old_flags i with
    | .fault e => .fault e
    | .ok s =>
      if s = State.Occupied then
        match old_buckets[i]? with
        | some (some p) =>
          match find_insert_slot c t p.1 with
          | .fault e => .fault e
          | .ok slot =>
            match construct t.m_buckets slot p with
            | .fault e => .fault e
            | .ok b =>
              match set_state t.m_flags slot State.Occupied with
              | .fault e => .fault e
              | .ok fl =>
                rehash_move_loop c old_buckets old_flags remaining (i + 1)
                  { t with m_buckets := b, m_flags := fl, m_size := t.m_size + 1,
                           m_occupied := t.m_occupied + 1 }
        | _ => .fault .undefined
      else rehash_move_loop c old_buckets old_flags remaining (i + 1) t

/-- Function `rehash_internal(new_n_buckets)`. -/
def rehash_internal (c : Config K) (t : Table K V) (new_n_buckets : Nat) : Outcome (Table K V) :=
  if new_n_buckets = 0 then
    match clear t with
    | .fault e => .fault e
    | .ok t1 => .ok (deallocate_storage t1)
  else
    let new_n_buckets := roundup32 new_n_buckets
    if new_n_buckets ≤ t.m_bucket_count then .ok t
    else if c.max_size < new_n_buckets then .fault .bad_alloc
    else
      let old_buckets := t.m_buckets
      let old_flags := t.m_flags
      let old_n_buckets := t.m_bucket_count
      let flag_array_size := (new_n_buckets + FLAGS_PER_U32 - 1) / FLAGS_PER_U32
      let t1 : Table K V :=
        { t with m_buckets := List.replicate new_n_buckets none,
                 m_flags := List.replicate flag_array_size 0xaaaaaaaa,
                 m_bucket_count := new_n_buckets, m_size := 0, m_occupied := 0 }
      if !old_buckets.isEmpty then rehash_move_loop c old_buckets old_flags old_n_buckets 0 t1
      else .ok t1

/-! ## Iterators -/

/-- Class `detail::map_iterator`: the cursor `m_index` into the bucket array of
the table it was made from. -/
structure map_iterator where
  m_index : Nat
deriving DecidableEq

/-- Loop of `map_iterator::advance`: skip slots that are not occupied.  The
loop makes at most `m_bucket_count - m_index` steps. -/
def advance_loop (t : Table K V) : Nat → Nat → Outcome Nat
  | 0, m_index => if m_index < t.m_bucket_count then .fault .undefined else .ok m_index
  | fuel + 1, m_index =>
    if m_index < t.m_bucket_count then
      match is_occupied t.m_flags m_index with
      | .fault e => .fault e
      | .ok true => .ok m_index
      | .ok false => advance_loop t fuel (m_index + 1)
    else .ok m_index

/-- Function `map_iterator::advance()`. -/
def map_iterator.advance (t : Table K V) (it : map_iterator) : Outcome map_iterator :=
  match advance_loop t (t.m_bucket_count - it.m_index) it.m_index with
  | .fault e => .fault e
  | .ok m => .ok ⟨m⟩

/-- Constructor `map_iterator(map, index)`. -/
def map_iterator.create (t : Table K V) (index : Nat) : Outcome map_iterator :=
  if index < t.m_bucket_count then map_iterator.advance t ⟨index⟩ else .ok ⟨index⟩

/-- Prefix `operator++` of `map_iterator`. -/
def map_iterator.increment (t : Table K V) (it : map_iterator) : Outcome map_iterator :=
  map_iterator.advance t ⟨(it.m_index + 1) % 2 ^ 64⟩

/-- Function `begin()`. -/
def Table.begin (t : Table K V) : Outcome map_iterator :=
  map_iterator.create t 0

/-- Function `end()`. -/
def Table.end (t : Table K V) : Outcome map_iterator :=
  map_iterator.create t t.m_bucket_count

/-! ## Public operations -/

/-- The growth step shared by `emplace` and `operator[]`: when the table has no
buckets or one more occupied slot would exceed the load threshold, rehash into
twice the buckets (4 for the first allocation). -/
def grow_if_needed (c : Config K) (t : Table K V) : Outcome (Table K V) :=
  if t.m_bucket_count = 0 ∨ exceeds (t.m_occupied + 1) t.m_bucket_count t.m_max_load_factor then
    rehash_internal c t (if t.m_bucket_count > 0 then (t.m_bucket_count * 2) % 2 ^ 64 else 4)
  else .ok t

/-- The insertion tail shared by `emplace` and `operator[]`: construct the pair
in its insert slot, mark the slot occupied and update the counters. -/
def insert_new (c : Config K) (t : Table K V) (p : K × V) : Outcome (Table K V × Nat) :=
  match find_insert_slot c t p.1 with
  | .fault e => .fault e
  | .ok slot =>
    match get_state t.m_flags slot with
    | .fault e => .fault e
    | .ok s =>
      let was_empty := decide (s = State.Empty)
      match construct t.m_buckets slot p with
      | .fault e => .fault e
      | .ok b =>
        match set_state t.m_flags slot State.Occupied with
        | .fault e => .fault e
        | .ok fl =>
          .ok ({ t with m_buckets := b, m_flags := fl, m_size := t.m_size + 1,
                        m_occupied := if was_empty then t.m_occupied + 1 else t.m_occupied },
               slot)

/-- Function `emplace(key, value)`: the table after the call, the returned
iterator and the returned flag. -/
def emplace (c : Config K) (t : Table K V) (key : K) (value : V) :
    Outcome (Table K V × map_iterator × Bool) :=
  match grow_if_needed c t with
  | .fault e => .fault e
  | .ok t1 =>
    match find_key c t1 key with
    | .fault e => .fault e
    | .ok index =>
      if index ≠ t1.m_bucket_count then
        match map_iterator.create t1 index with
        | .fault e => .fault e
        | .ok it => .ok (t1, it, false)
      else
        match insert_new c t1 (key, value) with
        | .fault e => .fault e
        | .ok (t2, slot) =>
          match map_iterator.create t2 slot with
          | .fault e => .fault e
          | .ok it => .ok (t2, it, true)

/-- Function `insert(value)`: forwards the pair to `emplace`. -/
def insert (c : Config K) (t : Table K V) (value : K × V) :
    Outcome (Table K V × map_iterator × Bool) :=
  emplace c t value.1 value.2

/-- Function `erase(pos)`: the table after the call and the returned
iterator. -/
def erase_pos (t : Table K V) (pos : map_iterator) : Outcome (Table K V × map_iterator) :=
  let index := pos.m_index
  let invalid : Outcome Bool :=
    if index ≥ t.m_bucket_count then .ok true
    else
      match is_occupied t.m_flags index with
      | .fault e => .fault e
      | .ok o => .ok (!o)
  match invalid with
  | .fault e => .fault e
  | .ok true =>
    match Table.end t with
    | .fault e => .fault e
    | .ok it => .ok (t, it)
  | .ok false =>
    match destroy t.m_buckets index with
    | .fault e => .fault e
    | .ok b =>
      match set_state t.m_flags index State.Deleted with
      | .fault e => .fault e
      | .ok fl =>
        let t1 : Table K V :=
          { t with m_buckets := b, m_flags := fl, m_size := (t.m_size + 2 ^ 64 - 1) % 2 ^ 64 }
        match map_iterator.create t1 index with
        | .fault e => .fault e
        | .ok it =>
          match map_iterator.increment t1 it with
          | .fault e => .fault e
          | .ok it1 => .ok (t1, it1)

/-- Function `erase(key)`: the table after the call and the returned count. -/
def erase (c : Config K) (t : Table K V) (key : K) : Outcome (Table K V × Nat) :=
  match find_key c t key with
  | .fault e => .fault e
  | .ok index =>
    if index ≠ t.m_bucket_count then
      match map_iterator.create t index with
      | .fault e => .fault e
      | .ok pos =>
        match erase_pos t pos with
        | .fault e => .fault e
        | .ok (t1, _) => .ok (t1, 1)
    else .ok (t, 0)

/-- Function `at(key)`: the mapped value, or the `out_of_range` exception. -/
def at_key (c : Config K) (t : Table K V) (key : K) : Outcome V :=
  match find_key c t key with
  | .fault e => .fault e
  | .ok index =>
    if index = t.m_bucket_count then .fault .out_of_range
    else
      match t.m_buckets[index]? with
      | some (some p) => .ok p.2
      | _ => .fault .undefined

/-- Function `operator[](key)`: the table after the call and the index of the
slot whose mapped value the returned reference designates. -/
def operator_subscript [Inhabited V] (c : Config K) (t : Table K V) (key : K) :
    Outcome (Table K V × Nat) :=
  match grow_if_needed c t with
  | .fault e => .fault e
  | .ok t1 =>
    match find_key c t1 key with
    | .fault e => .fault e
    | .ok index =>
      if index ≠ t1.m_bucket_count then
        match t1.m_buckets[index]? with
        | some (some _) => .ok (t1, index)
        | _ => .fault .undefined
      else insert_new c t1 (key, default)

/-- Function `count(key)`. -/
def count (c : Config K) (t : Table K V) (key : K) : Outcome Nat :=
  match find_key c t key with
  | .fault e => .fault e
  | .ok index => .ok (if index ≠ t.m_bucket_count then 1 else 0)

/-- Function `find(key)`. -/
def find (c : Config K) (t : Table K V) (key : K) : Outcome map_iterator :=
  match find_key c t key with
  | .fault e => .fault e
  | .ok index => if index = t.m_bucket_count then Table.end t else map_iterator.create t index

/-- Function `rehash(count)`. -/
def rehash (c : Config K) (t : Table K V) (count : Nat) : Outcome (Table K V) :=
  if count > t.m_bucket_count then rehash_internal c t count else .ok t

/-- Function `reserve(count)`: the request is `count / max_load_factor`
computed in `float`, truncated to `size_type`, plus one. -/
def reserve (c : Config K) (t : Table K V) (count : Nat) : Outcome (Table K V) :=
  if count > 0 then
    let f := t.m_max_load_factor
    if f.num = 0 then .fault .undefined
    else
      let quotient := to_float count * f.den / f.num
      if quotient < 2 ^ 64 then rehash_internal c t ((quotient + 1) % 2 ^ 64)
      else .fault .undefined
  else .ok t

/-- Function `max_load_factor(ml)`, the setter of the load factor. -/
def max_load_factor (t : Table K V) (ml : LoadFactor) : Table K V :=
  { t with m_max_load_factor := ml }

end Ops

end FastSTL

namespace FastSTL

/-! ## Specification-level views -/

/-- State field of slot `i` as stored in the flag array (0 when the word is
missing). -/
def slot_state (m_flags : List Nat) (i : Nat) : Nat :=
  ((m_flags.getD (i / 16) 0) >>> (i % 16 * 2)) &&& 3

/-- Number of indices below `n` at which `P` holds. -/
def cnt (P : Nat → Bool) : Nat → Nat
  | 0 => 0
  | n + 1 => cnt P n + (if P n then 1 else 0)

section Spec

variable {K V : Type}

/-- Slot `i` of the table is occupied by the pair `p`. -/
def Holds (t : Table K V) (i : Nat) (p : K × V) : Prop :=
  i < t.m_bucket_count ∧ slot_state t.m_flags i = State.Occupied ∧
    t.m_buckets[i]? = some (some p)

/-- Home slot of a key: its hash reduced to a bucket index. -/
def home (c : Config K) (t : Table K V) (key : K) : Nat :=
  c.m_hasher key % t.m_bucket_count

/-- Slot reached after `d` probe steps from the home slot of `key`. -/
def probe (c : Config K) (t : Table K V) (key : K) (d : Nat) : Nat :=
  (home c t key + d) % t.m_bucket_count

/-- Requirements on the template arguments: the equality predicate is an
equivalence, equal keys hash alike, and the allocator cannot serve `2 ^ 63`
elements or more (a pair takes at least two bytes of a 64-bit address
space). -/
structure Lawful (c : Config K) : Prop where
  refl : ∀ a, c.m_key_equal a a = true
  symm : ∀ a b, c.m_key_equal a b = true → c.m_key_equal b a = true
  trans : ∀ a b d, c.m_key_equal a b = true → c.m_key_equal b d = true →
    c.m_key_equal a d = true
  hash_eq : ∀ a b, c.m_key_equal a b = true → c.m_hasher a = c.m_hasher b
  max_size_lt : c.max_size < 2 ^ 63

/-- Load factors for which a count that passes the growth test fits in the
buckets. -/
def LoadFactor.Fits (f : LoadFactor) : Prop :=
  ∀ x k, k < 64 → exceeds x (2 ^ k) f = false → x ≤ 2 ^ k

/-- Representation invariant of the table. -/
structure Inv (c : Config K) (t : Table K V) : Prop where
  pow2 : t.m_bucket_count = 0 ∨ ∃ k, 2 ≤ k ∧ k < 63 ∧ t.m_bucket_count = 2 ^ k
  len_buckets : t.m_buckets.length = t.m_bucket_count
  len_flags : t.m_flags.length = (t.m_bucket_count + 15) / 16
  valid : ∀ i, i < t.m_bucket_count → slot_state t.m_flags i ≤ 2
  constructed : ∀ i, i < t.m_bucket_count → slot_state t.m_flags i = State.Occupied →
    ∃ p, t.m_buckets[i]? = some (some p)
  size_eq : t.m_size =
    cnt (fun i => decide (slot_state t.m_flags i = State.Occupied)) t.m_bucket_count
  occupied_eq : t.m_occupied =
    cnt (fun i => decide (slot_state t.m_flags i ≠ State.Empty)) t.m_bucket_count
  chain : ∀ d p, d < t.m_bucket_count → Holds t (probe c t p.1 d) p →
    ∀ e, e < d → slot_state t.m_flags (probe c t p.1 e) ≠ State.Empty
  unique : ∀ i j p q, Holds t i p → Holds t j q → c.m_key_equal p.1 q.1 = true → i = j
  fits : t.m_max_load_factor.Fits

/-- Placement rule of `find_insert_slot`, for the result `r`: with `e` the
distance of the first empty slot on the probe path of `key` (`e` is the bucket
count when the path has none), `r` is the first tombstone before `e` if there
is one, else the slot at distance `e` (the bucket count when `e` is). -/
def InsertPost (c : Config K) (t : Table K V) (key : K) (r : Nat) : Prop :=
  ∃ e, e ≤ t.m_bucket_count ∧
    (e < t.m_bucket_count → slot_state t.m_flags (probe c t key e) = State.Empty) ∧
    (∀ e', e' < e → slot_state t.m_flags (probe c t key e') ≠ State.Empty) ∧
    ((∃ e0, e0 < e ∧ r = probe c t key e0 ∧
        slot_state t.m_flags (probe c t key e0) = State.Deleted ∧
        ∀ e', e' < e0 → slot_state t.m_flags (probe c t key e') ≠ State.Deleted) ∨
     (r = (if e < t.m_bucket_count then probe c t key e else t.m_bucket_count) ∧
        ∀ e', e' < e → slot_state t.m_flags (probe c t key e') ≠ State.Deleted))

/-- The pairs held by `t2` are exactly the pairs held by `t1`. -/
def SameContent (t1 t2 : Table K V) : Prop :=
  ∀ q, (∃ j, Holds t2 j q) ↔ (∃ j, Holds t1 j q)

/-- Loop invariant of the move loop of `rehash_internal`: the new table `t`
holds exactly the pairs of the old table `o` found below index `i`, and has no
tombstone. -/
structure Moved (c : Config K) (o t : Table K V) (i : Nat) : Prop where
  inv : Inv c t
  no_tomb : t.m_occupied = t.m_size
  count : t.m_size = cnt (fun j => decide (slot_state o.m_flags j = State.Occupied)) i
  sound : ∀ j q, Holds t j q → ∃ j', j' < i ∧ Holds o j' q
  complete : ∀ j' q, j' < i → Holds o j' q → ∃ j, Holds t j q
  lf : t.m_max_load_factor = o.m_max_load_factor

/-- Relation between a table and the table a growing rehash turns it into. -/
structure Rehashed (c : Config K) (o t : Table K V) : Prop where
  inv : Inv c t
  size : t.m_size = o.m_size
  no_tomb : t.m_occupied = t.m_size
  content : SameContent o t
  lf : t.m_max_load_factor = o.m_max_load_factor

/-- Tables reachable from the default-constructed table by calls of the public
mutating operations that return normally.  The arguments of `reserve` and
`rehash` are `size_type` values. -/
inductive Reachable [Inhabited V] (c : Config K) : Table K V → Prop
  | init : Reachable c Table.init
  | emplace {t : Table K V} {key : K} {value : V} {r : Table K V × map_iterator × Bool} :
      Reachable c t → emplace c t key value = .ok r → Reachable c r.1
  | insert {t : Table K V} {value : K × V} {r : Table K V × map_iterator × Bool} :
      Reachable c t → insert c t value = .ok r → Reachable c r.1
  | operator_subscript {t : Table K V} {key : K} {r : Table K V × Nat} :
      Reachable c t → operator_subscript c t key = .ok r → Reachable c r.1
  | erase_pos {t : Table K V} {pos : map_iterator} {r : Table K V × map_iterator} :
      Reachable c t → erase_pos t pos = .ok r → Reachable c r.1
  | erase {t : Table K V} {key : K} {r : Table K V × Nat} :
      Reachable c t → erase c t key = .ok r → Reachable c r.1
  | clear {t r : Table K V} : Reachable c t → clear t = .ok r → Reachable c r
  | reserve {t r : Table K V} {count : Nat} :
      Reachable c t → count < 2 ^ 64 → reserve c t count = .ok r → Reachable c r
  | rehash {t r : Table K V} {count : Nat} :
      Reachable c t → count < 2 ^ 64 → rehash c t count = .ok r → Reachable c r

/-- A call of one of the mutating operations named in the round-trip
property. -/
inductive Call (K V : Type) where
  | emplace (key : K) (value : V)
  | subscript (key : K)
  | erase (key : K)
  | clear
  | reserve (count : Nat)
  | rehash (count : Nat)

/-- Effect of one call on the table. -/
def Call.apply [Inhabited V] (c : Config K) (t : Table K V) : Call K V → Outcome (Table K V)
  | .emplace key value =>
    match FastSTL.emplace c t key value with
    | .ok r => .ok r.1
    | .fault e => .fault e
  | .subscript key =>
    match FastSTL.operator_subscript c t key with
    | .ok r => .ok r.1
    | .fault e => .fault e
  | .erase key =>
    match FastSTL.erase c t key with
    | .ok r => .ok r.1
    | .fault e => .fault e
  | .clear => FastSTL.clear t
  | .reserve count => FastSTL.reserve c t count
  | .rehash count => FastSTL.rehash c t count

/-- Effect of a sequence of calls, in order; the first fault ends it. -/
def run [Inhabited V] (c : Config K) : List (Call K V) → Table K V → Outcome (Table K V)
  | [], t => .ok t
  | call :: rest, t =>
    match call.apply c t with
    | .ok t1 => run c rest t1
    | .fault e => .fault e

/-- The arguments of the call are `size_type` values, and the request of a
`reserve` fits in a `size_type` after its conversion through `float`. -/
def Call.valid : Call K V → Prop
  | .reserve count => 2 * to_float count < 2 ^ 64
  | .rehash count => count < 2 ^ 64
  | _ => True

/-- The mapping a sequence of calls is specified to build, as the list of its
live pairs: inserting a key that is present changes nothing, erasing removes
the pair of the key, clearing removes every pair, and capacity requests leave
the mapping alone. -/
def spec_apply [Inhabited V] (c : Config K) (m : List (K × V)) : Call K V → List (K × V)
  | .emplace key value => if m.any (fun p => c.m_key_equal p.1 key) then m else (key, value) :: m
  | .subscript key => if m.any (fun p => c.m_key_equal p.1 key) then m else (key, default) :: m
  | .erase key => m.filter (fun p => !c.m_key_equal p.1 key)
  | .clear => []
  | .reserve _ => m
  | .rehash _ => m

/-- The specified mapping after a sequence of calls. -/
def spec_run [Inhabited V] (c : Config K) : List (Call K V) → List (K × V) → List (K × V)
  | [], m => m
  | call :: rest, m => spec_run c rest (spec_apply c m call)

/-- The pair the specified mapping associates with `key`, if any. -/
def spec_lookup (c : Config K) (m : List (K × V)) (key : K) : Option (K × V) :=
  m.find? (fun p => c.m_key_equal p.1 key)

/-- The round-trip property at `key`, for a table `t` that is to implement the
mapping `m`: when `m` associates the pair `p` with `key`, `find` returns the
position of an occupied slot holding `p` and `count` returns 1; when `m`
associates nothing, `find` returns `end()` and `count` returns 0. -/
def RoundTrip (c : Config K) (m : List (K × V)) (t : Table K V) (key : K) : Prop :=
  match spec_lookup c m key with
  | some p =>
    ∃ i, find c t key = .ok ⟨i⟩ ∧ i < t.m_bucket_count ∧
      get_state t.m_flags i = .ok State.Occupied ∧ t.m_buckets[i]? = some (some p) ∧
      count c t key = .ok 1
  | none => find c t key = Table.end t ∧ count c t key = .ok 0

/-- The table holds exactly the pairs of the specified mapping `m`. -/
structure Refines (c : Config K) (m : List (K × V)) (t : Table K V) : Prop where
  inv : Inv c t
  lf : t.m_max_load_factor = ⟨1, 2⟩
  content : ∀ q, (∃ j, Holds t j q) ↔ q ∈ m

/-- The client loop `for (it = begin(); it != end(); ++it)`, entered with the
iterator `it`: the indices of the slots visited, in order.  The loop body runs
at most once per bucket. -/
def traverse (t : Table K V) : Nat → map_iterator → Outcome (List Nat)
  | 0, _ => .fault .undefined
  | fuel + 1, it =>
    match Table.end t with
    | .fault e => .fault e
    | .ok last =>
      if it = last then .ok []
      else
        match map_iterator.increment t it with
        | .fault e => .fault e
        | .ok next =>
          match traverse t fuel next with
          | .fault e => .fault e
          | .ok visited => .ok (it.m_index :: visited)

/-- The traversal of the whole table from `begin()`. -/
def traverse_all (t : Table K V) : Outcome (List Nat) :=
  match Table.begin t with
  | .fault e => .fault e
  | .ok first => traverse t (t.m_bucket_count + 1) first

/-- The client loop `for (it = begin(); it != end(); ) it = erase(it);`: the
table it leaves.  The loop body runs at most once per bucket. -/
def erase_all_loop (t : Table K V) : Nat → map_iterator → Outcome (Table K V)
  | 0, _ => .fault .undefined
  | fuel + 1, it =>
    match Table.end t with
    | .fault e => .fault e
    | .ok last =>
      if it = last then .ok t
      else
        match erase_pos t it with
        | .fault e => .fault e
        | .ok (t1, next) => erase_all_loop t1 fuel next

/-- The bucket count gives capacity for `n` entries at the load factor of the
table: `n <= bucket_count * max_load_factor`, with the factor as the exact
fraction `num / den`. -/
@[reducible] def CapacityFor (t : Table K V) (n : Nat) : Prop :=
  n * t.m_max_load_factor.den ≤ t.m_bucket_count * t.m_max_load_factor.num

/-- Number of slots `i < bucket_count` for which `get_state(i)` is `s`. -/
def count_state (t : Table K V) (s : State) : Nat :=
  ((List.range t.m_bucket_count).filter
    (fun i => decide (get_state t.m_flags i = .ok s))).length

/-- Slot at distance `d` on the cyclic probe path of `key`: the path starts at
`hash(key) & (bucket_count - 1)` and steps by one with wraparound. -/
def probe_path (c : Config K) (t : Table K V) (key : K) (d : Nat) : Nat :=
  ((c.m_hasher key &&& (t.m_bucket_count - 1)) + d) % t.m_bucket_count

/-- Hash table configuration used in the examples: keys are natural numbers
hashing to themselves and compared with `==`; the allocator serves up to
`2 ^ 40` elements. -/
def nat_config : Config Nat :=
  { m_hasher := fun key => key, m_key_equal := fun a b => a == b, max_size := 2 ^ 40 }

/-- The calls `rehash(2 ^ 25)` and then `emplace(k, 0)` for `k = 0, ..., n - 1`. -/
def fill_calls (n : Nat) : List (Call Nat Nat) :=
  Call.rehash (2 ^ 25) :: (List.range n).map (fun k => Call.emplace k 0)

/-- The table after `emplace(1, 10)` and `emplace(2, 20)`. -/
def example_pair : Table Nat Nat :=
  { m_buckets := [none, some (1, 10), some (2, 20), none],
    m_flags := [2863311490],
    m_bucket_count := 4, m_size := 2, m_occupied := 2,
    m_max_load_factor := { num := 1, den := 2 } }

/-- The table after `emplace(1, 10)` and `erase(1)`: one tombstone, no live
entry. -/
def example_tombstone : Table Nat Nat :=
  { m_buckets := [none, none, none, none],
    m_flags := [2863311526],
    m_bucket_count := 4, m_size := 0, m_occupied := 1,
    m_max_load_factor := { num := 1, den := 2 } }

/-- The table after `emplace(0, 0)`, `emplace(1, 10)` and `emplace(2, 20)`. -/
def example_three : Table Nat Nat :=
  { m_buckets := [some (0, 0), some (1, 10), some (2, 20), none, none, none, none, none],
    m_flags := [2863311488],
    m_bucket_count := 8, m_size := 3, m_occupied := 3,
    m_max_load_factor := { num := 1, den := 2 } }

/-- The table after `emplace(0, 0)`. -/
def example_single : Table Nat Nat :=
  { m_buckets := [some (0, 0), none, none, none],
    m_flags := [2863311528],
    m_bucket_count := 4, m_size := 1, m_occupied := 1,
    m_max_load_factor := { num := 1, den := 2 } }

/-- The table after `emplace(1, 10)`, `emplace(2, 20)`, `emplace(3, 30)` and
`erase(2)`: a tombstone between two live entries. -/
def example_gap : Table Nat Nat :=
  { m_buckets := [none, some (1, 10), none, some (3, 30), none, none, none, none],
    m_flags := [2863311378],
    m_bucket_count := 8, m_size := 2, m_occupied := 3,
    m_max_load_factor := { num := 1, den := 2 } }

/-- The scenario of the specification: keys 1 to 10 are inserted, keys 1, 3
and 5 erased, and key 1 inserted again with a new value. -/
def scenario_calls : List (Call Nat Nat) :=
  [.emplace 1 10, .emplace 2 20, .emplace 3 30, .emplace 4 40, .emplace 5 50, .emplace 6 60,
   .emplace 7 70, .emplace 8 80, .emplace 9 90, .emplace 10 100,
   .erase 1, .erase 3, .erase 5, .emplace 1 11]

/-- The table `rehash(5)` turns `example_tombstone` into: 8 empty buckets. -/
def example_regrown : Table Nat Nat :=
  { m_buckets := [none, none, none, none, none, none, none, none],
    m_flags := [2863311530],
    m_bucket_count := 8, m_size := 0, m_occupied := 0,
    m_max_load_factor := { num := 1, den := 2 } }

/-- The table `example_pair` rehashed into 8 buckets: what `reserve(2)` and a
second `emplace(2, 99)` turn it into. -/
def example_pair_grown : Table Nat Nat :=
  { m_buckets := [none, some (1, 10), some (2, 20), none, none, none, none, none],
    m_flags := [2863311490],
    m_bucket_count := 8, m_size := 2, m_occupied := 2,
    m_max_load_factor := { num := 1, den := 2 } }

/-- The table `clear()` turns `example_pair` into: 4 empty buckets. -/
def example_pair_cleared : Table Nat Nat :=
  { m_buckets := [none, none, none, none],
    m_flags := [2863311530],
    m_bucket_count := 4, m_size := 0, m_occupied := 0,
    m_max_load_factor := { num := 1, den := 2 } }

/-- The table after `max_load_factor(0.125f)` and `emplace(1, 10)` on the
default-constructed table. -/
def example_eighth : Table Nat Nat :=
  { m_buckets := [none, some (1, 10), none, none],
    m_flags := [2863311522],
    m_bucket_count := 4, m_size := 1, m_occupied := 1,
    m_max_load_factor := { num := 1, den := 8 } }

/-- The table after `max_load_factor(0.125f)` and `operator[](1)` on the
default-constructed table. -/
def example_eighth_default : Table Nat Nat :=
  { m_buckets := [none, some (1, 0), none, none],
    m_flags := [2863311522],
    m_bucket_count := 4, m_size := 1, m_occupied := 1,
    m_max_load_factor := { num := 1, den := 8 } }

/-- The table `rehash_internal(9)` turns `example_pair` into: 16 buckets. -/
def example_pair_sixteen : Table Nat Nat :=
  { m_buckets := [none, some (1, 10), some (2, 20), none, none, none, none, none,
                  none, none, none, none, none, none, none, none],
    m_flags := [2863311490],
    m_bucket_count := 16, m_size := 2, m_occupied := 2,
    m_max_load_factor := { num := 1, den := 2 } }

/-- The table the scenario ends in. -/
def scenario_table : Table Nat Nat :=
  { m_buckets := [none, some (1, 11), some (2, 20), none, some (4, 40), none, some (6, 60),
      some (7, 70), some (8, 80), some (9, 90), some (10, 100), none, none, none, none, none,
      none, none, none, none, none, none, none, none, none, none, none, none, none, none, none,
      none],
    m_flags := [2860516418, 2863311530],
    m_bucket_count := 32, m_size := 8, m_occupied := 10,
    m_max_load_factor := { num := 1, den := 2 } }

end Spec

end FastSTL

namespace FastSTL

/-! ## Bit-level facts about the state words -/

theorem shr4_eq (i : Nat) : i >>> 4 = i / 16 := by
  rw [Nat.shiftRight_eq_div_pow]

theorem and15_eq (i : Nat) : i &&& (FLAGS_PER_U32 - 1) = i % 16 := by
  have h := Nat.and_pow_two_sub_one_eq_mod i 4
  simpa using h

theorem testBit_three (k : Nat) : Nat.testBit 3 k = decide (k < 2) := by
  have h := Nat.testBit_two_pow_sub_one 2 k
  simpa using h

/-- Reading field `b` of a word after field `a` was rewritten to `s`. -/
theorem field_word_set (w a b s : Nat) (ha : a < 16) (hb : b < 16) (hs : s < 4) :
    ((((w &&& (2 ^ 64 - 1 - (0b11 <<< (a * 2)))) % 2 ^ 32) ||| ((s <<< (a * 2)) % 2 ^ 32))
        >>> (b * 2)) &&& 3
      = if a = b then s else (w >>> (b * 2)) &&& 3 := by
  have h3 : (3 : Nat) <<< (a * 2) < 2 ^ 64 := by
    rw [Nat.shiftLeft_eq]
    calc 3 * 2 ^ (a * 2) ≤ 3 * 2 ^ 30 := by
          apply Nat.mul_le_mul_left
          exact Nat.pow_le_pow_right (by norm_num) (by omega)
      _ < 2 ^ 64 := by norm_num
  have hsub : 2 ^ 64 - 1 - (3 <<< (a * 2)) = 2 ^ 64 - (3 <<< (a * 2) + 1) := by omega
  apply Nat.eq_of_testBit_eq
  intro k
  rw [hsub]
  simp only [Nat.testBit_land, Nat.testBit_shiftRight, Nat.testBit_lor, Nat.testBit_mod_two_pow,
    Nat.testBit_two_pow_sub_succ h3, Nat.testBit_shiftLeft, testBit_three]
  by_cases hk : k < 2
  · by_cases hab : a = b
    · subst hab
      have e1 : a * 2 + k - a * 2 = k := by omega
      have hlt : a * 2 + k < 32 := by omega
      simp only [if_true, e1, hk, hlt, decide_True, Bool.true_and, Bool.and_true]
      have hge : a * 2 + k ≥ a * 2 := by omega
      simp [hge]
    · simp only [hab, if_false, Nat.testBit_land, Nat.testBit_shiftRight, testBit_three]
      have hlt : b * 2 + k < 32 := by omega
      have hlt' : b * 2 + k < 64 := by omega
      by_cases hge : b * 2 + k ≥ a * 2
      · have : ¬ (b * 2 + k - a * 2 < 2) := by omega
        have hs' : s.testBit (b * 2 + k - a * 2) = false := by
          apply Nat.testBit_lt_two_pow
          calc s < 2 ^ 2 := by omega
            _ ≤ 2 ^ (b * 2 + k - a * 2) := Nat.pow_le_pow_right (by norm_num) (by omega)
        simp [hk, hlt, hlt', hge, this, hs']
      · simp [hk, hlt, hlt', hge]
  · have : s.testBit k = false := by
      apply Nat.testBit_lt_two_pow
      calc s < 2 ^ 2 := by omega
        _ ≤ 2 ^ k := Nat.pow_le_pow_right (by norm_num) (by omega)
    by_cases hab : a = b <;> simp [hk, hab, this, testBit_three]

theorem get_state_eq (fl : List Nat) (i : Nat) (h : i / 16 < fl.length) :
    get_state fl i = .ok (slot_state fl i) := by
  unfold get_state slot_state
  rw [shr4_eq, and15_eq]
  have hget : fl[i / 16]? = some (fl.getD (i / 16) 0) := by
    rw [List.getD_eq_getElem?_getD, List.getElem?_eq_getElem h]
    rfl
  rw [hget]

theorem is_occupied_eq (fl : List Nat) (i : Nat) (h : i / 16 < fl.length) :
    is_occupied fl i = .ok (decide (slot_state fl i = 0)) := by
  unfold is_occupied
  rw [get_state_eq fl i h]

theorem set_state_spec (fl : List Nat) (i s : Nat) (h : i / 16 < fl.length) (hs : s < 4) :
    ∃ fl1, set_state fl i s = .ok fl1 ∧ fl1.length = fl.length ∧
      slot_state fl1 i = s ∧ ∀ j, j ≠ i → slot_state fl1 j = slot_state fl j := by
  unfold set_state
  rw [shr4_eq, and15_eq]
  have hget : fl[i / 16]? = some (fl.getD (i / 16) 0) := by
    rw [List.getD_eq_getElem?_getD, List.getElem?_eq_getElem h]
    rfl
  rw [hget]
  refine ⟨_, rfl, by simp, ?_, ?_⟩
  · unfold slot_state
    rw [List.getD_eq_getElem?_getD, List.getElem?_set]
    simp only [if_true, h, Option.getD_some]
    have := field_word_set (fl.getD (i / 16) 0) (i % 16) (i % 16) s (Nat.mod_lt _ (by norm_num))
      (Nat.mod_lt _ (by norm_num)) hs
    simpa using this
  · intro j hj
    unfold slot_state
    by_cases hw : i / 16 = j / 16
    · have hne : i % 16 ≠ j % 16 := by omega
      rw [List.getD_eq_getElem?_getD, List.getElem?_set, if_pos hw, if_pos h, Option.getD_some,
        ← hw]
      have := field_word_set (fl.getD (i / 16) 0) (i % 16) (j % 16) s (Nat.mod_lt _ (by norm_num))
        (Nat.mod_lt _ (by norm_num)) hs
      simp only [hne, if_false] at this
      simpa using this
    · rw [List.getD_eq_getElem?_getD, List.getElem?_set]
      simp only [hw, if_false]
      rw [← List.getD_eq_getElem?_getD]

/-- Every field of the fill word `0xaaaaaaaa` is `Empty`. -/
theorem slot_state_replicate (m i : Nat) (h : i / 16 < m) :
    slot_state (List.replicate m 0xaaaaaaaa) i = State.Empty := by
  unfold slot_state
  rw [List.getD_eq_getElem?_getD, List.getElem?_replicate]
  simp only [h, if_true, Option.getD_some]
  have hb : i % 16 < 16 := Nat.mod_lt _ (by norm_num)
  generalize i % 16 = b at hb
  interval_cases b <;> rfl

end FastSTL

namespace FastSTL

/-! ## Counting -/

theorem cnt_le (P : Nat → Bool) (n : Nat) : cnt P n ≤ n := by
  induction n with
  | zero => simp [cnt]
  | succ n ih => simp only [cnt]; split <;> omega

theorem cnt_congr (P Q : Nat → Bool) (n : Nat) (h : ∀ i, i < n → P i = Q i) :
    cnt P n = cnt Q n := by
  induction n with
  | zero => simp [cnt]
  | succ n ih =>
    simp only [cnt]
    rw [ih (fun i hi => h i (by omega)), h n (by omega)]

theorem cnt_update (P Q : Nat → Bool) (n j : Nat) (hj : j < n)
    (h : ∀ i, i < n → i ≠ j → Q i = P i) :
    cnt Q n + (if P j then 1 else 0) = cnt P n + (if Q j then 1 else 0) := by
  induction n with
  | zero => omega
  | succ n ih =>
    simp only [cnt]
    by_cases hjn : j = n
    · subst hjn
      have := cnt_congr Q P j (fun i hi => h i (by omega) (by omega))
      omega
    · have := ih (by omega) (fun i hi hne => h i (by omega) hne)
      rw [h n (by omega) (fun e => hjn e.symm)]
      omega

theorem cnt_mono (P Q : Nat → Bool) (n : Nat) (h : ∀ i, i < n → P i = true → Q i = true) :
    cnt P n ≤ cnt Q n := by
  induction n with
  | zero => simp [cnt]
  | succ n ih =>
    simp only [cnt]
    have := ih (fun i hi => h i (by omega))
    have hn := h n (by omega)
    by_cases hp : P n = true
    · simp [hp, hn hp]; omega
    · simp [hp]; split <;> omega

theorem cnt_zero_of_false (P : Nat → Bool) (n : Nat) (h : ∀ i, i < n → P i = false) :
    cnt P n = 0 := by
  induction n with
  | zero => simp [cnt]
  | succ n ih =>
    simp only [cnt]
    rw [ih (fun i hi => h i (by omega)), h n (by omega)]
    simp

theorem cnt_all_of_true (P : Nat → Bool) (n : Nat) (h : ∀ i, i < n → P i = true) :
    cnt P n = n := by
  induction n with
  | zero => simp [cnt]
  | succ n ih =>
    simp only [cnt]
    rw [ih (fun i hi => h i (by omega)), h n (by omega)]
    simp

theorem cnt_lt_exists (P : Nat → Bool) (n : Nat) (h : cnt P n < n) :
    ∃ i, i < n ∧ P i = false := by
  by_contra hc
  push_neg at hc
  have := cnt_all_of_true P n (fun i hi => by simpa using hc i hi)
  omega

theorem cnt_pos (P : Nat → Bool) (n i : Nat) (hi : i < n) (hp : P i = true) : 0 < cnt P n := by
  induction n with
  | zero => omega
  | succ n ih =>
    simp only [cnt]
    by_cases hin : i = n
    · subst hin; simp [hp]
    · have := ih (by omega); omega

/-- When the count of `P` equals the count of the weaker `Q`, they agree. -/
theorem cnt_eq_imp (P Q : Nat → Bool) (n : Nat) (h : ∀ i, i < n → P i = true → Q i = true)
    (he : cnt P n = cnt Q n) : ∀ i, i < n → Q i = true → P i = true := by
  induction n with
  | zero => intro i hi; omega
  | succ n ih =>
    simp only [cnt] at he
    have hm := cnt_mono P Q n (fun i hi => h i (by omega))
    have hn := h n (by omega)
    intro i hi hq
    by_cases hpn : P n = true
    · have hqn := hn hpn
      simp only [hpn, hqn, if_true] at he
      by_cases hin : i = n
      · subst hin; exact hpn
      · exact ih (fun i hi => h i (by omega)) (by omega) i (by omega) hq
    · simp only [hpn] at he
      by_cases hqn : Q n = true
      · simp only [hqn, if_true] at he
        simp at he
        omega
      · simp only [hqn] at he
        by_cases hin : i = n
        · subst hin; exact absurd hq hqn
        · exact ih (fun i hi => h i (by omega)) (by simpa using he) i (by omega) hq

/-! ## Cyclic probe arithmetic -/

theorem mod_lt_two (x n : Nat) (h : x < 2 * n) (_hn : 0 < n) :
    x % n = if x < n then x else x - n := by
  split
  · exact Nat.mod_eq_of_lt (by assumption)
  · rw [Nat.mod_eq_sub_mod (by omega)]
    exact Nat.mod_eq_of_lt (by omega)

theorem mask_eq_mod (x k : Nat) : x &&& (2 ^ k - 1) = x % 2 ^ k :=
  Nat.and_pow_two_sub_one_eq_mod x k

theorem probe_step (h d k : Nat) :
    ((h + d) % 2 ^ k + 1) &&& (2 ^ k - 1) = (h + (d + 1)) % 2 ^ k := by
  rw [mask_eq_mod, Nat.mod_add_mod, Nat.add_assoc]

theorem probe_wrap (h d n : Nat) (hh : h < n) (hd : d < n) :
    (h + (d + 1)) % n = h ↔ d + 1 = n := by
  rw [mod_lt_two _ n (by omega) (by omega)]
  split <;> omega

theorem probe_inj (h d e n : Nat) (hh : h < n) (hd : d < n) (he : e < n)
    (heq : (h + d) % n = (h + e) % n) : d = e := by
  rw [mod_lt_two _ n (by omega) (by omega), mod_lt_two (h + e) n (by omega) (by omega)] at heq
  split at heq <;> split at heq <;> omega

theorem probe_surj (h i n : Nat) (hh : h < n) (hi : i < n) :
    ∃ d, d < n ∧ (h + d) % n = i := by
  by_cases hle : h ≤ i
  · exact ⟨i - h, by omega, by rw [Nat.mod_eq_of_lt (by omega)]; omega⟩
  · refine ⟨i + n - h, by omega, ?_⟩
    rw [mod_lt_two _ n (by omega) (by omega)]
    split <;> omega

theorem probe_lt (h d n : Nat) (hn : 0 < n) : (h + d) % n < n := Nat.mod_lt _ hn

end FastSTL

namespace FastSTL

/-! ## roundup32 -/

theorem roundup32_pow2 (k : Nat) (h2 : 2 ≤ k) (h64 : k < 64) : roundup32 (2 ^ k) = 2 ^ k := by
  interval_cases k <;> decide

/-- Bit `j` of `x` is the disjunction of bits `j, ..., j + w - 1` of `m`. -/
theorem smear_step (m x w : Nat)
    (h : ∀ j, x.testBit j = true ↔ ∃ s, s < w ∧ m.testBit (j + s) = true) :
    ∀ j, (x ||| (x >>> w)).testBit j = true ↔ ∃ s, s < 2 * w ∧ m.testBit (j + s) = true := by
  intro j
  rw [Nat.testBit_lor, Nat.testBit_shiftRight, Bool.or_eq_true, h, h]
  constructor
  · rintro (⟨s, hs, hb⟩ | ⟨s, hs, hb⟩)
    · exact ⟨s, by omega, hb⟩
    · exact ⟨w + s, by omega, by rw [← hb]; congr 1; omega⟩
  · rintro ⟨s, hs, hb⟩
    by_cases hsw : s < w
    · exact Or.inl ⟨s, hsw, hb⟩
    · exact Or.inr ⟨s - w, by omega, by rw [← hb]; congr 1; omega⟩

theorem smear_full (m x : Nat) (hm : m < 2 ^ 64) (h0 : 0 < m)
    (h : ∀ j, x.testBit j = true ↔ ∃ s, s < 64 ∧ m.testBit (j + s) = true) :
    x = 2 ^ (Nat.size m) - 1 := by
  have hL64 : Nat.size m ≤ 64 := Nat.size_le.mpr hm
  have hLpos : 0 < Nat.size m := Nat.size_pos.mpr h0
  have hhigh : ∀ i, m.testBit i = true → i < Nat.size m := by
    intro i hi
    by_contra hc
    have : m < 2 ^ i := lt_of_lt_of_le (Nat.lt_size_self m) (Nat.pow_le_pow_right (by norm_num) (by omega))
    rw [Nat.testBit_lt_two_pow this] at hi
    exact Bool.noConfusion hi
  have htop : m.testBit (Nat.size m - 1) = true := by
    have h2 : 2 ^ (Nat.size m - 1) ≤ m := Nat.lt_size.mp (by omega)
    obtain ⟨i, hi, hb⟩ := Nat.ge_two_pow_implies_high_bit_true h2
    have := hhigh i hb
    have : i = Nat.size m - 1 := by omega
    rw [← this]; exact hb
  apply Nat.eq_of_testBit_eq
  intro j
  rw [Nat.testBit_two_pow_sub_one]
  by_cases hj : j < Nat.size m
  · simp only [hj, decide_True]
    rw [h]
    exact ⟨Nat.size m - 1 - j, by omega, by rw [← htop]; congr 1; omega⟩
  · simp only [hj, decide_False]
    by_contra hc
    have hc' : x.testBit j = true := by simpa using hc
    rw [h] at hc'
    obtain ⟨s, _, hb⟩ := hc'
    have := hhigh _ hb
    omega

/-- Value of `roundup32`: the power of two given by the bit length of
`max 4 n - 1`, reduced modulo `2 ^ 64`. -/
theorem roundup32_eq (n : Nat) (hn : n < 2 ^ 64) :
    roundup32 n = 2 ^ (Nat.size ((if n < 4 then 4 else n) - 1)) % 2 ^ 64 := by
  unfold roundup32
  set m := (if n < 4 then 4 else n) - 1 with hm
  have hm0 : 0 < m := by rw [hm]; split <;> omega
  have hm64 : m < 2 ^ 64 := by rw [hm]; split <;> omega
  have s1 : ∀ j, m.testBit j = true ↔ ∃ s, s < 1 ∧ m.testBit (j + s) = true := by
    intro j
    constructor
    · intro h; exact ⟨0, by omega, by simpa using h⟩
    · rintro ⟨s, hs, hb⟩
      have : s = 0 := by omega
      subst this; simpa using hb
  have s2 := smear_step m _ 1 s1
  have s4 := smear_step m _ 2 s2
  have s8 := smear_step m _ 4 s4
  have s16 := smear_step m _ 8 s8
  have s32 := smear_step m _ 16 s16
  have s64 := smear_step m _ 32 s32
  have := smear_full m _ hm64 hm0 s64
  simp only [] at this ⊢
  rw [this]
  have : 0 < 2 ^ (Nat.size m) := Nat.pos_pow_of_pos _ (by norm_num)
  congr 1
  omega

/-- Shape of the result of `roundup32`: zero (the sum wrapped), or a power of
two that is at least 4, at least the request, and less than twice the
request when the request is at least 4. -/
theorem roundup32_spec (n : Nat) (hn : n < 2 ^ 64) :
    roundup32 n = 0 ∨
      ∃ k, 2 ≤ k ∧ k < 64 ∧ roundup32 n = 2 ^ k ∧ n ≤ 2 ^ k ∧ 2 ^ k < 2 * (if n < 4 then 4 else n) := by
  rw [roundup32_eq n hn]
  set m := (if n < 4 then 4 else n) - 1 with hm
  have hm3 : 3 ≤ m := by rw [hm]; split <;> omega
  have hm64 : m < 2 ^ 64 := by rw [hm]; split <;> omega
  have hL64 : Nat.size m ≤ 64 := Nat.size_le.mpr hm64
  have hL2 : 2 ≤ Nat.size m := by
    have : 1 < Nat.size m := Nat.lt_size.mpr (by norm_num; omega)
    omega
  by_cases h64 : Nat.size m = 64
  · left; rw [h64]; norm_num
  · right
    refine ⟨Nat.size m, hL2, by omega, ?_, ?_, ?_⟩
    · apply Nat.mod_eq_of_lt
      exact Nat.pow_lt_pow_right (by norm_num) (by omega)
    · have := Nat.lt_size_self m
      have hm' : n ≤ m + 1 := by rw [hm]; split <;> omega
      omega
    · have h2 : 2 ^ (Nat.size m - 1) ≤ m := Nat.lt_size.mp (by omega)
      have : 2 ^ (Nat.size m) = 2 * 2 ^ (Nat.size m - 1) := by
        rw [← pow_succ']; congr 1; omega
      rw [this]
      have hm' : m + 1 = (if n < 4 then 4 else n) := by rw [hm]; split <;> omega
      omega

/-! ## Conversion to float -/

theorem f32_drop_bound (fuel n : Nat) :
    f32_drop fuel n = 0 ∨ 2 ^ (f32_drop fuel n + 23) ≤ n := by
  induction fuel generalizing n with
  | zero => left; rfl
  | succ fuel ih =>
    unfold f32_drop
    split
    · left; rfl
    · right
      rcases ih (n / 2) with h | h
      · rw [h]
        have h24 : ¬ n < 2 ^ 24 := by assumption
        show 2 ^ 24 ≤ n
        omega
      · have : 2 ^ (f32_drop fuel (n / 2) + 1 + 23) = 2 * 2 ^ (f32_drop fuel (n / 2) + 23) := by
          rw [show f32_drop fuel (n / 2) + 1 + 23 = (f32_drop fuel (n / 2) + 23) + 1 by omega,
            pow_succ']
        rw [this]; omega

/-- A `float` is at least half the integer it was converted from. -/
theorem le_two_to_float (n : Nat) : n ≤ 2 * to_float n := by
  unfold to_float
  simp only []
  set e := f32_drop 64 n with he
  have hpos : 0 < 2 ^ e := Nat.pos_pow_of_pos _ (by norm_num)
  have hq : n >>> e = n / 2 ^ e := Nat.shiftRight_eq_div_pow n e
  have hdm := Nat.div_add_mod n (2 ^ e)
  have hr : n % 2 ^ e < 2 ^ e := Nat.mod_lt _ hpos
  have hq1 : n = 0 ∨ 1 ≤ n / 2 ^ e := by
    rcases f32_drop_bound 64 n with h | h
    · rw [← he] at h
      rw [h]; simp; omega
    · right
      rw [← he] at h
      apply (Nat.one_le_div_iff hpos).mpr
      exact le_trans (Nat.pow_le_pow_right (by norm_num) (by omega)) h
  rcases hq1 with h0 | h1
  · subst h0; simp
  · have hge : n / 2 ^ e * 2 ^ e ≤
        (if 2 ^ e < 2 * (n % 2 ^ e) ∨ 2 ^ e = 2 * (n % 2 ^ e) ∧ n >>> e % 2 = 1 then n >>> e + 1
          else n >>> e) * 2 ^ e := by
      apply Nat.mul_le_mul_right
      rw [hq]; split <;> omega
    have h2 : 2 ^ e ≤ n / 2 ^ e * 2 ^ e := Nat.le_mul_of_pos_left _ h1
    have hdm' : n / 2 ^ e * 2 ^ e + n % 2 ^ e = n := by rw [Nat.mul_comm]; exact hdm
    omega

theorem to_float_small (n : Nat) (h : n < 2 ^ 24) : to_float n = n := by
  unfold to_float
  have : f32_drop 64 n = 0 := by unfold f32_drop; rw [if_pos h]
  simp [this, Nat.mod_one]

theorem to_float_pow2 (k : Nat) (h64 : k < 64) : to_float (2 ^ k) = 2 ^ k := by
  interval_cases k <;> decide

/-- With the default factor `0.5`, a count that does not exceed the threshold
of a power-of-two bucket count is at most half of it, rounded as a float. -/
theorem not_exceeds_half (x k : Nat) (hk : k < 64)
    (h : exceeds x (2 ^ k) ⟨1, 2⟩ = false) : 2 * to_float x ≤ 2 ^ k := by
  unfold exceeds at h
  rw [to_float_pow2 k hk] at h
  simp only [decide_eq_false_iff_not, not_lt] at h
  omega

end FastSTL

namespace FastSTL

variable {K V : Type}

/-! ## The probe loops -/

theorem cache_read (fl : List Nat) (i widx w : Nat) (hw : widx = i >>> 4)
    (hget : fl[widx]? = some w) :
    (w >>> ((i &&& (FLAGS_PER_U32 - 1)) * 2)) &&& 0b11 = slot_state fl i := by
  subst hw
  unfold slot_state
  rw [shr4_eq] at hget
  rw [and15_eq, List.getD_eq_getElem?_getD, hget]
  rfl

theorem flags_word (fl : List Nat) (n i : Nat) (hlen : fl.length = (n + 15) / 16) (hi : i < n) :
    ∃ w, fl[i >>> 4]? = some w := by
  have : i / 16 < fl.length := by omega
  rw [shr4_eq]
  exact ⟨fl[i / 16], List.getElem?_eq_getElem this⟩

/-- A slot matches `key`: it is occupied by a pair whose key equals `key`. -/
theorem holds_unique_pair (t : Table K V) (i : Nat) (p q : K × V) (hp : Holds t i p)
    (hq : Holds t i q) : p = q := by
  have := hp.2.2
  rw [hq.2.2] at this
  simpa using this.symm

/-- Outcome of the loop of `find_key` entered at probe distance `d`. -/
theorem find_key_loop_spec (c : Config K) (t : Table K V) (key : K) (k : Nat)
    (hn : t.m_bucket_count = 2 ^ k) (hinv : Inv c t) :
    ∀ fuel d, d + fuel = t.m_bucket_count → 0 < fuel →
      ∀ widx w, widx = (probe c t key d) >>> 4 → t.m_flags[widx]? = some w →
      ∃ r, find_key_loop c t key (t.m_bucket_count - 1) (home c t key) fuel
              (probe c t key d) widx w = .ok r ∧
        ((∃ e, d ≤ e ∧ e < t.m_bucket_count ∧ r = probe c t key e ∧
            (∃ p, Holds t r p ∧ c.m_key_equal p.1 key = true) ∧
            ∀ e', d ≤ e' → e' < e →
              slot_state t.m_flags (probe c t key e') ≠ State.Empty ∧
              ¬ ∃ p, Holds t (probe c t key e') p ∧ c.m_key_equal p.1 key = true) ∨
         (r = t.m_bucket_count ∧ ∃ e, d ≤ e ∧ e ≤ t.m_bucket_count ∧
            (e < t.m_bucket_count → slot_state t.m_flags (probe c t key e) = State.Empty) ∧
            ∀ e', d ≤ e' → e' < e →
              slot_state t.m_flags (probe c t key e') ≠ State.Empty ∧
              ¬ ∃ p, Holds t (probe c t key e') p ∧ c.m_key_equal p.1 key = true)) := by
  have hnpos : 0 < t.m_bucket_count := by rw [hn]; exact Nat.pos_pow_of_pos _ (by norm_num)
  have hhome : home c t key < t.m_bucket_count := Nat.mod_lt _ hnpos
  intro fuel
  induction fuel with
  | zero => intro d _ h; omega
  | succ fuel ih =>
    intro d hd _ widx w hwidx hw
    have hdlt : d < t.m_bucket_count := by omega
    have hilt : probe c t key d < t.m_bucket_count := Nat.mod_lt _ hnpos
    have hcur := cache_read t.m_flags (probe c t key d) widx w hwidx hw
    -- the continuation of the loop after a slot that is neither a hit nor empty
    have hcont : slot_state t.m_flags (probe c t key d) ≠ State.Empty →
        (¬ ∃ p, Holds t (probe c t key d) p ∧ c.m_key_equal p.1 key = true) →
        ∃ r, (let i' := (probe c t key d + 1) &&& (t.m_bucket_count - 1)
              if i' = home c t key then Outcome.ok t.m_bucket_count
              else
                let new_word_idx := i' >>> 4
                if new_word_idx ≠ widx then
                  match t.m_flags[new_word_idx]? with
                  | none => Outcome.fault Fault.undefined
                  | some w => find_key_loop c t key (t.m_bucket_count - 1) (home c t key) fuel i'
                      new_word_idx w
                else find_key_loop c t key (t.m_bucket_count - 1) (home c t key) fuel i'
                      widx w) = .ok r ∧
        ((∃ e, d ≤ e ∧ e < t.m_bucket_count ∧ r = probe c t key e ∧
            (∃ p, Holds t r p ∧ c.m_key_equal p.1 key = true) ∧
            ∀ e', d ≤ e' → e' < e →
              slot_state t.m_flags (probe c t key e') ≠ State.Empty ∧
              ¬ ∃ p, Holds t (probe c t key e') p ∧ c.m_key_equal p.1 key = true) ∨
         (r = t.m_bucket_count ∧ ∃ e, d ≤ e ∧ e ≤ t.m_bucket_count ∧
            (e < t.m_bucket_count → slot_state t.m_flags (probe c t key e) = State.Empty) ∧
            ∀ e', d ≤ e' → e' < e →
              slot_state t.m_flags (probe c t key e') ≠ State.Empty ∧
              ¬ ∃ p, Holds t (probe c t key e') p ∧ c.m_key_equal p.1 key = true)) := by
      intro hne hnm
      have hstep : (probe c t key d + 1) &&& (t.m_bucket_count - 1) = probe c t key (d + 1) := by
        unfold probe
        rw [hn]
        exact probe_step _ _ _
      simp only [hstep]
      by_cases hwrap : d + 1 = t.m_bucket_count
      · have : probe c t key (d + 1) = home c t key :=
          (probe_wrap _ _ _ hhome hdlt).mpr hwrap
        rw [if_pos this]
        refine ⟨_, rfl, Or.inr ⟨rfl, t.m_bucket_count, by omega, le_refl _, fun h => by omega, ?_⟩⟩
        intro e' h1 h2
        have : e' = d := by omega
        subst this
        exact ⟨hne, hnm⟩
      · have hnw : ¬ probe c t key (d + 1) = home c t key := fun h =>
          hwrap ((probe_wrap _ _ _ hhome hdlt).mp h)
        rw [if_neg hnw]
        have hi'lt : probe c t key (d + 1) < t.m_bucket_count := Nat.mod_lt _ hnpos
        obtain ⟨w', hw'⟩ := flags_word t.m_flags _ _ hinv.len_flags hi'lt
        have key_step : ∀ widx' w2, widx' = probe c t key (d + 1) >>> 4 →
            t.m_flags[widx']? = some w2 →
            ∃ r, find_key_loop c t key (t.m_bucket_count - 1) (home c t key) fuel
              (probe c t key (d + 1)) widx' w2 = .ok r ∧
            ((∃ e, d ≤ e ∧ e < t.m_bucket_count ∧ r = probe c t key e ∧
                (∃ p, Holds t r p ∧ c.m_key_equal p.1 key = true) ∧
                ∀ e', d ≤ e' → e' < e →
                  slot_state t.m_flags (probe c t key e') ≠ State.Empty ∧
                  ¬ ∃ p, Holds t (probe c t key e') p ∧ c.m_key_equal p.1 key = true) ∨
             (r = t.m_bucket_count ∧ ∃ e, d ≤ e ∧ e ≤ t.m_bucket_count ∧
                (e < t.m_bucket_count → slot_state t.m_flags (probe c t key e) = State.Empty) ∧
                ∀ e', d ≤ e' → e' < e →
                  slot_state t.m_flags (probe c t key e') ≠ State.Empty ∧
                  ¬ ∃ p, Holds t (probe c t key e') p ∧ c.m_key_equal p.1 key = true)) := by
          intro widx' w2 h1 h2
          obtain ⟨r, hr, hpost⟩ := ih (d + 1) (by omega) (by omega) widx' w2 h1 h2
          refine ⟨r, hr, ?_⟩
          rcases hpost with ⟨e, he1, he2, he3, he4, he5⟩ | ⟨hrn, e, he1, he2, he3, he4⟩
          · refine Or.inl ⟨e, by omega, he2, he3, he4, ?_⟩
            intro e' h1 h2
            by_cases hed : e' = d
            · subst hed; exact ⟨hne, hnm⟩
            · exact he5 e' (by omega) h2
          · refine Or.inr ⟨hrn, e, by omega, he2, he3, ?_⟩
            intro e' h1 h2
            by_cases hed : e' = d
            · subst hed; exact ⟨hne, hnm⟩
            · exact he4 e' (by omega) h2
        by_cases hsame : probe c t key (d + 1) >>> 4 = widx
        · simp only [hsame, ne_eq, not_true_eq_false, if_false]
          exact key_step widx w hsame.symm hw
        · simp only [ne_eq, hsame, not_false_eq_true, if_true, hw']
          exact key_step _ w' rfl hw'
    rw [find_key_loop]
    simp only [hcur]
    by_cases hocc : slot_state t.m_flags (probe c t key d) = State.Occupied
    · obtain ⟨p, hp⟩ := hinv.constructed _ hilt hocc
      have hholds : Holds t (probe c t key d) p := ⟨hilt, hocc, hp⟩
      simp only [hocc, if_true, hp]
      by_cases heq : c.m_key_equal p.1 key = true
      · simp only [heq, if_true]
        exact ⟨_, rfl, Or.inl ⟨d, le_refl _, hdlt, rfl, ⟨p, hholds, heq⟩,
          fun e' h1 h2 => by omega⟩⟩
      · simp only [heq]
        apply hcont
        · rw [hocc]; decide
        · rintro ⟨q, hq, hqe⟩
          rw [holds_unique_pair t _ p q hholds hq] at heq
          exact heq hqe
    · simp only [hocc, if_false]
      by_cases hemp : slot_state t.m_flags (probe c t key d) = State.Empty
      · simp only [hemp, if_true]
        exact ⟨_, rfl, Or.inr ⟨rfl, d, le_refl _, by omega, fun _ => hemp,
          fun e' h1 h2 => by omega⟩⟩
      · simp only [hemp, if_false]
        apply hcont hemp
        rintro ⟨q, hq, _⟩
        exact hocc hq.2.1

/-- Function `find_key` returns: either the index of a slot holding a key equal
to `key`, or the bucket count when no occupied slot holds such a key. -/
theorem find_key_spec (c : Config K) (hc : Lawful c) (t : Table K V) (hinv : Inv c t) (key : K) :
    ∃ r, find_key c t key = .ok r ∧
      ((r = t.m_bucket_count ∧ ∀ i p, Holds t i p → c.m_key_equal p.1 key = false) ∨
       (r < t.m_bucket_count ∧ ∃ p, Holds t r p ∧ c.m_key_equal p.1 key = true)) := by
  unfold find_key
  rcases hinv.pow2 with h0 | ⟨k, hk2, hk63, hn⟩
  · rw [if_pos h0]
    refine ⟨_, rfl, Or.inl ⟨rfl, ?_⟩⟩
    intro i p hp
    have := hp.1
    omega
  · have hnpos : 0 < t.m_bucket_count := by rw [hn]; exact Nat.pos_pow_of_pos _ (by norm_num)
    rw [if_neg (by omega)]
    have hmask : c.m_hasher key &&& (t.m_bucket_count - 1) = probe c t key 0 := by
      unfold probe home
      rw [hn, mask_eq_mod, Nat.add_zero, Nat.mod_mod]
    have hhome : probe c t key 0 = home c t key := by
      unfold probe
      rw [Nat.add_zero]
      exact Nat.mod_eq_of_lt (Nat.mod_lt _ hnpos)
    simp only [hmask]
    have hlt : probe c t key 0 < t.m_bucket_count := Nat.mod_lt _ hnpos
    obtain ⟨w, hw⟩ := flags_word t.m_flags _ _ hinv.len_flags hlt
    simp only [hw]
    obtain ⟨r, hr, hpost⟩ := find_key_loop_spec c t key k hn hinv t.m_bucket_count 0 (by omega)
      hnpos _ w rfl hw
    rw [hhome] at hr ⊢
    refine ⟨r, hr, ?_⟩
    rcases hpost with ⟨e, _, he2, he3, he4, _⟩ | ⟨hrn, e, _, he2, he3, he4⟩
    · right
      refine ⟨?_, he4⟩
      rw [he3]; exact Nat.mod_lt _ hnpos
    · left
      refine ⟨hrn, ?_⟩
      intro i p hp
      by_contra hne
      have heq : c.m_key_equal p.1 key = true := by simpa using hne
      obtain ⟨d, hd, hdi⟩ := probe_surj (home c t key) i t.m_bucket_count
        (Nat.mod_lt _ hnpos) hp.1
      have hhk : home c t p.1 = home c t key := by
        unfold home; rw [hc.hash_eq _ _ heq]
      have hpd : probe c t key d = i := hdi
      by_cases hde : d < e
      · exact (he4 d (by omega) hde).2 ⟨p, by rw [hpd]; exact hp, heq⟩
      · have helt : e < t.m_bucket_count := by omega
        have hemp := he3 helt
        by_cases hde' : d = e
        · subst hde'
          rw [hpd, hp.2.1] at hemp
          exact absurd hemp (by decide)
        · have hch := hinv.chain d p hd (by
            unfold probe; rw [hhk]; exact hdi ▸ hp) e (by omega)
          apply hch
          unfold probe; rw [hhk]; exact hemp

/-- Outcome of the loop of `find_insert_slot` entered at probe distance `d`
with the first tombstone seen so far, if any, in `tomb`. -/
theorem find_insert_slot_loop_spec (c : Config K) (t : Table K V) (key : K) (k : Nat)
    (hn : t.m_bucket_count = 2 ^ k) (hlen : t.m_flags.length = (t.m_bucket_count + 15) / 16) :
    ∀ fuel d tomb, d + fuel = t.m_bucket_count → 0 < fuel →
      (∀ e', e' < d → slot_state t.m_flags (probe c t key e') ≠ State.Empty) →
      ((tomb = t.m_bucket_count ∧
          ∀ e', e' < d → slot_state t.m_flags (probe c t key e') ≠ State.Deleted) ∨
        (∃ e0, e0 < d ∧ tomb = probe c t key e0 ∧
          slot_state t.m_flags (probe c t key e0) = State.Deleted ∧
          ∀ e', e' < e0 → slot_state t.m_flags (probe c t key e') ≠ State.Deleted)) →
      ∀ widx w, widx = (probe c t key d) >>> 4 → t.m_flags[widx]? = some w →
      ∃ r, find_insert_slot_loop t (t.m_bucket_count - 1) (home c t key) fuel
              (probe c t key d) tomb widx w = .ok r ∧ InsertPost c t key r := by
  have hnpos : 0 < t.m_bucket_count := by rw [hn]; exact Nat.pos_pow_of_pos _ (by norm_num)
  have hhome : home c t key < t.m_bucket_count := Nat.mod_lt _ hnpos
  have hplt : ∀ e, probe c t key e < t.m_bucket_count := fun e => Nat.mod_lt _ hnpos
  intro fuel
  induction fuel with
  | zero => intro d _ _ h; omega
  | succ fuel ih =>
    intro d tomb hd _ hpre1 hpre2 widx w hwidx hw
    have hdlt : d < t.m_bucket_count := by omega
    have hcur := cache_read t.m_flags (probe c t key d) widx w hwidx hw
    have htomb_ne : ∀ e0, tomb = probe c t key e0 → tomb ≠ t.m_bucket_count := by
      intro e0 h; rw [h]; exact Nat.ne_of_lt (hplt e0)
    -- the continuation of the loop with the tombstone variable `tomb1`
    have hcont : ∀ tomb1, slot_state t.m_flags (probe c t key d) ≠ State.Empty →
        ((tomb1 = t.m_bucket_count ∧
            ∀ e', e' < d + 1 → slot_state t.m_flags (probe c t key e') ≠ State.Deleted) ∨
          (∃ e0, e0 < d + 1 ∧ tomb1 = probe c t key e0 ∧
            slot_state t.m_flags (probe c t key e0) = State.Deleted ∧
            ∀ e', e' < e0 → slot_state t.m_flags (probe c t key e') ≠ State.Deleted)) →
        ∃ r, (let i' := (probe c t key d + 1) &&& (t.m_bucket_count - 1)
              if i' = home c t key then Outcome.ok tomb1
              else
                let new_word_idx := i' >>> 4
                if new_word_idx ≠ widx then
                  match t.m_flags[new_word_idx]? with
                  | none => Outcome.fault Fault.undefined
                  | some w => find_insert_slot_loop t (t.m_bucket_count - 1) (home c t key) fuel i'
                      tomb1 new_word_idx w
                else find_insert_slot_loop t (t.m_bucket_count - 1) (home c t key) fuel i'
                      tomb1 widx w) = .ok r ∧ InsertPost c t key r := by
      intro tomb1 hne htomb1
      have hpre1' : ∀ e', e' < d + 1 → slot_state t.m_flags (probe c t key e') ≠ State.Empty := by
        intro e' he'
        by_cases hed : e' = d
        · subst hed; exact hne
        · exact hpre1 e' (by omega)
      have hstep : (probe c t key d + 1) &&& (t.m_bucket_count - 1) = probe c t key (d + 1) := by
        unfold probe
        rw [hn]
        exact probe_step _ _ _
      simp only [hstep]
      by_cases hwrap : d + 1 = t.m_bucket_count
      · have : probe c t key (d + 1) = home c t key :=
          (probe_wrap _ _ _ hhome hdlt).mpr hwrap
        rw [if_pos this]
        refine ⟨_, rfl, t.m_bucket_count, le_refl _, fun h => by omega, ?_, ?_⟩
        · intro e' he'; exact hpre1' e' (by omega)
        · rcases htomb1 with ⟨h1, h2⟩ | ⟨e0, h1, h2, h3, h4⟩
          · right
            refine ⟨?_, fun e' he' => h2 e' (by omega)⟩
            rw [if_neg (by omega)]; exact h1
          · left
            exact ⟨e0, by omega, h2, h3, h4⟩
      · have hnw : ¬ probe c t key (d + 1) = home c t key := fun h =>
          hwrap ((probe_wrap _ _ _ hhome hdlt).mp h)
        rw [if_neg hnw]
        obtain ⟨w', hw'⟩ := flags_word t.m_flags _ _ hlen (hplt (d + 1))
        by_cases hsame : probe c t key (d + 1) >>> 4 = widx
        · simp only [hsame, ne_eq, not_true_eq_false, if_false]
          exact ih (d + 1) tomb1 (by omega) (by omega) hpre1' htomb1 widx w hsame.symm hw
        · simp only [ne_eq, hsame, not_false_eq_true, if_true, hw']
          exact ih (d + 1) tomb1 (by omega) (by omega) hpre1' htomb1 _ w' rfl hw'
    rw [find_insert_slot_loop]
    simp only [hcur]
    by_cases hdel : slot_state t.m_flags (probe c t key d) = State.Deleted
    · simp only [hdel, if_true]
      apply hcont
      · rw [hdel]; decide
      · rcases hpre2 with ⟨h1, h2⟩ | ⟨e0, h1, h2, h3, h4⟩
        · right
          rw [if_pos h1]
          exact ⟨d, by omega, rfl, hdel, h2⟩
        · right
          rw [if_neg (htomb_ne e0 h2)]
          exact ⟨e0, by omega, h2, h3, h4⟩
    · simp only [hdel, if_false]
      by_cases hemp : slot_state t.m_flags (probe c t key d) = State.Empty
      · simp only [hemp, if_true]
        refine ⟨_, rfl, d, by omega, fun _ => hemp, hpre1, ?_⟩
        rcases hpre2 with ⟨h1, h2⟩ | ⟨e0, h1, h2, h3, h4⟩
        · right
          refine ⟨?_, h2⟩
          rw [if_pos hdlt]
          simp [h1]
        · left
          refine ⟨e0, h1, ?_, h3, h4⟩
          rw [if_pos (htomb_ne e0 h2)]; exact h2
      · simp only [hemp, if_false]
        apply hcont tomb hemp
        rcases hpre2 with ⟨h1, h2⟩ | ⟨e0, h1, h2, h3, h4⟩
        · left
          refine ⟨h1, ?_⟩
          intro e' he'
          by_cases hed : e' = d
          · subst hed; exact hdel
          · exact h2 e' (by omega)
        · right
          exact ⟨e0, by omega, h2, h3, h4⟩

/-- Function `find_insert_slot` returns, on a table with buckets, the slot
given by the placement rule. -/
theorem find_insert_slot_spec (c : Config K) (t : Table K V) (key : K) (k : Nat) (hk : k < 64)
    (hn : t.m_bucket_count = 2 ^ k) (hlen : t.m_flags.length = (t.m_bucket_count + 15) / 16) :
    ∃ r, find_insert_slot c t key = .ok r ∧ InsertPost c t key r := by
  unfold find_insert_slot
  have hnpos : 0 < t.m_bucket_count := by rw [hn]; exact Nat.pos_pow_of_pos _ (by norm_num)
  have hlt64 : t.m_bucket_count < 2 ^ 64 := by
    rw [hn]; exact Nat.pow_lt_pow_right (by norm_num) hk
  have hm : (t.m_bucket_count + 2 ^ 64 - 1) % 2 ^ 64 = t.m_bucket_count - 1 := by omega
  have hmask : c.m_hasher key &&& (t.m_bucket_count - 1) = probe c t key 0 := by
    unfold probe home
    rw [hn, mask_eq_mod, Nat.add_zero, Nat.mod_mod]
  have hhome : probe c t key 0 = home c t key := by
    unfold probe
    rw [Nat.add_zero]
    exact Nat.mod_eq_of_lt (Nat.mod_lt _ hnpos)
  simp only [hm, hmask]
  have hlt : probe c t key 0 < t.m_bucket_count := Nat.mod_lt _ hnpos
  obtain ⟨w, hw⟩ := flags_word t.m_flags _ _ hlen hlt
  simp only [hw]
  obtain ⟨r, hr, hpost⟩ := find_insert_slot_loop_spec c t key k hn hlen t.m_bucket_count 0
    t.m_bucket_count (by omega) hnpos (fun e' h => by omega)
    (Or.inl ⟨rfl, fun e' h => by omega⟩) _ w rfl hw
  rw [hhome] at hr ⊢
  exact ⟨r, hr, hpost⟩

end FastSTL

namespace FastSTL

variable {K V : Type}

/-! ## Insertion into a free slot -/

theorem Inv.pos_pow2 {c : Config K} {t : Table K V} (hinv : Inv c t)
    (hpos : 0 < t.m_bucket_count) : ∃ k, 2 ≤ k ∧ k < 63 ∧ t.m_bucket_count = 2 ^ k := by
  rcases hinv.pow2 with h | h
  · omega
  · exact h

theorem Inv.flag_idx {c : Config K} {t : Table K V} (hinv : Inv c t) {i : Nat}
    (hi : i < t.m_bucket_count) : i / 16 < t.m_flags.length := by
  rw [hinv.len_flags]; omega

theorem Inv.size_le_occupied {c : Config K} {t : Table K V} (hinv : Inv c t) :
    t.m_size ≤ t.m_occupied := by
  rw [hinv.size_eq, hinv.occupied_eq]
  apply cnt_mono
  intro i _ h
  simp only [decide_eq_true_eq] at h ⊢
  rw [h]; decide

theorem Inv.occupied_le {c : Config K} {t : Table K V} (hinv : Inv c t) :
    t.m_occupied ≤ t.m_bucket_count := by
  rw [hinv.occupied_eq]; exact cnt_le _ _

/-- A table with fewer occupied-or-deleted slots than buckets has an empty slot
on every probe path. -/
theorem Inv.exists_empty {c : Config K} {t : Table K V} (hinv : Inv c t)
    (hroom : t.m_occupied < t.m_bucket_count) (key : K) :
    ∃ d, d < t.m_bucket_count ∧ slot_state t.m_flags (probe c t key d) = State.Empty := by
  rw [hinv.occupied_eq] at hroom
  obtain ⟨i, hi, hs⟩ := cnt_lt_exists _ _ hroom
  simp only [decide_eq_false_iff_not, not_not] at hs
  obtain ⟨d, hd, hdi⟩ := probe_surj (home c t key) i t.m_bucket_count
    (Nat.mod_lt _ (by omega)) hi
  exact ⟨d, hd, by unfold probe; rw [hdi]; exact hs⟩

/-- On a table with an empty slot the placement rule yields a slot in range
that is deleted or empty, reached over non-empty slots only. -/
theorem InsertPost.free {c : Config K} {t : Table K V} {key : K} {r : Nat}
    (hpost : InsertPost c t key r) (_hpos : 0 < t.m_bucket_count)
    (hex : ∃ d, d < t.m_bucket_count ∧ slot_state t.m_flags (probe c t key d) = State.Empty) :
    ∃ e, e < t.m_bucket_count ∧ r = probe c t key e ∧
      (slot_state t.m_flags r = State.Deleted ∨ slot_state t.m_flags r = State.Empty) ∧
      ∀ e', e' < e → slot_state t.m_flags (probe c t key e') ≠ State.Empty := by
  obtain ⟨e, he1, he2, he3, he4⟩ := hpost
  obtain ⟨d, hd, hde⟩ := hex
  have helt : e < t.m_bucket_count := by
    by_contra hc
    exact he3 d (by omega) hde
  rcases he4 with ⟨e0, h1, h2, h3, _⟩ | ⟨h1, _⟩
  · exact ⟨e0, by omega, h2, Or.inl (h2 ▸ h3), fun e' he' => he3 e' (by omega)⟩
  · rw [if_pos helt] at h1
    exact ⟨e, helt, h1, Or.inr (h1 ▸ he2 helt), he3⟩

theorem insert_new_spec (c : Config K) (hc : Lawful c) (t : Table K V) (hinv : Inv c t)
    (p : K × V) (habs : ∀ i q, Holds t i q → c.m_key_equal q.1 p.1 = false)
    (hroom : t.m_occupied < t.m_bucket_count) :
    ∃ t2 slot, insert_new c t p = .ok (t2, slot) ∧
      find_insert_slot c t p.1 = .ok slot ∧
      set_state t.m_flags slot State.Occupied = .ok t2.m_flags ∧
      slot < t.m_bucket_count ∧
      (slot_state t.m_flags slot = State.Deleted ∨ slot_state t.m_flags slot = State.Empty) ∧
      InsertPost c t p.1 slot ∧
      t2.m_bucket_count = t.m_bucket_count ∧
      t2.m_max_load_factor = t.m_max_load_factor ∧
      t2.m_size = t.m_size + 1 ∧
      t2.m_occupied = t.m_occupied + (if slot_state t.m_flags slot = State.Empty then 1 else 0) ∧
      t2.m_buckets = t.m_buckets.set slot (some p) ∧
      slot_state t2.m_flags slot = State.Occupied ∧
      (∀ j, j ≠ slot → slot_state t2.m_flags j = slot_state t.m_flags j) ∧
      Inv c t2 := by
  have hpos : 0 < t.m_bucket_count := by omega
  obtain ⟨k, hk2, hk63, hn⟩ := hinv.pos_pow2 hpos
  obtain ⟨slot, hslot, hpost⟩ := find_insert_slot_spec c t p.1 k (by omega) hn hinv.len_flags
  obtain ⟨es, hes, hslot_eq, hfree, hpath⟩ := hpost.free hpos (hinv.exists_empty hroom p.1)
  have hslot_lt : slot < t.m_bucket_count := by rw [hslot_eq]; exact Nat.mod_lt _ hpos
  have hidx := hinv.flag_idx hslot_lt
  obtain ⟨fl1, hset, hlen1, hst1, hoth1⟩ := set_state_spec t.m_flags slot State.Occupied hidx
    (by decide)
  have hcons : construct t.m_buckets slot p = .ok (t.m_buckets.set slot (some p)) := by
    unfold construct
    rw [if_pos (by rw [hinv.len_buckets]; exact hslot_lt)]
  have hnocc : slot_state t.m_flags slot ≠ State.Occupied := by
    rcases hfree with h | h <;> rw [h] <;> decide
  refine ⟨{ t with m_buckets := t.m_buckets.set slot (some p), m_flags := fl1,
                   m_size := t.m_size + 1,
                   m_occupied := if decide (slot_state t.m_flags slot = State.Empty) = true
                     then t.m_occupied + 1 else t.m_occupied },
    slot, ?_, hslot, hset, hslot_lt, hfree, hpost, rfl, rfl, rfl, ?_, rfl, hst1, hoth1, ?_⟩
  · unfold insert_new
    simp only [hslot, get_state_eq _ _ hidx, hcons, hset]
  · simp only [decide_eq_true_eq]
    split <;> rfl
  · -- the invariant of the table after the insertion
    have hholds_new : ∀ j q, Holds
        ({ t with m_buckets := t.m_buckets.set slot (some p), m_flags := fl1,
                  m_size := t.m_size + 1,
                  m_occupied := if decide (slot_state t.m_flags slot = State.Empty) = true
                    then t.m_occupied + 1 else t.m_occupied } : Table K V) j q →
        (j = slot ∧ q = p) ∨ (j ≠ slot ∧ Holds t j q) := by
      intro j q hq
      by_cases hj : j = slot
      · left
        refine ⟨hj, ?_⟩
        have := hq.2.2
        simp only [hj, List.getElem?_set, if_true] at this
        rw [if_pos (by rw [hinv.len_buckets]; exact hslot_lt)] at this
        simpa using this.symm
      · right
        refine ⟨hj, hq.1, ?_, ?_⟩
        · rw [← hoth1 j hj]; exact hq.2.1
        · have := hq.2.2
          simp only [List.getElem?_set] at this
          rw [if_neg (fun h => hj h.symm)] at this
          exact this
    have hne2 : ∀ j, slot_state t.m_flags j ≠ State.Empty → slot_state fl1 j ≠ State.Empty := by
      intro j hj
      by_cases hjs : j = slot
      · rw [hjs, hst1]; decide
      · rw [hoth1 j hjs]; exact hj
    constructor
    · exact hinv.pow2
    · simp only [List.length_set]; exact hinv.len_buckets
    · simp only [hlen1]; exact hinv.len_flags
    · intro i hi
      by_cases his : i = slot
      · simp only [his, hst1]; decide
      · simp only [hoth1 i his]; exact hinv.valid i hi
    · intro i hi hocc
      by_cases his : i = slot
      · refine ⟨p, ?_⟩
        simp only [his, List.getElem?_set, if_true]
        rw [if_pos (by rw [hinv.len_buckets]; exact hslot_lt)]
      · simp only [hoth1 i his] at hocc
        obtain ⟨q, hq⟩ := hinv.constructed i hi hocc
        refine ⟨q, ?_⟩
        simp only [List.getElem?_set]
        rw [if_neg (fun h => his h.symm)]
        exact hq
    · have h := cnt_update (fun i => decide (slot_state t.m_flags i = State.Occupied))
        (fun i => decide (slot_state fl1 i = State.Occupied)) t.m_bucket_count slot hslot_lt
        (fun i _ hne => by simp only [hoth1 i hne])
      have hq : decide (slot_state fl1 slot = State.Occupied) = true := by simp [hst1]
      have hp : decide (slot_state t.m_flags slot = State.Occupied) = false := by simp [hnocc]
      simp only [hq, hp, reduceIte, Bool.false_eq_true, Nat.add_zero] at h
      show t.m_size + 1 = _
      rw [hinv.size_eq]
      exact h.symm
    · have h := cnt_update (fun i => decide (slot_state t.m_flags i ≠ State.Empty))
        (fun i => decide (slot_state fl1 i ≠ State.Empty)) t.m_bucket_count slot hslot_lt
        (fun i _ hne => by simp only [hoth1 i hne])
      have hq : decide (slot_state fl1 slot ≠ State.Empty) = true := by rw [hst1]; decide
      simp only [hq] at h
      show (if decide (slot_state t.m_flags slot = State.Empty) = true then t.m_occupied + 1
        else t.m_occupied) = _
      rw [hinv.occupied_eq]
      by_cases hemp : slot_state t.m_flags slot = State.Empty
      · have hp : decide (slot_state t.m_flags slot ≠ State.Empty) = false := by simp [hemp]
        have hp' : decide (slot_state t.m_flags slot = State.Empty) = true := by simp [hemp]
        simp only [hp, reduceIte, Bool.false_eq_true] at h
        simp only [hp', if_true]
        omega
      · have hp : decide (slot_state t.m_flags slot ≠ State.Empty) = true := by simp [hemp]
        have hp' : decide (slot_state t.m_flags slot = State.Empty) = false := by simp [hemp]
        simp only [hp, reduceIte] at h
        simp only [hp', Bool.false_eq_true, reduceIte]
        omega
    · intro d q hd hq e he
      apply hne2
      rcases hholds_new _ _ hq with ⟨hj, hqp⟩ | ⟨_, hold⟩
      · subst hqp
        have hd' : d = es := by
          apply probe_inj (home c t q.1) d es t.m_bucket_count (Nat.mod_lt _ hpos) hd hes
          have h1 : probe c t q.1 d = slot := hj
          have h2 : probe c t q.1 es = slot := hslot_eq.symm
          exact h1.trans h2.symm
        exact hpath e (by omega)
      · exact hinv.chain d q hd hold e he
    · intro i j q q' hq hq' heq
      rcases hholds_new _ _ hq with ⟨hi, hqp⟩ | ⟨hi, hold⟩
      · rcases hholds_new _ _ hq' with ⟨hj, _⟩ | ⟨_, hold'⟩
        · rw [hi, hj]
        · subst hqp
          have := habs j q' hold'
          rw [hc.symm _ _ heq] at this
          exact Bool.noConfusion this
      · rcases hholds_new _ _ hq' with ⟨_, hqp'⟩ | ⟨_, hold'⟩
        · subst hqp'
          have := habs i q hold
          rw [heq] at this
          exact Bool.noConfusion this
        · exact hinv.unique i j q q' hold hold' heq
    · exact hinv.fits

/-- Pairs held after slot `slot` was overwritten with `p` and marked occupied. -/
theorem holds_set (t t2 : Table K V) (slot : Nat) (p : K × V)
    (hbc : t2.m_bucket_count = t.m_bucket_count)
    (hb : t2.m_buckets = t.m_buckets.set slot (some p))
    (hlen : t.m_buckets.length = t.m_bucket_count) (hslot : slot < t.m_bucket_count)
    (hs : slot_state t2.m_flags slot = State.Occupied)
    (ho : ∀ j, j ≠ slot → slot_state t2.m_flags j = slot_state t.m_flags j) (j : Nat) (q : K × V) :
    Holds t2 j q ↔ (j = slot ∧ q = p) ∨ (j ≠ slot ∧ Holds t j q) := by
  unfold Holds
  rw [hbc, hb, List.getElem?_set]
  by_cases hj : j = slot
  · subst hj
    rw [if_pos rfl, if_pos (by rw [hlen]; exact hslot)]
    constructor
    · rintro ⟨_, _, h⟩
      left
      exact ⟨rfl, by simpa using h.symm⟩
    · rintro (⟨_, h⟩ | ⟨h, _⟩)
      · exact ⟨hslot, hs, by rw [h]⟩
      · exact absurd rfl h
  · rw [if_neg (fun h => hj h.symm), ho j hj]
    constructor
    · intro h; exact Or.inr ⟨hj, h⟩
    · rintro (⟨h, _⟩ | ⟨_, h⟩)
      · exact absurd h hj
      · exact h

/-- A table all of whose non-empty slots are occupied has no tombstone. -/
theorem Inv.no_deleted {c : Config K} {t : Table K V} (hinv : Inv c t)
    (heq : t.m_occupied = t.m_size) (i : Nat) (hi : i < t.m_bucket_count) :
    slot_state t.m_flags i ≠ State.Deleted := by
  intro hdel
  have h := cnt_eq_imp (fun i => decide (slot_state t.m_flags i = State.Occupied))
    (fun i => decide (slot_state t.m_flags i ≠ State.Empty)) t.m_bucket_count
    (fun i _ h => by
      simp only [decide_eq_true_eq] at h ⊢
      rw [h]; decide)
    (by rw [← hinv.size_eq, ← hinv.occupied_eq, heq]) i hi
    (by simp only [decide_eq_true_eq]; rw [hdel]; decide)
  simp only [decide_eq_true_eq] at h
  rw [hdel] at h
  exact absurd h (by decide)

end FastSTL

namespace FastSTL

variable {K V : Type}

/-! ## Rehash -/

/-- The freshly allocated table of `rehash_internal`: every slot is empty. -/
theorem fresh_inv (c : Config K) (t : Table K V) (k : Nat) (hk2 : 2 ≤ k) (hk63 : k < 63)
    (hfits : t.m_max_load_factor.Fits) :
    Inv c ({ t with m_buckets := List.replicate (2 ^ k) none,
                    m_flags := List.replicate ((2 ^ k + FLAGS_PER_U32 - 1) / FLAGS_PER_U32) 0xaaaaaaaa,
                    m_bucket_count := 2 ^ k, m_size := 0, m_occupied := 0 } : Table K V) ∧
    ∀ j, j < 2 ^ k →
      slot_state (List.replicate ((2 ^ k + FLAGS_PER_U32 - 1) / FLAGS_PER_U32) 0xaaaaaaaa) j
        = State.Empty := by
  have hst : ∀ j, j < 2 ^ k →
      slot_state (List.replicate ((2 ^ k + FLAGS_PER_U32 - 1) / FLAGS_PER_U32) 0xaaaaaaaa) j
        = State.Empty := by
    intro j hj
    apply slot_state_replicate
    show j / 16 < (2 ^ k + 16 - 1) / 16
    omega
  refine ⟨?_, hst⟩
  constructor
  · exact Or.inr ⟨k, hk2, hk63, rfl⟩
  · simp
  · simp only [List.length_replicate]
    show (2 ^ k + 16 - 1) / 16 = (2 ^ k + 15) / 16
    rfl
  · intro i hi
    rw [hst i hi]
  · intro i hi h
    rw [hst i hi] at h
    exact absurd h (by decide)
  · symm
    apply cnt_zero_of_false
    intro i hi
    simp only [decide_eq_false_iff_not]
    rw [hst i hi]; decide
  · symm
    apply cnt_zero_of_false
    intro i hi
    simp only [decide_eq_false_iff_not, not_not]
    exact hst i hi
  · intro d p hd hp
    have := hp.2.1
    rw [hst _ hp.1] at this
    exact absurd this (by decide)
  · intro i j p q hp
    have := hp.2.1
    rw [hst _ hp.1] at this
    exact absurd this (by decide)
  · exact hfits

theorem table_eq_of_fields (t2 : Table K V) (b : List (Option (K × V))) (fl : List Nat)
    (n s o : Nat) (f : LoadFactor) (h1 : t2.m_buckets = b) (h2 : t2.m_flags = fl)
    (h3 : t2.m_bucket_count = n) (h4 : t2.m_size = s) (h5 : t2.m_occupied = o)
    (h6 : t2.m_max_load_factor = f) :
    ({ m_buckets := b, m_flags := fl, m_bucket_count := n, m_size := s, m_occupied := o,
       m_max_load_factor := f } : Table K V) = t2 := by
  cases t2
  simp only at h1 h2 h3 h4 h5 h6
  subst h1 h2 h3 h4 h5 h6
  rfl

theorem rehash_move_loop_spec (c : Config K) (hc : Lawful c) (o : Table K V) (ho : Inv c o)
    (N : Nat) (hN : o.m_bucket_count < N) :
    ∀ remaining i t, i + remaining = o.m_bucket_count → Moved c o t i → t.m_bucket_count = N →
      ∃ t', rehash_move_loop c o.m_buckets o.m_flags remaining i t = .ok t' ∧
        Moved c o t' o.m_bucket_count ∧ t'.m_bucket_count = N := by
  intro remaining
  induction remaining with
  | zero =>
    intro i t hi hm hbc
    have : i = o.m_bucket_count := by omega
    subst this
    exact ⟨t, rfl, hm, hbc⟩
  | succ remaining ih =>
    intro i t hi hm hbc
    have hilt : i < o.m_bucket_count := by omega
    rw [rehash_move_loop, get_state_eq _ _ (ho.flag_idx hilt)]
    simp only
    by_cases hocc : slot_state o.m_flags i = State.Occupied
    · obtain ⟨p, hp⟩ := ho.constructed i hilt hocc
      have hholds : Holds o i p := ⟨hilt, hocc, hp⟩
      rw [if_pos hocc]
      simp only [hp]
      have habs : ∀ j q, Holds t j q → c.m_key_equal q.1 p.1 = false := by
        intro j q hq
        by_contra hne
        have heq : c.m_key_equal q.1 p.1 = true := by simpa using hne
        obtain ⟨j', hj', hq'⟩ := hm.sound j q hq
        have := ho.unique j' i q p hq' hholds heq
        omega
      have hcnt_le : t.m_size ≤ i := by rw [hm.count]; exact cnt_le _ _
      have hroom : t.m_occupied < t.m_bucket_count := by rw [hm.no_tomb]; omega
      obtain ⟨t2, slot, _, hfind, hset, hslot_lt, hfree, _, hbc2, hlf2, hsz2, hocc2, hb2, hst2,
        hoth2, hinv2⟩ := insert_new_spec c hc t hm.inv p habs hroom
      have hempty : slot_state t.m_flags slot = State.Empty := by
        rcases hfree with h | h
        · exact absurd h (hm.inv.no_deleted hm.no_tomb slot hslot_lt)
        · exact h
      have hcons : construct t.m_buckets slot p = .ok (t.m_buckets.set slot (some p)) := by
        unfold construct
        rw [if_pos (by rw [hm.inv.len_buckets]; exact hslot_lt)]
      simp only [hfind, hcons, hset]
      rw [if_pos hempty] at hocc2
      rw [table_eq_of_fields t2 _ _ _ _ _ _ hb2 rfl hbc2 hsz2 hocc2 hlf2]
      have hholds2 := holds_set t t2 slot p hbc2 hb2 hm.inv.len_buckets hslot_lt hst2 hoth2
      apply ih (i + 1) t2 (by omega) _ (by rw [hbc2, hbc])
      constructor
      · exact hinv2
      · rw [hocc2, hsz2, hm.no_tomb]
      · rw [hsz2, hm.count]
        simp only [cnt, hocc, decide_True, if_true]
      · intro j q hq
        rcases (hholds2 j q).mp hq with ⟨_, hqp⟩ | ⟨_, hold⟩
        · exact ⟨i, by omega, hqp ▸ hholds⟩
        · obtain ⟨j', hj', h⟩ := hm.sound j q hold
          exact ⟨j', by omega, h⟩
      · intro j' q hj' hq
        by_cases hji : j' = i
        · subst hji
          have := holds_unique_pair o _ p q hholds hq
          subst this
          exact ⟨slot, (hholds2 slot p).mpr (Or.inl ⟨rfl, rfl⟩)⟩
        · obtain ⟨j, hj⟩ := hm.complete j' q (by omega) hq
          have hjs : j ≠ slot := by
            intro h
            subst h
            have := hj.2.1
            rw [hempty] at this
            exact absurd this (by decide)
          exact ⟨j, (hholds2 j q).mpr (Or.inr ⟨hjs, hj⟩)⟩
      · rw [hlf2, hm.lf]
    · rw [if_neg hocc]
      apply ih (i + 1) t (by omega) _ hbc
      constructor
      · exact hm.inv
      · exact hm.no_tomb
      · rw [hm.count]
        simp only [cnt, hocc, decide_False]
        simp
      · intro j q hq
        obtain ⟨j', hj', h⟩ := hm.sound j q hq
        exact ⟨j', by omega, h⟩
      · intro j' q hj' hq
        by_cases hji : j' = i
        · subst hji
          exact absurd hq.2.1 hocc
        · exact hm.complete j' q (by omega) hq
      · exact hm.lf

theorem not_holds_of_no_buckets (t : Table K V) (h : t.m_bucket_count = 0) (j : Nat) (q : K × V) :
    ¬ Holds t j q := by
  intro hq
  have := hq.1
  omega

/-- The three outcomes of `rehash_internal` for a non-zero request: nothing to
do, the allocator refuses, or the table is rebuilt in `roundup32 n` buckets. -/
theorem rehash_internal_spec (c : Config K) (hc : Lawful c) (t : Table K V) (hinv : Inv c t)
    (n : Nat) (hn0 : n ≠ 0) (hn : n < 2 ^ 64) :
    (roundup32 n ≤ t.m_bucket_count ∧ rehash_internal c t n = .ok t) ∨
    (t.m_bucket_count < roundup32 n ∧ c.max_size < roundup32 n ∧
      rehash_internal c t n = .fault .bad_alloc) ∨
    (t.m_bucket_count < roundup32 n ∧ roundup32 n ≤ c.max_size ∧
      ∃ t1, rehash_internal c t n = .ok t1 ∧ Rehashed c t t1 ∧
        t1.m_bucket_count = roundup32 n) := by
  unfold rehash_internal
  rw [if_neg hn0]
  simp only
  by_cases h1 : roundup32 n ≤ t.m_bucket_count
  · left
    exact ⟨h1, by rw [if_pos h1]⟩
  · right
    rw [if_neg h1]
    by_cases h2 : c.max_size < roundup32 n
    · left
      exact ⟨by omega, h2, by rw [if_pos h2]⟩
    · right
      rw [if_neg h2]
      refine ⟨by omega, by omega, ?_⟩
      have hmax := hc.max_size_lt
      rcases roundup32_spec n hn with h0 | ⟨k, hk2, _, hk, _, _⟩
      · omega
      · have hk63 : k < 63 := by
          by_contra hcon
          have : 2 ^ 63 ≤ 2 ^ k := Nat.pow_le_pow_right (by norm_num) (by omega)
          omega
        rw [hk] at h1 ⊢
        obtain ⟨hfresh, hst⟩ := fresh_inv c t k hk2 hk63 hinv.fits
        by_cases hnull : t.m_buckets.isEmpty = true
        · simp only [hnull, Bool.not_true, Bool.false_eq_true, if_false]
          refine ⟨_, rfl, ?_, rfl⟩
          have hb0 : t.m_bucket_count = 0 := by
            rw [← hinv.len_buckets]
            simpa using hnull
          constructor
          · exact hfresh
          · show 0 = t.m_size
            rw [hinv.size_eq, hb0]; rfl
          · rfl
          · intro q
            constructor
            · rintro ⟨j, hq⟩
              have := hq.2.1
              rw [hst j hq.1] at this
              exact absurd this (by decide)
            · rintro ⟨j, hq⟩
              exact absurd hq (not_holds_of_no_buckets t hb0 j q)
          · rfl
        · simp only [hnull, Bool.not_false, if_true]
          obtain ⟨t1, hloop, hm, hbc⟩ := rehash_move_loop_spec c hc t hinv (2 ^ k) (by omega)
            t.m_bucket_count 0 _ (by omega)
            (⟨hfresh, rfl, rfl, fun j q hq => by
                have := hq.2.1
                rw [hst j hq.1] at this
                exact absurd this (by decide),
              fun j' q hj' => by omega, rfl⟩) rfl
          refine ⟨t1, hloop, ?_, hbc⟩
          constructor
          · exact hm.inv
          · rw [hm.count, ← hinv.size_eq]
          · exact hm.no_tomb
          · intro q
            constructor
            · rintro ⟨j, hq⟩
              obtain ⟨j', _, h⟩ := hm.sound j q hq
              exact ⟨j', h⟩
            · rintro ⟨j, hq⟩
              exact hm.complete j q hq.1 hq
          · exact hm.lf

/-- Bucket count that the growth step of `emplace` and `operator[]` asks for. -/
theorem grow_if_needed_spec (c : Config K) (hc : Lawful c) (t : Table K V) (hinv : Inv c t) :
    (grow_if_needed c t = .fault .bad_alloc ∧
      c.max_size < (if t.m_bucket_count = 0 then 4 else 2 * t.m_bucket_count)) ∨
    ∃ t1, grow_if_needed c t = .ok t1 ∧ Inv c t1 ∧ SameContent t t1 ∧ t1.m_size = t.m_size ∧
      t1.m_max_load_factor = t.m_max_load_factor ∧ t1.m_occupied < t1.m_bucket_count ∧
      ((t1 = t ∧ t.m_bucket_count ≠ 0 ∧
          exceeds (t.m_occupied + 1) t.m_bucket_count t.m_max_load_factor = false) ∨
       ((t.m_bucket_count = 0 ∨
          exceeds (t.m_occupied + 1) t.m_bucket_count t.m_max_load_factor = true) ∧
        t1.m_bucket_count = (if t.m_bucket_count = 0 then 4 else 2 * t.m_bucket_count) ∧
        t1.m_occupied = t1.m_size)) := by
  unfold grow_if_needed
  by_cases hg : t.m_bucket_count = 0 ∨
      exceeds (t.m_occupied + 1) t.m_bucket_count t.m_max_load_factor = true
  · rw [if_pos hg]
    have hreq : ∃ n, (if t.m_bucket_count > 0 then (t.m_bucket_count * 2) % 2 ^ 64 else 4) = n ∧
        n ≠ 0 ∧ n < 2 ^ 64 ∧ roundup32 n = n ∧ t.m_bucket_count < n ∧
        n = (if t.m_bucket_count = 0 then 4 else 2 * t.m_bucket_count) := by
      rcases hinv.pow2 with h0 | ⟨k, hk2, hk63, hk⟩
      · refine ⟨4, by rw [if_neg (by omega)], by omega, by norm_num, by decide, by omega, ?_⟩
        rw [if_pos h0]
      · have hpos : 0 < 2 ^ k := Nat.pos_pow_of_pos _ (by norm_num)
        have hlt : 2 ^ (k + 1) < 2 ^ 64 := Nat.pow_lt_pow_right (by norm_num) (by omega)
        have h2 : 2 ^ k * 2 = 2 ^ (k + 1) := by rw [pow_succ]
        refine ⟨2 ^ (k + 1), ?_, by omega, hlt, roundup32_pow2 _ (by omega) (by omega), by omega,
          ?_⟩
        · rw [if_pos (by omega), hk, h2]
          exact Nat.mod_eq_of_lt hlt
        · rw [if_neg (by omega), hk]; omega
    obtain ⟨n, hreq, hn0, hn64, hround, hlt, hval⟩ := hreq
    rw [hreq]
    rcases rehash_internal_spec c hc t hinv n hn0 hn64 with ⟨h, _⟩ | ⟨_, h2, h3⟩ | ⟨_, _, t1, h1, hr, hbc⟩
    · omega
    · left
      exact ⟨h3, by rw [← hval, ← hround]; exact h2⟩
    · right
      refine ⟨t1, h1, hr.inv, hr.content, hr.size, hr.lf, ?_, Or.inr ⟨hg, ?_, hr.no_tomb⟩⟩
      · rw [hr.no_tomb, hr.size, hbc, hround]
        have := hinv.size_le_occupied
        have := hinv.occupied_le
        omega
      · rw [hbc, hround, hval]
  · rw [if_neg hg]
    right
    push_neg at hg
    have hex : exceeds (t.m_occupied + 1) t.m_bucket_count t.m_max_load_factor = false := by
      simpa using hg.2
    refine ⟨t, rfl, hinv, fun q => Iff.rfl, rfl, rfl, ?_, Or.inl ⟨rfl, hg.1, hex⟩⟩
    obtain ⟨k, _, hk63, hk⟩ := hinv.pos_pow2 (by omega)
    rw [hk] at hex
    have := hinv.fits _ k (by omega) hex
    omega

end FastSTL

namespace FastSTL

variable {K V : Type}

/-! ## Iterators -/

theorem advance_loop_spec (t : Table K V) (hlen : t.m_flags.length = (t.m_bucket_count + 15) / 16) :
    ∀ fuel m, t.m_bucket_count - m ≤ fuel →
      ∃ r, advance_loop t fuel m = .ok r ∧ m ≤ r ∧ (m ≤ t.m_bucket_count → r ≤ t.m_bucket_count) ∧
        (t.m_bucket_count ≤ m → r = m) ∧
        (∀ j, m ≤ j → j < r → slot_state t.m_flags j ≠ State.Occupied) ∧
        (r < t.m_bucket_count → slot_state t.m_flags r = State.Occupied) := by
  intro fuel
  induction fuel with
  | zero =>
    intro m hm
    refine ⟨m, ?_, le_refl _, fun h => h, fun _ => rfl, fun j h1 h2 => by omega, fun h => by omega⟩
    unfold advance_loop
    rw [if_neg (by omega)]
  | succ fuel ih =>
    intro m hm
    unfold advance_loop
    by_cases hlt : m < t.m_bucket_count
    · rw [if_pos hlt, is_occupied_eq _ _ (by rw [hlen]; omega)]
      by_cases hocc : slot_state t.m_flags m = State.Occupied
      · simp only [hocc, decide_True]
        exact ⟨m, rfl, le_refl _, fun h => h, fun _ => rfl, fun j h1 h2 => by omega, fun _ => hocc⟩
      · have hd : decide (slot_state t.m_flags m = 0) = false := by simpa using hocc
        simp only [hd]
        obtain ⟨r, hr, h1, h2, h3, h4, h5⟩ := ih (m + 1) (by omega)
        refine ⟨r, hr, by omega, fun _ => h2 (by omega), fun h => by omega, ?_, h5⟩
        intro j hj1 hj2
        by_cases hjm : j = m
        · subst hjm; exact hocc
        · exact h4 j (by omega) hj2
    · rw [if_neg hlt]
      exact ⟨m, rfl, le_refl _, fun h => h, fun _ => rfl, fun j h1 h2 => by omega,
        fun h => by omega⟩

/-- Function `advance` moves the cursor to the first occupied slot at or after
it, or to the bucket count when there is none; a cursor at or past the bucket
count stays where it is. -/
theorem advance_spec (t : Table K V) (hlen : t.m_flags.length = (t.m_bucket_count + 15) / 16)
    (it : map_iterator) :
    ∃ r, map_iterator.advance t it = .ok ⟨r⟩ ∧ it.m_index ≤ r ∧
      (it.m_index ≤ t.m_bucket_count → r ≤ t.m_bucket_count) ∧
      (t.m_bucket_count ≤ it.m_index → r = it.m_index) ∧
      (∀ j, it.m_index ≤ j → j < r → slot_state t.m_flags j ≠ State.Occupied) ∧
      (r < t.m_bucket_count → slot_state t.m_flags r = State.Occupied) := by
  obtain ⟨r, hr, h⟩ := advance_loop_spec t hlen (t.m_bucket_count - it.m_index) it.m_index
    (le_refl _)
  refine ⟨r, ?_, h⟩
  unfold map_iterator.advance
  rw [hr]

theorem create_spec (t : Table K V) (hlen : t.m_flags.length = (t.m_bucket_count + 15) / 16)
    (index : Nat) :
    ∃ r, map_iterator.create t index = .ok ⟨r⟩ ∧ index ≤ r ∧
      (index ≤ t.m_bucket_count → r ≤ t.m_bucket_count) ∧
      (t.m_bucket_count ≤ index → r = index) ∧
      (∀ j, index ≤ j → j < r → slot_state t.m_flags j ≠ State.Occupied) ∧
      (r < t.m_bucket_count → slot_state t.m_flags r = State.Occupied) := by
  unfold map_iterator.create
  by_cases h : index < t.m_bucket_count
  · rw [if_pos h]
    exact advance_spec t hlen ⟨index⟩
  · rw [if_neg h]
    exact ⟨index, rfl, le_refl _, fun h => h, fun _ => rfl, fun j h1 h2 => by omega,
      fun h => by omega⟩

theorem create_occupied (t : Table K V) (hlen : t.m_flags.length = (t.m_bucket_count + 15) / 16)
    (index : Nat) (hocc : slot_state t.m_flags index = State.Occupied) :
    map_iterator.create t index = .ok ⟨index⟩ := by
  obtain ⟨r, hr, h1, _, _, h4, _⟩ := create_spec t hlen index
  have : r = index := by
    by_contra hne
    exact h4 index (le_refl _) (by omega) hocc
  rw [hr, this]

theorem end_eq (t : Table K V) : Table.end t = .ok ⟨t.m_bucket_count⟩ := by
  unfold Table.end map_iterator.create
  rw [if_neg (by omega)]

theorem increment_spec (t : Table K V) (hlen : t.m_flags.length = (t.m_bucket_count + 15) / 16)
    (it : map_iterator) (h64 : it.m_index + 1 < 2 ^ 64) :
    ∃ r, map_iterator.increment t it = .ok ⟨r⟩ ∧ it.m_index + 1 ≤ r ∧
      (it.m_index + 1 ≤ t.m_bucket_count → r ≤ t.m_bucket_count) ∧
      (t.m_bucket_count ≤ it.m_index + 1 → r = it.m_index + 1) ∧
      (∀ j, it.m_index + 1 ≤ j → j < r → slot_state t.m_flags j ≠ State.Occupied) ∧
      (r < t.m_bucket_count → slot_state t.m_flags r = State.Occupied) := by
  unfold map_iterator.increment
  rw [Nat.mod_eq_of_lt h64]
  exact advance_spec t hlen ⟨it.m_index + 1⟩

/-! ## emplace and operator[] -/

/-- Outcome of `emplace`: the allocator refuses the growth step, or the key
was present and nothing is inserted, or the pair is inserted. -/
theorem emplace_spec (c : Config K) (hc : Lawful c) (t : Table K V) (hinv : Inv c t)
    (key : K) (value : V) :
    (emplace c t key value = .fault .bad_alloc ∧
      c.max_size < (if t.m_bucket_count = 0 then 4 else 2 * t.m_bucket_count)) ∨
    ∃ t1 t2 index b, grow_if_needed c t = .ok t1 ∧ emplace c t key value = .ok (t2, ⟨index⟩, b) ∧
      Inv c t2 ∧ t2.m_max_load_factor = t.m_max_load_factor ∧
      ((b = false ∧ t2 = t1 ∧ (∃ p, Holds t2 index p ∧ c.m_key_equal p.1 key = true)) ∨
       (b = true ∧ (∀ i p, Holds t i p → c.m_key_equal p.1 key = false) ∧
          insert_new c t1 (key, value) = .ok (t2, index))) := by
  unfold emplace
  rcases grow_if_needed_spec c hc t hinv with ⟨h1, h2⟩ | ⟨t1, hg, hinv1, hsame, hsz, hlf, hroom, _⟩
  · left
    exact ⟨by rw [h1], h2⟩
  · right
    rw [hg]
    simp only
    obtain ⟨r, hfind, hr⟩ := find_key_spec c hc t1 hinv1 key
    rw [hfind]
    simp only
    rcases hr with ⟨hrn, habs⟩ | ⟨hrlt, p, hp, hpe⟩
    · rw [if_neg (by simpa using hrn)]
      have habs' : ∀ i q, Holds t1 i q → c.m_key_equal q.1 (key, value).1 = false := habs
      obtain ⟨t2, slot, hins, _, _, hslot_lt, _, _, hbc2, hlf2, _, _, _, hst2, _, hinv2⟩ :=
        insert_new_spec c hc t1 hinv1 (key, value) habs' hroom
      rw [hins]
      simp only
      rw [create_occupied t2 hinv2.len_flags slot hst2]
      refine ⟨t1, t2, slot, true, rfl, rfl, hinv2, by rw [hlf2, hlf], Or.inr ⟨rfl, ?_, hins⟩⟩
      intro i q hq
      obtain ⟨j, hj⟩ := (hsame q).mpr ⟨i, hq⟩
      exact habs j q hj
    · rw [if_pos (by omega)]
      rw [create_occupied t1 hinv1.len_flags r hp.2.1]
      exact ⟨t1, t1, r, false, rfl, rfl, hinv1, hlf, Or.inl ⟨rfl, rfl, p, hp, hpe⟩⟩

theorem operator_subscript_spec [Inhabited V] (c : Config K) (hc : Lawful c) (t : Table K V)
    (hinv : Inv c t) (key : K) :
    (operator_subscript c t key = .fault .bad_alloc ∧
      c.max_size < (if t.m_bucket_count = 0 then 4 else 2 * t.m_bucket_count)) ∨
    ∃ t1 t2 index, grow_if_needed c t = .ok t1 ∧ operator_subscript c t key = .ok (t2, index) ∧
      Inv c t2 ∧ t2.m_max_load_factor = t.m_max_load_factor ∧
      ((t2 = t1 ∧ (∃ p, Holds t2 index p ∧ c.m_key_equal p.1 key = true)) ∨
       ((∀ i p, Holds t i p → c.m_key_equal p.1 key = false) ∧
          insert_new c t1 (key, default) = .ok (t2, index))) := by
  unfold operator_subscript
  rcases grow_if_needed_spec c hc t hinv with ⟨h1, h2⟩ | ⟨t1, hg, hinv1, hsame, hsz, hlf, hroom, _⟩
  · left
    exact ⟨by rw [h1], h2⟩
  · right
    rw [hg]
    simp only
    obtain ⟨r, hfind, hr⟩ := find_key_spec c hc t1 hinv1 key
    rw [hfind]
    simp only
    rcases hr with ⟨hrn, habs⟩ | ⟨hrlt, p, hp, hpe⟩
    · rw [if_neg (by simpa using hrn)]
      have habs' : ∀ i q, Holds t1 i q → c.m_key_equal q.1 (key, (default : V)).1 = false := habs
      obtain ⟨t2, slot, hins, _, _, hslot_lt, _, _, hbc2, hlf2, _, _, _, hst2, _, hinv2⟩ :=
        insert_new_spec c hc t1 hinv1 (key, default) habs' hroom
      refine ⟨t1, t2, slot, rfl, hins, hinv2, by rw [hlf2, hlf], Or.inr ⟨?_, hins⟩⟩
      intro i q hq
      obtain ⟨j, hj⟩ := (hsame q).mpr ⟨i, hq⟩
      exact habs j q hj
    · rw [if_pos (by omega)]
      simp only [hp.2.2]
      exact ⟨t1, t1, r, rfl, rfl, hinv1, hlf, Or.inl ⟨rfl, p, hp, hpe⟩⟩

end FastSTL

namespace FastSTL

variable {K V : Type}

/-! ## erase -/

/-- Pairs held after the pair in slot `index` was destroyed and the slot marked
deleted. -/
theorem holds_unset (t t2 : Table K V) (index : Nat)
    (hbc : t2.m_bucket_count = t.m_bucket_count)
    (hb : t2.m_buckets = t.m_buckets.set index none)
    (hs : slot_state t2.m_flags index = State.Deleted)
    (ho : ∀ j, j ≠ index → slot_state t2.m_flags j = slot_state t.m_flags j) (j : Nat)
    (q : K × V) :
    Holds t2 j q ↔ (j ≠ index ∧ Holds t j q) := by
  unfold Holds
  rw [hbc, hb, List.getElem?_set]
  by_cases hj : j = index
  · subst hj
    rw [hs]
    constructor
    · rintro ⟨_, h, _⟩
      exact absurd h (by decide)
    · rintro ⟨h, _⟩
      exact absurd rfl h
  · rw [if_neg (fun h => hj h.symm), ho j hj]
    exact ⟨fun h => ⟨hj, h⟩, fun h => h.2⟩

/-- Outcome of `erase(pos)`.  When `pos` does not reference an occupied slot the
table is unchanged and `end()` is returned.  Otherwise the slot becomes a
tombstone and the returned iterator is the increment of the iterator
constructed at the erased index. -/
theorem erase_pos_spec (c : Config K) (t : Table K V) (hinv : Inv c t) (pos : map_iterator) :
    (¬ (pos.m_index < t.m_bucket_count ∧ slot_state t.m_flags pos.m_index = State.Occupied) ∧
      erase_pos t pos = .ok (t, ⟨t.m_bucket_count⟩)) ∨
    (pos.m_index < t.m_bucket_count ∧ slot_state t.m_flags pos.m_index = State.Occupied ∧
      ∃ t1 a it, erase_pos t pos = .ok (t1, it) ∧
        set_state t.m_flags pos.m_index State.Deleted = .ok t1.m_flags ∧
        map_iterator.create t1 pos.m_index = .ok ⟨a⟩ ∧
        map_iterator.increment t1 ⟨a⟩ = .ok it ∧
        Inv c t1 ∧ t1.m_bucket_count = t.m_bucket_count ∧
        t1.m_max_load_factor = t.m_max_load_factor ∧
        t1.m_size + 1 = t.m_size ∧ t1.m_occupied = t.m_occupied ∧
        t1.m_buckets = t.m_buckets.set pos.m_index none ∧
        slot_state t1.m_flags pos.m_index = State.Deleted ∧
        (∀ j, j ≠ pos.m_index → slot_state t1.m_flags j = slot_state t.m_flags j)) := by
  unfold erase_pos
  simp only
  by_cases hge : pos.m_index ≥ t.m_bucket_count
  · left
    refine ⟨fun h => by omega, ?_⟩
    rw [if_pos hge]
    simp only [end_eq]
  · rw [if_neg hge]
    have hlt : pos.m_index < t.m_bucket_count := by omega
    have hidx := hinv.flag_idx hlt
    rw [is_occupied_eq _ _ hidx]
    by_cases hocc : slot_state t.m_flags pos.m_index = State.Occupied
    · right
      refine ⟨hlt, hocc, ?_⟩
      have hd : decide (slot_state t.m_flags pos.m_index = 0) = true := by simpa using hocc
      simp only [hd, Bool.not_true]
      have hdes : destroy t.m_buckets pos.m_index = .ok (t.m_buckets.set pos.m_index none) := by
        unfold destroy
        rw [if_pos (by rw [hinv.len_buckets]; exact hlt)]
      obtain ⟨fl1, hset, hlen1, hst1, hoth1⟩ := set_state_spec t.m_flags pos.m_index State.Deleted
        hidx (by decide)
      simp only [hdes, hset]
      have hsz_pos : 0 < t.m_size := by
        rw [hinv.size_eq]
        exact cnt_pos _ _ pos.m_index hlt (by simpa using hocc)
      have hbc63 : t.m_bucket_count < 2 ^ 63 := by
        obtain ⟨k, _, hk63, hk⟩ := hinv.pos_pow2 (by omega)
        rw [hk]
        exact Nat.pow_lt_pow_right (by norm_num) hk63
      have hsz_le : t.m_size ≤ t.m_bucket_count := by
        rw [hinv.size_eq]; exact cnt_le _ _
      have hsz : (t.m_size + 2 ^ 64 - 1) % 2 ^ 64 = t.m_size - 1 := by omega
      rw [hsz]
      have hlenf : fl1.length = (t.m_bucket_count + 15) / 16 := by
        rw [hlen1]; exact hinv.len_flags
      obtain ⟨a, ha, _, ha2, _⟩ := create_spec
        ({ t with m_buckets := t.m_buckets.set pos.m_index none, m_flags := fl1,
                  m_size := t.m_size - 1 } : Table K V) hlenf pos.m_index
      have ha63 : a ≤ t.m_bucket_count := ha2 (by show pos.m_index ≤ t.m_bucket_count; omega)
      obtain ⟨b, hb, _⟩ := increment_spec
        ({ t with m_buckets := t.m_buckets.set pos.m_index none, m_flags := fl1,
                  m_size := t.m_size - 1 } : Table K V) hlenf ⟨a⟩ (by show a + 1 < 2 ^ 64; omega)
      rw [ha]
      simp only
      rw [hb]
      refine ⟨_, a, ⟨b⟩, rfl, rfl, ha, hb, ?_, rfl, rfl, by show t.m_size - 1 + 1 = t.m_size; omega,
        rfl, rfl, hst1, hoth1⟩
      have hholds := holds_unset t
        ({ t with m_buckets := t.m_buckets.set pos.m_index none, m_flags := fl1,
                  m_size := t.m_size - 1 } : Table K V) pos.m_index rfl rfl hst1 hoth1
      have hne2 : ∀ j, slot_state t.m_flags j ≠ State.Empty → slot_state fl1 j ≠ State.Empty := by
        intro j hj
        by_cases hjs : j = pos.m_index
        · rw [hjs, hst1]; decide
        · rw [hoth1 j hjs]; exact hj
      constructor
      · exact hinv.pow2
      · simp only [List.length_set]; exact hinv.len_buckets
      · exact hlenf
      · intro i hi
        by_cases his : i = pos.m_index
        · simp only [his, hst1]; decide
        · simp only [hoth1 i his]; exact hinv.valid i hi
      · intro i hi h
        by_cases his : i = pos.m_index
        · simp only [his, hst1] at h
          exact absurd h (by decide)
        · simp only [hoth1 i his] at h
          obtain ⟨q, hq⟩ := hinv.constructed i hi h
          refine ⟨q, ?_⟩
          simp only [List.getElem?_set]
          rw [if_neg (fun h => his h.symm)]
          exact hq
      · have h := cnt_update (fun i => decide (slot_state t.m_flags i = State.Occupied))
          (fun i => decide (slot_state fl1 i = State.Occupied)) t.m_bucket_count pos.m_index hlt
          (fun i _ hne => by simp only [hoth1 i hne])
        have hq : decide (slot_state fl1 pos.m_index = State.Occupied) = false := by
          rw [hst1]; decide
        have hp : decide (slot_state t.m_flags pos.m_index = State.Occupied) = true := by
          simpa using hocc
        simp only [hq, hp, reduceIte, Bool.false_eq_true, Nat.add_zero] at h
        have e1 := hinv.size_eq
        show t.m_size - 1 =
          cnt (fun i => decide (slot_state fl1 i = State.Occupied)) t.m_bucket_count
        omega
      · show t.m_occupied = _
        rw [hinv.occupied_eq]
        apply cnt_congr
        intro i _
        by_cases his : i = pos.m_index
        · rw [his, hst1, hocc]; decide
        · rw [hoth1 i his]
      · intro d q hd hq e he
        apply hne2
        exact hinv.chain d q hd ((hholds _ q).mp hq).2 e he
      · intro i j q q' hq hq' heq
        exact hinv.unique i j q q' ((hholds _ q).mp hq).2 ((hholds _ q').mp hq').2 heq
      · exact hinv.fits
    · left
      refine ⟨fun h => hocc h.2, ?_⟩
      have hd : decide (slot_state t.m_flags pos.m_index = 0) = false := by simpa using hocc
      simp only [hd, Bool.not_false, end_eq]

/-- Outcome of `erase(key)`: 0 and the table itself when no slot holds the key;
otherwise 1 and the table in which the slot of the key is a tombstone. -/
theorem erase_spec (c : Config K) (hc : Lawful c) (t : Table K V) (hinv : Inv c t) (key : K) :
    ((∀ i p, Holds t i p → c.m_key_equal p.1 key = false) ∧ erase c t key = .ok (t, 0)) ∨
    (∃ index p t1, Holds t index p ∧ c.m_key_equal p.1 key = true ∧
      find_key c t key = .ok index ∧ erase c t key = .ok (t1, 1) ∧
      set_state t.m_flags index State.Deleted = .ok t1.m_flags ∧
      Inv c t1 ∧ t1.m_bucket_count = t.m_bucket_count ∧
      t1.m_max_load_factor = t.m_max_load_factor ∧
      t1.m_size + 1 = t.m_size ∧ t1.m_occupied = t.m_occupied ∧
      t1.m_buckets = t.m_buckets.set index none ∧
      slot_state t1.m_flags index = State.Deleted ∧
      (∀ j, j ≠ index → slot_state t1.m_flags j = slot_state t.m_flags j)) := by
  unfold erase
  obtain ⟨r, hfind, hr⟩ := find_key_spec c hc t hinv key
  rw [hfind]
  simp only
  rcases hr with ⟨hrn, habs⟩ | ⟨hrlt, p, hp, hpe⟩
  · left
    refine ⟨habs, ?_⟩
    rw [if_neg (by simpa using hrn)]
  · right
    rw [if_pos (by omega), create_occupied t hinv.len_flags r hp.2.1]
    simp only
    rcases erase_pos_spec c t hinv ⟨r⟩ with ⟨h, _⟩ | ⟨_, _, t1, a, it, he, hset, _, _, h⟩
    · exact absurd ⟨hp.1, hp.2.1⟩ h
    · rw [he]
      exact ⟨r, p, t1, hp, hpe, rfl, rfl, hset, h⟩

end FastSTL

namespace FastSTL

variable {K V : Type}

/-! ## clear, rehash and reserve -/

/-- A table all of whose slots are empty satisfies the invariant. -/
theorem inv_of_all_empty (c : Config K) (t : Table K V)
    (hpow : t.m_bucket_count = 0 ∨ ∃ k, 2 ≤ k ∧ k < 63 ∧ t.m_bucket_count = 2 ^ k)
    (hb : t.m_buckets.length = t.m_bucket_count)
    (hf : t.m_flags.length = (t.m_bucket_count + 15) / 16)
    (hst : ∀ i, i < t.m_bucket_count → slot_state t.m_flags i = State.Empty)
    (hsz : t.m_size = 0) (hoc : t.m_occupied = 0) (hfits : t.m_max_load_factor.Fits) :
    Inv c t := by
  constructor
  · exact hpow
  · exact hb
  · exact hf
  · intro i hi
    rw [hst i hi]
  · intro i hi h
    rw [hst i hi] at h
    exact absurd h (by decide)
  · rw [hsz]
    symm
    apply cnt_zero_of_false
    intro i hi
    simp only [decide_eq_false_iff_not]
    rw [hst i hi]; decide
  · rw [hoc]
    symm
    apply cnt_zero_of_false
    intro i hi
    simp only [decide_eq_false_iff_not, not_not]
    exact hst i hi
  · intro d p hd hp
    have := hp.2.1
    rw [hst _ hp.1] at this
    exact absurd this (by decide)
  · intro i j p q hp
    have := hp.2.1
    rw [hst _ hp.1] at this
    exact absurd this (by decide)
  · exact hfits

theorem destroy_elements_loop_spec (fl : List Nat) (n : Nat) (hf : fl.length = (n + 15) / 16) :
    ∀ remaining i (b : List (Option (K × V))), i + remaining = n → b.length = n →
      ∃ b1, destroy_elements_loop fl remaining i b = .ok b1 ∧ b1.length = n := by
  intro remaining
  induction remaining with
  | zero =>
    intro i b _ hb
    exact ⟨b, rfl, hb⟩
  | succ remaining ih =>
    intro i b hi hb
    unfold destroy_elements_loop
    rw [is_occupied_eq _ _ (by rw [hf]; omega)]
    by_cases hocc : slot_state fl i = 0
    · have hd : decide (slot_state fl i = 0) = true := by simpa using hocc
      simp only [hd]
      have hdes : destroy b i = .ok (b.set i none) := by
        unfold destroy
        rw [if_pos (by omega)]
      simp only [hdes]
      exact ih (i + 1) _ (by omega) (by simpa using hb)
    · have hd : decide (slot_state fl i = 0) = false := by simpa using hocc
      simp only [hd]
      exact ih (i + 1) b (by omega) hb

/-- Function `clear` returns a table with the same buckets, all empty. -/
theorem clear_spec (c : Config K) (t : Table K V) (hinv : Inv c t) :
    ∃ t1, clear t = .ok t1 ∧ Inv c t1 ∧ t1.m_bucket_count = t.m_bucket_count ∧
      t1.m_size = 0 ∧ t1.m_occupied = 0 ∧
      t1.m_max_load_factor = t.m_max_load_factor ∧
      (∀ i, i < t1.m_bucket_count → slot_state t1.m_flags i = State.Empty) := by
  unfold clear destroy_elements
  by_cases h0 : t.m_bucket_count = 0
  · have hb : t.m_buckets = [] := by
      apply List.eq_nil_of_length_eq_zero
      rw [hinv.len_buckets, h0]
    have hfl : t.m_flags = [] := by
      apply List.eq_nil_of_length_eq_zero
      rw [hinv.len_flags, h0]
    simp only [hb, hfl, List.isEmpty_nil, if_true, Bool.not_true, Bool.false_eq_true, if_false]
    refine ⟨_, rfl, ?_, rfl, rfl, rfl, rfl, ?_⟩
    · apply inv_of_all_empty
      · exact Or.inl h0
      · show ([] : List (Option (K × V))).length = t.m_bucket_count
        rw [h0]; rfl
      · show ([] : List Nat).length = (t.m_bucket_count + 15) / 16
        rw [h0]; rfl
      · intro i hi
        have : i < t.m_bucket_count := hi
        omega
      · rfl
      · rfl
      · exact hinv.fits
    · intro i hi
      have : i < t.m_bucket_count := hi
      omega
  · have hbne : t.m_buckets.isEmpty = false := by
      cases hb : t.m_buckets with
      | nil =>
        have := hinv.len_buckets
        rw [hb] at this
        simp at this
        omega
      | cons _ _ => rfl
    have hfne : t.m_flags.isEmpty = false := by
      cases hb : t.m_flags with
      | nil =>
        have := hinv.len_flags
        rw [hb] at this
        simp at this
        omega
      | cons _ _ => rfl
    obtain ⟨b1, hb1, hlen1⟩ := destroy_elements_loop_spec t.m_flags t.m_bucket_count hinv.len_flags
      t.m_bucket_count 0 t.m_buckets (by omega) hinv.len_buckets
    simp only [hbne, Bool.false_eq_true, if_false, hb1, hfne, Bool.not_false, if_true]
    have hsize : (t.m_bucket_count + FLAGS_PER_U32 - 1) / FLAGS_PER_U32
        = (t.m_bucket_count + 15) / 16 := rfl
    have hmem : memset_flags t.m_flags ((t.m_bucket_count + FLAGS_PER_U32 - 1) / FLAGS_PER_U32)
        = .ok (List.replicate ((t.m_bucket_count + 15) / 16) 0xaaaaaaaa) := by
      unfold memset_flags
      rw [hsize, if_pos (by rw [hinv.len_flags])]
      rw [List.drop_eq_nil_of_le (by rw [hinv.len_flags]), List.append_nil]
    simp only [hmem]
    have hst : ∀ i, i < t.m_bucket_count →
        slot_state (List.replicate ((t.m_bucket_count + 15) / 16) 0xaaaaaaaa) i = State.Empty := by
      intro i hi
      apply slot_state_replicate
      omega
    refine ⟨_, rfl, ?_, rfl, rfl, rfl, rfl, hst⟩
    apply inv_of_all_empty
    · exact hinv.pow2
    · exact hlen1
    · simp
    · exact hst
    · rfl
    · rfl
    · exact hinv.fits

/-- Outcome of the zero request of `rehash_internal`: the table is cleared and
its storage released. -/
theorem rehash_internal_zero (c : Config K) (t : Table K V) (hinv : Inv c t) :
    ∃ t1, rehash_internal c t 0 = .ok t1 ∧ Inv c t1 ∧ t1.m_bucket_count = 0 ∧ t1.m_size = 0 ∧
      t1.m_occupied = 0 ∧ t1.m_max_load_factor = t.m_max_load_factor := by
  obtain ⟨t1, hcl, hinv1, _, _, _, hlf, _⟩ := clear_spec c t hinv
  unfold rehash_internal
  rw [if_pos rfl, hcl]
  refine ⟨_, rfl, ?_, rfl, rfl, rfl, hlf⟩
  apply inv_of_all_empty
  · exact Or.inl rfl
  · rfl
  · show ([] : List Nat).length = (0 + 15) / 16
    decide
  · intro i hi
    have : i < 0 := hi
    omega
  · rfl
  · rfl
  · exact hinv1.fits

/-- Outcome of `rehash(count)`. -/
theorem rehash_spec (c : Config K) (hc : Lawful c) (t : Table K V) (hinv : Inv c t)
    (count : Nat) (h64 : count < 2 ^ 64) :
    (rehash c t count = .ok t ∧ (count ≤ t.m_bucket_count ∨ roundup32 count ≤ t.m_bucket_count)) ∨
    (t.m_bucket_count < roundup32 count ∧ c.max_size < roundup32 count ∧
      rehash c t count = .fault .bad_alloc) ∨
    (t.m_bucket_count < count ∧ t.m_bucket_count < roundup32 count ∧
      roundup32 count ≤ c.max_size ∧
      ∃ t1, rehash c t count = .ok t1 ∧ Rehashed c t t1 ∧
        t1.m_bucket_count = roundup32 count) := by
  unfold rehash
  by_cases h : count > t.m_bucket_count
  · rw [if_pos h]
    rcases rehash_internal_spec c hc t hinv count (by omega) h64 with ⟨h1, h2⟩ | h2 | ⟨h1, h2, h3⟩
    · exact Or.inl ⟨h2, Or.inr h1⟩
    · exact Or.inr (Or.inl h2)
    · exact Or.inr (Or.inr ⟨h, h1, h2, h3⟩)
  · rw [if_neg h]
    exact Or.inl ⟨rfl, Or.inl (by omega)⟩

/-- A successful `reserve` keeps the invariant, whatever the load factor. -/
theorem reserve_inv (c : Config K) (hc : Lawful c) (t : Table K V) (hinv : Inv c t)
    (count : Nat) (t1 : Table K V) (h : reserve c t count = .ok t1) :
    Inv c t1 ∧ t1.m_max_load_factor = t.m_max_load_factor := by
  unfold reserve at h
  by_cases h0 : count > 0
  · rw [if_pos h0] at h
    simp only at h
    by_cases hnum : t.m_max_load_factor.num = 0
    · rw [if_pos hnum] at h
      exact Outcome.noConfusion h
    · rw [if_neg hnum] at h
      by_cases hq : to_float count * t.m_max_load_factor.den / t.m_max_load_factor.num < 2 ^ 64
      · rw [if_pos hq] at h
        by_cases hz : (to_float count * t.m_max_load_factor.den / t.m_max_load_factor.num + 1)
            % 2 ^ 64 = 0
        · rw [hz] at h
          obtain ⟨t2, h2, hinv2, _, _, _, hlf⟩ := rehash_internal_zero c t hinv
          rw [h2] at h
          cases h
          exact ⟨hinv2, hlf⟩
        · rcases rehash_internal_spec c hc t hinv _ hz (Nat.mod_lt _ (by norm_num)) with
            ⟨_, h2⟩ | ⟨_, _, h2⟩ | ⟨_, _, t2, h2, hr, _⟩
          · rw [h2] at h
            cases h
            exact ⟨hinv, rfl⟩
          · rw [h2] at h
            exact Outcome.noConfusion h
          · rw [h2] at h
            cases h
            exact ⟨hr.inv, hr.lf⟩
      · rw [if_neg hq] at h
        exact Outcome.noConfusion h
  · rw [if_neg h0] at h
    cases h
    exact ⟨hinv, rfl⟩

/-- Outcome of `reserve(count)` under the default load factor `0.5`: the
request is `2 * to_float count + 1` buckets. -/
theorem reserve_spec (c : Config K) (hc : Lawful c) (t : Table K V) (hinv : Inv c t)
    (hlf : t.m_max_load_factor = ⟨1, 2⟩) (count : Nat) :
    (reserve c t count = .ok t ∧
      (count = 0 ∨ roundup32 (2 * to_float count + 1) ≤ t.m_bucket_count)) ∨
    (0 < count ∧ 2 ^ 64 ≤ 2 * to_float count ∧ reserve c t count = .fault .undefined) ∨
    (0 < count ∧ t.m_bucket_count < roundup32 (2 * to_float count + 1) ∧
      c.max_size < roundup32 (2 * to_float count + 1) ∧
      reserve c t count = .fault .bad_alloc) ∨
    (0 < count ∧ t.m_bucket_count < roundup32 (2 * to_float count + 1) ∧
      roundup32 (2 * to_float count + 1) ≤ c.max_size ∧
      ∃ t1, reserve c t count = .ok t1 ∧ Rehashed c t t1 ∧
        t1.m_bucket_count = roundup32 (2 * to_float count + 1)) := by
  unfold reserve
  by_cases h0 : count > 0
  · rw [if_pos h0, hlf]
    simp only [Nat.div_one]
    rw [if_neg (by norm_num)]
    have hmul : to_float count * 2 = 2 * to_float count := Nat.mul_comm _ _
    rw [hmul]
    by_cases hq : 2 * to_float count < 2 ^ 64
    · rw [if_pos hq]
      have hmod : (2 * to_float count + 1) % 2 ^ 64 = 2 * to_float count + 1 := by omega
      rw [hmod]
      rcases rehash_internal_spec c hc t hinv (2 * to_float count + 1) (by omega) (by omega) with
        ⟨h1, h2⟩ | h2 | h2
      · exact Or.inl ⟨h2, Or.inr h1⟩
      · exact Or.inr (Or.inr (Or.inl ⟨h0, h2⟩))
      · exact Or.inr (Or.inr (Or.inr ⟨h0, h2⟩))
    · rw [if_neg hq]
      exact Or.inr (Or.inl ⟨h0, by omega, rfl⟩)
  · rw [if_neg h0]
    exact Or.inl ⟨rfl, Or.inl (by omega)⟩

end FastSTL

namespace FastSTL

variable {K V : Type}

/-! ## Reachable tables -/

theorem fits_half : LoadFactor.Fits ⟨1, 2⟩ := by
  intro x k hk h
  have h1 := not_exceeds_half x k hk h
  have h2 := le_two_to_float x
  omega

theorem init_inv (c : Config K) : Inv c (Table.init : Table K V) := by
  apply inv_of_all_empty
  · exact Or.inl rfl
  · rfl
  · show ([] : List Nat).length = (0 + 15) / 16
    decide
  · intro i hi
    have : i < 0 := hi
    omega
  · rfl
  · rfl
  · exact fits_half

theorem nat_config_lawful : Lawful nat_config := by
  constructor
  · intro a; simp [nat_config]
  · intro a b h; simp [nat_config] at h ⊢; exact h.symm
  · intro a b d h1 h2; simp [nat_config] at h1 h2 ⊢; exact h1.trans h2
  · intro a b h; simp [nat_config] at h ⊢; exact h
  · simp [nat_config]

/-- Every public mutating operation keeps the invariant and the load factor. -/
theorem reachable_inv [Inhabited V] (c : Config K) (hc : Lawful c) (t : Table K V)
    (h : Reachable c t) : Inv c t ∧ t.m_max_load_factor = ⟨1, 2⟩ := by
  induction h with
  | init => exact ⟨init_inv c, rfl⟩
  | @emplace t key value r _ hr ih =>
    rcases emplace_spec c hc t ih.1 key value with ⟨h1, _⟩ | ⟨t1, t2, index, b, _, h1, hinv, hlf, _⟩
    · rw [h1] at hr; exact Outcome.noConfusion hr
    · rw [h1] at hr
      cases hr
      exact ⟨hinv, by rw [hlf]; exact ih.2⟩
  | @insert t value r _ hr ih =>
    unfold insert at hr
    rcases emplace_spec c hc t ih.1 value.1 value.2 with
      ⟨h1, _⟩ | ⟨t1, t2, index, b, _, h1, hinv, hlf, _⟩
    · rw [h1] at hr; exact Outcome.noConfusion hr
    · rw [h1] at hr
      cases hr
      exact ⟨hinv, by rw [hlf]; exact ih.2⟩
  | @operator_subscript t key r _ hr ih =>
    rcases operator_subscript_spec c hc t ih.1 key with
      ⟨h1, _⟩ | ⟨t1, t2, index, _, h1, hinv, hlf, _⟩
    · rw [h1] at hr; exact Outcome.noConfusion hr
    · rw [h1] at hr
      cases hr
      exact ⟨hinv, by rw [hlf]; exact ih.2⟩
  | @erase_pos t pos r _ hr ih =>
    rcases erase_pos_spec c t ih.1 pos with ⟨_, h1⟩ | ⟨_, _, t1, a, it, h1, _, _, _, hinv, _, hlf, _⟩
    · rw [h1] at hr
      cases hr
      exact ih
    · rw [h1] at hr
      cases hr
      exact ⟨hinv, by rw [hlf]; exact ih.2⟩
  | @erase t key r _ hr ih =>
    rcases erase_spec c hc t ih.1 key with ⟨_, h1⟩ | ⟨_, _, t1, _, _, _, h1, _, hinv, _, hlf, _⟩
    · rw [h1] at hr
      cases hr
      exact ih
    · rw [h1] at hr
      cases hr
      exact ⟨hinv, by rw [hlf]; exact ih.2⟩
  | @clear t r _ hr ih =>
    obtain ⟨t1, h1, hinv, _, _, _, hlf, _⟩ := clear_spec c t ih.1
    rw [h1] at hr
    cases hr
    exact ⟨hinv, by rw [hlf]; exact ih.2⟩
  | @reserve t r count _ _ hr ih =>
    obtain ⟨hinv, hlf⟩ := reserve_inv c hc t ih.1 count r hr
    exact ⟨hinv, by rw [hlf]; exact ih.2⟩
  | @rehash t r count _ h64 hr ih =>
    rcases rehash_spec c hc t ih.1 count h64 with ⟨h1, _⟩ | ⟨_, _, h1⟩ | ⟨_, _, _, t1, h1, hre, _⟩
    · rw [h1] at hr
      cases hr
      exact ih
    · rw [h1] at hr; exact Outcome.noConfusion hr
    · rw [h1] at hr
      cases hr
      exact ⟨hre.inv, by rw [hre.lf]; exact ih.2⟩

/-! ## Lookups on a table that satisfies the invariant -/

theorem get_state_holds (t : Table K V) (i : Nat) (p : K × V) (h : Holds t i p)
    (hlen : t.m_flags.length = (t.m_bucket_count + 15) / 16) :
    get_state t.m_flags i = .ok State.Occupied := by
  rw [get_state_eq _ _ (by rw [hlen]; have := h.1; omega), h.2.1]

/-- Lookup of a key that some slot holds. -/
theorem find_key_present (c : Config K) (hc : Lawful c) (t : Table K V) (hinv : Inv c t)
    (key : K) (i : Nat) (p : K × V) (hp : Holds t i p) (heq : c.m_key_equal p.1 key = true) :
    find_key c t key = .ok i := by
  obtain ⟨r, hfind, hr⟩ := find_key_spec c hc t hinv key
  rcases hr with ⟨_, habs⟩ | ⟨_, q, hq, hqe⟩
  · have := habs i p hp
    rw [heq] at this
    exact Bool.noConfusion this
  · have : r = i := hinv.unique r i q p hq hp (hc.trans _ _ _ hqe (hc.symm _ _ heq))
    rw [hfind, this]

/-- Lookup of a key that no slot holds. -/
theorem find_key_absent (c : Config K) (hc : Lawful c) (t : Table K V) (hinv : Inv c t)
    (key : K) (habs : ∀ i p, Holds t i p → c.m_key_equal p.1 key = false) :
    find_key c t key = .ok t.m_bucket_count := by
  obtain ⟨r, hfind, hr⟩ := find_key_spec c hc t hinv key
  rcases hr with ⟨hrn, _⟩ | ⟨_, q, hq, hqe⟩
  · rw [hfind, hrn]
  · have := habs r q hq
    rw [hqe] at this
    exact Bool.noConfusion this

theorem find_present (c : Config K) (hc : Lawful c) (t : Table K V) (hinv : Inv c t)
    (key : K) (i : Nat) (p : K × V) (hp : Holds t i p) (heq : c.m_key_equal p.1 key = true) :
    find c t key = .ok ⟨i⟩ ∧ count c t key = .ok 1 := by
  unfold find count
  rw [find_key_present c hc t hinv key i p hp heq]
  have hne : i ≠ t.m_bucket_count := Nat.ne_of_lt hp.1
  simp only [hne, if_false, ne_eq, not_false_eq_true, if_true]
  exact ⟨create_occupied t hinv.len_flags i hp.2.1, trivial⟩

theorem find_absent (c : Config K) (hc : Lawful c) (t : Table K V) (hinv : Inv c t)
    (key : K) (habs : ∀ i p, Holds t i p → c.m_key_equal p.1 key = false) :
    find c t key = Table.end t ∧ find c t key = .ok ⟨t.m_bucket_count⟩ ∧
      count c t key = .ok 0 := by
  unfold find count
  rw [find_key_absent c hc t hinv key habs]
  simp only [if_true, ne_eq, not_true_eq_false, if_false, end_eq]
  exact ⟨trivial, trivial, trivial⟩

end FastSTL

namespace FastSTL

variable {K V : Type}

/-! ## Content of the table after each operation -/

/-- Insertion of a pair whose key is absent, into a table with an empty slot:
the pairs held afterwards are the new pair and the pairs held before. -/
theorem insert_new_content (c : Config K) (hc : Lawful c) (t : Table K V) (hinv : Inv c t)
    (p : K × V) (habs : ∀ i q, Holds t i q → c.m_key_equal q.1 p.1 = false)
    (hroom : t.m_occupied < t.m_bucket_count) :
    ∃ t2 slot, insert_new c t p = .ok (t2, slot) ∧ Inv c t2 ∧ Holds t2 slot p ∧
      t2.m_bucket_count = t.m_bucket_count ∧ t2.m_size = t.m_size + 1 ∧
      t2.m_occupied = t.m_occupied + (if slot_state t.m_flags slot = State.Empty then 1 else 0) ∧
      t2.m_max_load_factor = t.m_max_load_factor ∧
      (∀ j q, Holds t2 j q ↔ (j = slot ∧ q = p) ∨ (j ≠ slot ∧ Holds t j q)) ∧
      (∀ q, (∃ j, Holds t2 j q) ↔ q = p ∨ ∃ j, Holds t j q) := by
  obtain ⟨t2, slot, hins, _, _, hslot_lt, hfree, _, hbc2, hlf2, hsz2, hocc2, hb2, hst2, hoth2,
    hinv2⟩ := insert_new_spec c hc t hinv p habs hroom
  have hholds := holds_set t t2 slot p hbc2 hb2 hinv.len_buckets hslot_lt hst2 hoth2
  refine ⟨t2, slot, hins, hinv2, (hholds slot p).mpr (Or.inl ⟨rfl, rfl⟩), hbc2, hsz2, hocc2, hlf2,
    hholds, ?_⟩
  intro q
  constructor
  · rintro ⟨j, hq⟩
    rcases (hholds j q).mp hq with ⟨_, h⟩ | ⟨_, h⟩
    · exact Or.inl h
    · exact Or.inr ⟨j, h⟩
  · rintro (h | ⟨j, h⟩)
    · exact ⟨slot, (hholds slot q).mpr (Or.inl ⟨rfl, h⟩)⟩
    · have hjs : j ≠ slot := by
        intro e
        subst e
        have := h.2.1
        rcases hfree with hf | hf <;> rw [hf] at this <;> exact absurd this (by decide)
      exact ⟨j, (hholds j q).mpr (Or.inr ⟨hjs, h⟩)⟩

/-- Outcome of `emplace` with a key that some slot holds: nothing is inserted,
and the returned iterator references the slot of the key. -/
theorem emplace_present (c : Config K) (hc : Lawful c) (t : Table K V) (hinv : Inv c t)
    (key : K) (value : V) (i : Nat) (p : K × V) (hp : Holds t i p)
    (heq : c.m_key_equal p.1 key = true) :
    (emplace c t key value = .fault .bad_alloc ∧
      c.max_size < (if t.m_bucket_count = 0 then 4 else 2 * t.m_bucket_count)) ∨
    ∃ t2 i2, grow_if_needed c t = .ok t2 ∧ emplace c t key value = .ok (t2, ⟨i2⟩, false) ∧
      Inv c t2 ∧ SameContent t t2 ∧ Holds t2 i2 p ∧ t2.m_size = t.m_size ∧
      t2.m_max_load_factor = t.m_max_load_factor := by
  unfold emplace
  rcases grow_if_needed_spec c hc t hinv with ⟨h1, h2⟩ | ⟨t1, hg, hinv1, hsame, hsz, hlf, hroom, _⟩
  · left
    exact ⟨by rw [h1], h2⟩
  · right
    obtain ⟨i2, hp2⟩ := (hsame p).mpr ⟨i, hp⟩
    rw [hg]
    simp only
    rw [find_key_present c hc t1 hinv1 key i2 p hp2 heq]
    simp only
    rw [if_pos (Nat.ne_of_lt hp2.1), create_occupied t1 hinv1.len_flags i2 hp2.2.1]
    exact ⟨t1, i2, rfl, rfl, hinv1, hsame, hp2, hsz, hlf⟩

/-- Outcome of `emplace` with a key that no slot holds: the pair is inserted,
and the returned iterator references its slot. -/
theorem emplace_absent (c : Config K) (hc : Lawful c) (t : Table K V) (hinv : Inv c t)
    (key : K) (value : V) (habs : ∀ i p, Holds t i p → c.m_key_equal p.1 key = false) :
    (emplace c t key value = .fault .bad_alloc ∧
      c.max_size < (if t.m_bucket_count = 0 then 4 else 2 * t.m_bucket_count)) ∨
    ∃ t1 t2 i2, grow_if_needed c t = .ok t1 ∧ insert_new c t1 (key, value) = .ok (t2, i2) ∧
      emplace c t key value = .ok (t2, ⟨i2⟩, true) ∧
      Inv c t2 ∧ Holds t2 i2 (key, value) ∧ t2.m_size = t.m_size + 1 ∧
      t2.m_max_load_factor = t.m_max_load_factor ∧
      (∀ q, (∃ j, Holds t2 j q) ↔ q = (key, value) ∨ ∃ j, Holds t j q) := by
  unfold emplace
  rcases grow_if_needed_spec c hc t hinv with ⟨h1, h2⟩ | ⟨t1, hg, hinv1, hsame, hsz, hlf, hroom, _⟩
  · left
    exact ⟨by rw [h1], h2⟩
  · right
    have habs1 : ∀ i q, Holds t1 i q → c.m_key_equal q.1 (key, value).1 = false := by
      intro i q hq
      obtain ⟨j, hj⟩ := (hsame q).mp ⟨i, hq⟩
      exact habs j q hj
    obtain ⟨t2, slot, hins, hinv2, hh, _, hsz2, _, hlf2, _, hcont⟩ :=
      insert_new_content c hc t1 hinv1 (key, value) habs1 hroom
    rw [hg]
    simp only
    rw [find_key_absent c hc t1 hinv1 key habs1]
    simp only [ne_eq, not_true_eq_false, if_false, hins]
    rw [create_occupied t2 hinv2.len_flags slot hh.2.1]
    refine ⟨t1, t2, slot, rfl, hins, rfl, hinv2, hh, by rw [hsz2, hsz], by rw [hlf2, hlf], ?_⟩
    intro q
    rw [hcont q, hsame q]

theorem operator_subscript_present [Inhabited V] (c : Config K) (hc : Lawful c) (t : Table K V)
    (hinv : Inv c t) (key : K) (i : Nat) (p : K × V) (hp : Holds t i p)
    (heq : c.m_key_equal p.1 key = true) :
    (operator_subscript c t key = .fault .bad_alloc ∧
      c.max_size < (if t.m_bucket_count = 0 then 4 else 2 * t.m_bucket_count)) ∨
    ∃ t2 i2, grow_if_needed c t = .ok t2 ∧ operator_subscript c t key = .ok (t2, i2) ∧
      Inv c t2 ∧ SameContent t t2 ∧ Holds t2 i2 p ∧ t2.m_size = t.m_size ∧
      t2.m_max_load_factor = t.m_max_load_factor := by
  unfold operator_subscript
  rcases grow_if_needed_spec c hc t hinv with ⟨h1, h2⟩ | ⟨t1, hg, hinv1, hsame, hsz, hlf, hroom, _⟩
  · left
    exact ⟨by rw [h1], h2⟩
  · right
    obtain ⟨i2, hp2⟩ := (hsame p).mpr ⟨i, hp⟩
    rw [hg]
    simp only
    rw [find_key_present c hc t1 hinv1 key i2 p hp2 heq]
    simp only
    rw [if_pos (Nat.ne_of_lt hp2.1)]
    simp only [hp2.2.2]
    exact ⟨t1, i2, rfl, rfl, hinv1, hsame, hp2, hsz, hlf⟩

theorem operator_subscript_absent [Inhabited V] (c : Config K) (hc : Lawful c) (t : Table K V)
    (hinv : Inv c t) (key : K) (habs : ∀ i p, Holds t i p → c.m_key_equal p.1 key = false) :
    (operator_subscript c t key = .fault .bad_alloc ∧
      c.max_size < (if t.m_bucket_count = 0 then 4 else 2 * t.m_bucket_count)) ∨
    ∃ t1 t2 i2, grow_if_needed c t = .ok t1 ∧ insert_new c t1 (key, default) = .ok (t2, i2) ∧
      operator_subscript c t key = .ok (t2, i2) ∧
      Inv c t2 ∧ Holds t2 i2 (key, default) ∧ t2.m_size = t.m_size + 1 ∧
      t2.m_max_load_factor = t.m_max_load_factor ∧
      (∀ q, (∃ j, Holds t2 j q) ↔ q = (key, default) ∨ ∃ j, Holds t j q) := by
  unfold operator_subscript
  rcases grow_if_needed_spec c hc t hinv with ⟨h1, h2⟩ | ⟨t1, hg, hinv1, hsame, hsz, hlf, hroom, _⟩
  · left
    exact ⟨by rw [h1], h2⟩
  · right
    have habs1 : ∀ i q, Holds t1 i q → c.m_key_equal q.1 (key, (default : V)).1 = false := by
      intro i q hq
      obtain ⟨j, hj⟩ := (hsame q).mp ⟨i, hq⟩
      exact habs j q hj
    obtain ⟨t2, slot, hins, hinv2, hh, _, hsz2, _, hlf2, _, hcont⟩ :=
      insert_new_content c hc t1 hinv1 (key, default) habs1 hroom
    rw [hg]
    simp only
    rw [find_key_absent c hc t1 hinv1 key habs1]
    simp only [ne_eq, not_true_eq_false, if_false]
    refine ⟨t1, t2, slot, rfl, hins, hins, hinv2, hh, by rw [hsz2, hsz], by rw [hlf2, hlf], ?_⟩
    intro q
    rw [hcont q, hsame q]

/-- Content after `erase(key)` removed the pair `p` from slot `index`. -/
theorem erase_content (c : Config K) (hc : Lawful c) (t t1 : Table K V) (hinv : Inv c t)
    (key : K) (index : Nat) (p : K × V) (hp : Holds t index p)
    (heq : c.m_key_equal p.1 key = true)
    (hbc : t1.m_bucket_count = t.m_bucket_count)
    (hb : t1.m_buckets = t.m_buckets.set index none)
    (hs : slot_state t1.m_flags index = State.Deleted)
    (ho : ∀ j, j ≠ index → slot_state t1.m_flags j = slot_state t.m_flags j) (q : K × V) :
    (∃ j, Holds t1 j q) ↔ (∃ j, Holds t j q) ∧ c.m_key_equal q.1 key = false := by
  have hholds := holds_unset t t1 index hbc hb hs ho
  constructor
  · rintro ⟨j, hq⟩
    obtain ⟨hj, hold⟩ := (hholds j q).mp hq
    refine ⟨⟨j, hold⟩, ?_⟩
    by_contra hne
    have hqe : c.m_key_equal q.1 key = true := by simpa using hne
    exact hj (hinv.unique j index q p hold hp (hc.trans _ _ _ hqe (hc.symm _ _ heq)))
  · rintro ⟨⟨j, hq⟩, hne⟩
    refine ⟨j, (hholds j q).mpr ⟨?_, hq⟩⟩
    intro e
    subst e
    rw [holds_unique_pair t _ q p hq hp, heq] at hne
    exact Bool.noConfusion hne

end FastSTL

namespace FastSTL

variable {K V : Type}

/-! ## Refinement of the specified mapping -/

theorem any_key_iff (c : Config K) (m : List (K × V)) (t : Table K V)
    (hcont : ∀ q, (∃ j, Holds t j q) ↔ q ∈ m) (key : K) :
    m.any (fun p => c.m_key_equal p.1 key) = true ↔
      ∃ i p, Holds t i p ∧ c.m_key_equal p.1 key = true := by
  rw [List.any_eq_true]
  constructor
  · rintro ⟨p, hp, he⟩
    obtain ⟨j, hj⟩ := (hcont p).mpr hp
    exact ⟨j, p, hj, he⟩
  · rintro ⟨i, p, hp, he⟩
    exact ⟨p, (hcont p).mp ⟨i, hp⟩, he⟩

theorem absent_of_not_any (c : Config K) (m : List (K × V)) (t : Table K V)
    (hcont : ∀ q, (∃ j, Holds t j q) ↔ q ∈ m) (key : K)
    (h : ¬ m.any (fun p => c.m_key_equal p.1 key) = true) :
    ∀ i p, Holds t i p → c.m_key_equal p.1 key = false := by
  intro i p hp
  by_contra hne
  exact h ((any_key_iff c m t hcont key).mpr ⟨i, p, hp, by simpa using hne⟩)

/-- One call keeps the table in step with the specified mapping, unless the
allocator refuses a growth. -/
theorem apply_refines [Inhabited V] (c : Config K) (hc : Lawful c) (m : List (K × V))
    (t : Table K V) (hr : Refines c m t) (call : Call K V) (hv : call.valid) :
    call.apply c t = .fault .bad_alloc ∨
      ∃ t1, call.apply c t = .ok t1 ∧ Refines c (spec_apply c m call) t1 := by
  cases call with
  | emplace key value =>
    simp only [Call.apply, spec_apply]
    by_cases hany : m.any (fun p => c.m_key_equal p.1 key) = true
    · obtain ⟨i, p, hp, he⟩ := (any_key_iff c m t hr.content key).mp hany
      rw [if_pos hany]
      rcases emplace_present c hc t hr.inv key value i p hp he with
        ⟨h, _⟩ | ⟨t2, i2, _, h, hinv2, hsame, _, _, hlf⟩
      · left; rw [h]
      · right
        rw [h]
        exact ⟨t2, rfl, hinv2, by rw [hlf]; exact hr.lf, fun q => by rw [hsame q, hr.content q]⟩
    · rw [if_neg hany]
      rcases emplace_absent c hc t hr.inv key value (absent_of_not_any c m t hr.content key hany)
        with ⟨h, _⟩ | ⟨t1, t2, i2, _, _, h, hinv2, _, _, hlf, hcont⟩
      · left; rw [h]
      · right
        rw [h]
        refine ⟨t2, rfl, hinv2, by rw [hlf]; exact hr.lf, fun q => ?_⟩
        rw [hcont q, hr.content q, List.mem_cons]
  | subscript key =>
    simp only [Call.apply, spec_apply]
    by_cases hany : m.any (fun p => c.m_key_equal p.1 key) = true
    · obtain ⟨i, p, hp, he⟩ := (any_key_iff c m t hr.content key).mp hany
      rw [if_pos hany]
      rcases operator_subscript_present c hc t hr.inv key i p hp he with
        ⟨h, _⟩ | ⟨t2, i2, _, h, hinv2, hsame, _, _, hlf⟩
      · left; rw [h]
      · right
        rw [h]
        exact ⟨t2, rfl, hinv2, by rw [hlf]; exact hr.lf, fun q => by rw [hsame q, hr.content q]⟩
    · rw [if_neg hany]
      rcases operator_subscript_absent c hc t hr.inv key
        (absent_of_not_any c m t hr.content key hany)
        with ⟨h, _⟩ | ⟨t1, t2, i2, _, _, h, hinv2, _, _, hlf, hcont⟩
      · left; rw [h]
      · right
        rw [h]
        refine ⟨t2, rfl, hinv2, by rw [hlf]; exact hr.lf, fun q => ?_⟩
        rw [hcont q, hr.content q, List.mem_cons]
  | erase key =>
    simp only [Call.apply, spec_apply]
    right
    rcases erase_spec c hc t hr.inv key with
      ⟨habs, h⟩ | ⟨index, p, t1, hp, he, _, h, _, hinv1, hbc, hlf, _, _, hb, hs, ho⟩
    · rw [h]
      refine ⟨t, rfl, hr.inv, hr.lf, fun q => ?_⟩
      rw [hr.content q, List.mem_filter]
      constructor
      · intro hq
        obtain ⟨j, hj⟩ := (hr.content q).mpr hq
        exact ⟨hq, by rw [habs j q hj]; rfl⟩
      · exact fun h => h.1
    · rw [h]
      refine ⟨t1, rfl, hinv1, by rw [hlf]; exact hr.lf, fun q => ?_⟩
      rw [erase_content c hc t t1 hr.inv key index p hp he hbc hb hs ho q, hr.content q,
        List.mem_filter]
      constructor
      · rintro ⟨h1, h2⟩
        exact ⟨h1, by rw [h2]; rfl⟩
      · rintro ⟨h1, h2⟩
        exact ⟨h1, by simpa using h2⟩
  | clear =>
    simp only [Call.apply, spec_apply]
    right
    obtain ⟨t1, h, hinv1, _, _, _, hlf, hst⟩ := clear_spec c t hr.inv
    refine ⟨t1, h, hinv1, by rw [hlf]; exact hr.lf, fun q => ?_⟩
    constructor
    · rintro ⟨j, hq⟩
      have := hq.2.1
      rw [hst j hq.1] at this
      exact absurd this (by decide)
    · intro h
      exact absurd h (List.not_mem_nil q)
  | reserve count =>
    simp only [Call.apply, spec_apply]
    have hv' : 2 * to_float count < 2 ^ 64 := hv
    rcases reserve_spec c hc t hr.inv hr.lf count with
      ⟨h, _⟩ | ⟨_, h, _⟩ | ⟨_, _, _, h⟩ | ⟨_, _, _, t1, h, hre, _⟩
    · right
      exact ⟨t, h, hr⟩
    · omega
    · left; exact h
    · right
      exact ⟨t1, h, hre.inv, by rw [hre.lf]; exact hr.lf,
        fun q => by rw [hre.content q, hr.content q]⟩
  | rehash count =>
    simp only [Call.apply, spec_apply]
    rcases rehash_spec c hc t hr.inv count hv with ⟨h, _⟩ | ⟨_, _, h⟩ | ⟨_, _, _, t1, h, hre, _⟩
    · right
      exact ⟨t, h, hr⟩
    · left; exact h
    · right
      exact ⟨t1, h, hre.inv, by rw [hre.lf]; exact hr.lf,
        fun q => by rw [hre.content q, hr.content q]⟩

/-- A sequence of calls keeps the table in step with the specified mapping,
unless the allocator refuses a growth. -/
theorem run_refines [Inhabited V] (c : Config K) (hc : Lawful c) (calls : List (Call K V)) :
    ∀ (m : List (K × V)) (t : Table K V), Refines c m t → (∀ call ∈ calls, call.valid) →
      run c calls t = .fault .bad_alloc ∨
        ∃ t1, run c calls t = .ok t1 ∧ Refines c (spec_run c calls m) t1 := by
  induction calls with
  | nil =>
    intro m t hr _
    exact Or.inr ⟨t, rfl, hr⟩
  | cons call rest ih =>
    intro m t hr hv
    simp only [run, spec_run]
    rcases apply_refines c hc m t hr call (hv call (List.mem_cons_self _ _)) with
      h | ⟨t1, h, hr1⟩
    · left; rw [h]
    · rw [h]
      exact ih _ t1 hr1 (fun call' hc' => hv call' (List.mem_cons_of_mem _ hc'))

theorem init_refines (c : Config K) : Refines c ([] : List (K × V)) (Table.init : Table K V) := by
  refine ⟨init_inv c, rfl, fun q => ?_⟩
  constructor
  · rintro ⟨j, hq⟩
    have : j < 0 := hq.1
    omega
  · intro h
    exact absurd h (List.not_mem_nil q)

/-- What lookups return on a table in step with the specified mapping. -/
theorem refines_lookup (c : Config K) (hc : Lawful c) (m : List (K × V)) (t : Table K V)
    (hr : Refines c m t) (key : K) : RoundTrip c m t key := by
  unfold RoundTrip spec_lookup
  cases hfind : m.find? (fun p => c.m_key_equal p.1 key) with
  | some p =>
    simp only
    have hmem : p ∈ m := List.mem_of_find?_eq_some hfind
    have heq : c.m_key_equal p.1 key = true := by
      have := List.find?_some hfind
      simpa using this
    obtain ⟨i, hp⟩ := (hr.content p).mpr hmem
    obtain ⟨h1, h2⟩ := find_present c hc t hr.inv key i p hp heq
    exact ⟨i, h1, hp.1, get_state_holds t i p hp hr.inv.len_flags, hp.2.2, h2⟩
  | none =>
    simp only
    have habs : ∀ i p, Holds t i p → c.m_key_equal p.1 key = false := by
      intro i p hp
      have hmem := (hr.content p).mp ⟨i, hp⟩
      have := List.find?_eq_none.mp hfind p hmem
      simpa using this
    obtain ⟨h1, _, h3⟩ := find_absent c hc t hr.inv key habs
    exact ⟨h1, h3⟩

end FastSTL

namespace FastSTL

variable {K V : Type}

/-! ## Call sequences -/

theorem run_append [Inhabited V] (c : Config K) (l1 l2 : List (Call K V)) (t : Table K V) :
    run c (l1 ++ l2) t =
      match run c l1 t with
      | .ok t1 => run c l2 t1
      | .fault e => .fault e := by
  induction l1 generalizing t with
  | nil => rfl
  | cons call rest ih =>
    simp only [List.cons_append, run]
    cases call.apply c t with
    | ok t1 => exact ih t1
    | fault e => rfl

theorem reachable_apply [Inhabited V] (c : Config K) (t t1 : Table K V) (call : Call K V)
    (hv : call.valid) (hr : Reachable c t) (h : call.apply c t = .ok t1) : Reachable c t1 := by
  cases call with
  | emplace key value =>
    simp only [Call.apply] at h
    cases hr1 : emplace c t key value with
    | ok r => rw [hr1] at h; cases h; exact Reachable.emplace hr hr1
    | fault e => rw [hr1] at h; exact Outcome.noConfusion h
  | subscript key =>
    simp only [Call.apply] at h
    cases hr1 : operator_subscript c t key with
    | ok r => rw [hr1] at h; cases h; exact Reachable.operator_subscript hr hr1
    | fault e => rw [hr1] at h; exact Outcome.noConfusion h
  | erase key =>
    simp only [Call.apply] at h
    cases hr1 : erase c t key with
    | ok r => rw [hr1] at h; cases h; exact Reachable.erase hr hr1
    | fault e => rw [hr1] at h; exact Outcome.noConfusion h
  | clear => exact Reachable.clear hr h
  | reserve count =>
    have hv' : 2 * to_float count < 2 ^ 64 := hv
    have := le_two_to_float count
    exact Reachable.reserve hr (by omega) h
  | rehash count => exact Reachable.rehash hr hv h

/-- The table a sequence of calls ends in is reachable. -/
theorem reachable_of_run [Inhabited V] (c : Config K) (calls : List (Call K V)) :
    ∀ (t t1 : Table K V), Reachable c t → (∀ call ∈ calls, call.valid) →
      run c calls t = .ok t1 → Reachable c t1 := by
  induction calls with
  | nil =>
    intro t t1 hr _ h
    cases h
    exact hr
  | cons call rest ih =>
    intro t t1 hr hv h
    simp only [run] at h
    cases h1 : call.apply c t with
    | ok t2 =>
      rw [h1] at h
      exact ih t2 t1 (reachable_apply c t t2 call (hv call (List.mem_cons_self _ _)) hr h1)
        (fun call' hc' => hv call' (List.mem_cons_of_mem _ hc')) h
    | fault e => rw [h1] at h; exact Outcome.noConfusion h

/-! ## Traversal -/

theorem filter_range'_skip (P : Nat → Bool) :
    ∀ gap a n, gap ≤ n → (∀ j, a ≤ j → j < a + gap → P j = false) →
      (List.range' a n).filter P = (List.range' (a + gap) (n - gap)).filter P := by
  intro gap
  induction gap with
  | zero => intro a n _ _; rfl
  | succ gap ih =>
    intro a n hn hP
    obtain ⟨n', rfl⟩ : ∃ n', n = n' + 1 := ⟨n - 1, by omega⟩
    rw [List.range'_succ, List.filter_cons_of_neg (by simp [hP a (le_refl _) (by omega)])]
    rw [ih (a + 1) n' (by omega) (fun j h1 h2 => hP j (by omega) (by omega))]
    congr 2 <;> omega

theorem length_filter_range (P : Nat → Bool) (n : Nat) :
    ((List.range n).filter P).length = cnt P n := by
  induction n with
  | zero => rfl
  | succ n ih =>
    rw [List.range_succ, List.filter_append, List.length_append, ih]
    simp only [cnt]
    by_cases h : P n = true
    · simp [h]
    · simp [h]

theorem traverse_spec (t : Table K V) (hlen : t.m_flags.length = (t.m_bucket_count + 15) / 16)
    (h63 : t.m_bucket_count < 2 ^ 63) :
    ∀ fuel r, r ≤ t.m_bucket_count →
      (r < t.m_bucket_count → slot_state t.m_flags r = State.Occupied) →
      t.m_bucket_count - r < fuel →
      traverse t fuel ⟨r⟩ = .ok ((List.range' r (t.m_bucket_count - r)).filter
        (fun i => decide (slot_state t.m_flags i = State.Occupied))) := by
  intro fuel
  induction fuel with
  | zero => intro r _ _ h; omega
  | succ fuel ih =>
    intro r hr hocc hfuel
    unfold traverse
    rw [end_eq]
    simp only
    by_cases hrb : r = t.m_bucket_count
    · subst hrb
      simp
    · have hne : ¬ (⟨r⟩ : map_iterator) = ⟨t.m_bucket_count⟩ := by
        intro h
        exact hrb (by injection h)
      rw [if_neg hne]
      have hrlt : r < t.m_bucket_count := by omega
      obtain ⟨r1, hinc, h1, h2, _, h4, h5⟩ := increment_spec t hlen ⟨r⟩
        (by show r + 1 < 2 ^ 64; omega)
      have h1' : r + 1 ≤ r1 := h1
      have h2' : r1 ≤ t.m_bucket_count := h2 (by show r + 1 ≤ t.m_bucket_count; omega)
      rw [hinc]
      simp only
      rw [ih r1 h2' h5 (by omega)]
      obtain ⟨n', hn'⟩ : ∃ n', t.m_bucket_count - r = n' + 1 := ⟨t.m_bucket_count - r - 1, by omega⟩
      rw [hn', List.range'_succ,
        List.filter_cons_of_pos (by simpa using hocc hrlt)]
      have hskip := filter_range'_skip (fun i => decide (slot_state t.m_flags i = State.Occupied))
        (r1 - (r + 1)) (r + 1) n' (by omega)
        (fun j hj1 hj2 => by
          have := h4 j (by show r + 1 ≤ j; omega) (by omega)
          simpa using this)
      have e1 : r + 1 + (r1 - (r + 1)) = r1 := by omega
      have e2 : n' - (r1 - (r + 1)) = t.m_bucket_count - r1 := by omega
      rw [hskip, e1, e2]

/-- The traversal from `begin()` visits the occupied slots in ascending order,
and makes as many steps as the table has live entries. -/
theorem traverse_all_spec (c : Config K) (t : Table K V) (hinv : Inv c t) :
    traverse_all t = .ok ((List.range t.m_bucket_count).filter
        (fun i => decide (slot_state t.m_flags i = State.Occupied))) ∧
      ((List.range t.m_bucket_count).filter
        (fun i => decide (slot_state t.m_flags i = State.Occupied))).length = t.m_size := by
  refine ⟨?_, by rw [length_filter_range, ← hinv.size_eq]⟩
  have h63 : t.m_bucket_count < 2 ^ 63 := by
    rcases hinv.pow2 with h | ⟨k, _, hk63, hk⟩
    · rw [h]; norm_num
    · rw [hk]; exact Nat.pow_lt_pow_right (by norm_num) hk63
  unfold traverse_all Table.begin
  obtain ⟨r, hcr, _, h2, _, h4, h5⟩ := create_spec t hinv.len_flags 0
  rw [hcr]
  simp only
  have hrle : r ≤ t.m_bucket_count := h2 (Nat.zero_le _)
  rw [traverse_spec t hinv.len_flags h63 (t.m_bucket_count + 1) r hrle h5 (by omega)]
  congr 1
  rw [List.range_eq_range']
  have hskip := filter_range'_skip (fun i => decide (slot_state t.m_flags i = State.Occupied))
    r 0 t.m_bucket_count hrle
    (fun j hj1 hj2 => by
      have := h4 j hj1 (by omega)
      simpa using this)
  rw [hskip, Nat.zero_add]

end FastSTL

namespace FastSTL

variable {K V : Type}

/-! ## The growth test at 2 ^ 24 occupied slots -/

theorem to_float_two_pow_24_succ : to_float (2 ^ 24 + 1) = 2 ^ 24 := by decide

/-- With `2 ^ 25` buckets the growth test of `emplace` lets the occupied count
reach `2 ^ 24 + 1`: the float nearest to `2 ^ 24 + 1` is `2 ^ 24`. -/
theorem not_exceeds_fill (n : Nat) (hn : n ≤ 2 ^ 24) :
    exceeds (n + 1) (2 ^ 25) ⟨1, 2⟩ = false := by
  unfold exceeds
  rw [to_float_pow2 25 (by norm_num)]
  simp only [decide_eq_false_iff_not, not_lt, Nat.mul_one]
  by_cases h1 : n + 1 < 2 ^ 24
  · rw [to_float_small _ h1]; omega
  · by_cases h2 : n + 1 = 2 ^ 24
    · rw [h2, to_float_pow2 24 (by norm_num)]; norm_num
    · have h3 : n = 2 ^ 24 := by omega
      rw [h3, to_float_two_pow_24_succ]; norm_num

theorem fill_calls_succ (n : Nat) : fill_calls (n + 1) = fill_calls n ++ [Call.emplace n 0] := by
  unfold fill_calls
  rw [List.range_succ, List.map_append]
  rfl

/-- The table after `rehash(2 ^ 25)` and the insertion of the keys below `n`,
for `n` up to `2 ^ 24 + 1`: no growth happens, and every key takes a fresh
slot. -/
theorem fill_run (n : Nat) (hn : n ≤ 2 ^ 24 + 1) :
    ∃ t, run nat_config (fill_calls n) Table.init = .ok t ∧ Inv nat_config t ∧
      t.m_max_load_factor = ⟨1, 2⟩ ∧ t.m_bucket_count = 2 ^ 25 ∧ t.m_occupied = n ∧
      t.m_size = n ∧ ∀ j q, Holds t j q → q.1 < n := by
  induction n with
  | zero =>
    have hinit : Inv nat_config (Table.init : Table Nat Nat) := init_inv nat_config
    have hround : roundup32 (2 ^ 25) = 2 ^ 25 := roundup32_pow2 25 (by norm_num) (by norm_num)
    have hmax : nat_config.max_size = 2 ^ 40 := rfl
    have hbc0 : (Table.init : Table Nat Nat).m_bucket_count = 0 := rfl
    rcases rehash_spec nat_config nat_config_lawful Table.init hinit (2 ^ 25) (by norm_num) with
      ⟨_, h⟩ | ⟨_, h, _⟩ | ⟨_, _, _, t1, h1, hre, hbc⟩
    · rw [hround, hbc0] at h
      norm_num at h
    · rw [hround, hmax] at h
      norm_num at h
    · refine ⟨t1, ?_, hre.inv, by rw [hre.lf]; rfl, by rw [hbc, hround], ?_, ?_, ?_⟩
      · have happ : Call.apply nat_config (Table.init : Table Nat Nat) (Call.rehash (2 ^ 25))
            = .ok t1 := h1
        simp only [fill_calls, List.range_zero, List.map_nil, run, happ]
      · rw [hre.no_tomb, hre.size]; rfl
      · rw [hre.size]; rfl
      · intro j q hq
        obtain ⟨j', hq'⟩ := (hre.content q).mp ⟨j, hq⟩
        have : j' < 0 := hq'.1
        omega
  | succ n ih =>
    obtain ⟨t, hrun, hinv, hlf, hbc, hocc, hsz, hkeys⟩ := ih (by omega)
    have habs : ∀ i p, Holds t i p → nat_config.m_key_equal p.1 n = false := by
      intro i p hp
      have := hkeys i p hp
      simp only [nat_config, beq_eq_false_iff_ne, ne_eq]
      omega
    have hex : exceeds (t.m_occupied + 1) t.m_bucket_count t.m_max_load_factor = false := by
      rw [hocc, hbc, hlf]
      exact not_exceeds_fill n (by omega)
    have hmax : nat_config.max_size = 2 ^ 40 := rfl
    rcases emplace_absent nat_config nat_config_lawful t hinv n 0 habs with
      ⟨_, h⟩ | ⟨t1, t2, i2, hg, hins, hemp, hinv2, _, hsz2, hlf2, hcont⟩
    · rw [hbc, hmax] at h
      norm_num at h
    · have ht1 : t1 = t := by
        rcases grow_if_needed_spec nat_config nat_config_lawful t hinv with
          ⟨hg', _⟩ | ⟨t1', hg', _, _, _, _, _, h⟩
        · rw [hg'] at hg; exact Outcome.noConfusion hg
        · rw [hg'] at hg
          cases hg
          rcases h with ⟨h, _⟩ | ⟨h, _⟩
          · exact h
          · rcases h with h | h
            · rw [hbc] at h; norm_num at h
            · rw [hex] at h; exact Bool.noConfusion h
      subst ht1
      have hroom : t1.m_occupied < t1.m_bucket_count := by rw [hocc, hbc]; omega
      have habs1 : ∀ i q, Holds t1 i q → nat_config.m_key_equal q.1 (n, 0).1 = false := habs
      obtain ⟨t2', slot, hins', _, _, hslot_lt, hfree, _, _, _, _, hocc2, _⟩ :=
        insert_new_spec nat_config nat_config_lawful t1 hinv (n, 0) habs1 hroom
      rw [hins] at hins'
      cases hins'
      have hempty : slot_state t1.m_flags i2 = State.Empty := by
        rcases hfree with h | h
        · exact absurd h (hinv.no_deleted (by rw [hocc, hsz]) i2 hslot_lt)
        · exact h
      rw [if_pos hempty] at hocc2
      refine ⟨t2, ?_, hinv2, by rw [hlf2, hlf], ?_, by rw [hocc2, hocc], by rw [hsz2, hsz], ?_⟩
      · rw [fill_calls_succ, run_append, hrun]
        simp only [run, Call.apply, hemp]
      · have := (insert_new_content nat_config nat_config_lawful t1 hinv (n, 0) habs1 hroom)
        obtain ⟨t3, slot3, hins3, _, _, hbc2, _⟩ := this
        rw [hins] at hins3
        cases hins3
        rw [hbc2, hbc]
      · intro j q hq
        rcases (hcont q).mp ⟨j, hq⟩ with h | ⟨j', h⟩
        · rw [h]; show n < n + 1; omega
        · have := hkeys j' q h
          omega

/-! ## Rehashes that grow the table -/

theorem slot_state_of_get_state (t : Table K V) (i s : Nat)
    (hlen : t.m_flags.length = (t.m_bucket_count + 15) / 16) (hi : i < t.m_bucket_count)
    (h : get_state t.m_flags i = .ok s) : slot_state t.m_flags i = s := by
  rw [get_state_eq _ _ (by rw [hlen]; omega)] at h
  injection h

theorem holds_of_get_state (t : Table K V) (i : Nat) (p : K × V)
    (hlen : t.m_flags.length = (t.m_bucket_count + 15) / 16) (hi : i < t.m_bucket_count)
    (hs : get_state t.m_flags i = .ok State.Occupied) (hb : t.m_buckets[i]? = some (some p)) :
    Holds t i p :=
  ⟨hi, slot_state_of_get_state t i _ hlen hi hs, hb⟩

/-- After an insertion whose growth step made the table larger, the table has
no tombstone. -/
theorem grown_insert_no_tomb (c : Config K) (hc : Lawful c) (t t1 t2 : Table K V) (hinv : Inv c t)
    (p : K × V) (slot : Nat) (hg : grow_if_needed c t = .ok t1)
    (hgrown : t.m_bucket_count < t2.m_bucket_count)
    (habs : ∀ i q, Holds t i q → c.m_key_equal q.1 p.1 = false)
    (hins : insert_new c t1 p = .ok (t2, slot)) :
    t2.m_occupied = t2.m_size := by
  rcases grow_if_needed_spec c hc t hinv with ⟨hg', _⟩ | ⟨t1', hg', hinv1, hsame, _, _, hroom, h⟩
  · rw [hg'] at hg; exact Outcome.noConfusion hg
  · rw [hg'] at hg
    cases hg
    have habs1 : ∀ i q, Holds t1 i q → c.m_key_equal q.1 p.1 = false := by
      intro i q hq
      obtain ⟨j, hj⟩ := (hsame q).mp ⟨i, hq⟩
      exact habs j q hj
    obtain ⟨t2', slot', hins', _, _, hslot_lt, hfree, _, hbc2, _, hsz2, hocc2, _⟩ :=
      insert_new_spec c hc t1 hinv1 p habs1 hroom
    rw [hins] at hins'
    cases hins'
    have hnt : t1.m_occupied = t1.m_size := by
      rcases h with ⟨h, _⟩ | ⟨_, _, h⟩
      · rw [hbc2, h] at hgrown; omega
      · exact h
    have hempty : slot_state t1.m_flags slot = State.Empty := by
      rcases hfree with h | h
      · exact absurd h (hinv1.no_deleted hnt slot hslot_lt)
      · exact h
    rw [if_pos hempty] at hocc2
    rw [hocc2, hsz2, hnt]

/-- After a lookup-only call of `emplace` or `operator[]` whose growth step
made the table larger, the table has no tombstone. -/
theorem grown_no_tomb (c : Config K) (hc : Lawful c) (t t1 : Table K V) (hinv : Inv c t)
    (hg : grow_if_needed c t = .ok t1) (hgrown : t.m_bucket_count < t1.m_bucket_count) :
    t1.m_occupied = t1.m_size := by
  rcases grow_if_needed_spec c hc t hinv with ⟨hg', _⟩ | ⟨t1', hg', _, _, _, _, _, h⟩
  · rw [hg'] at hg; exact Outcome.noConfusion hg
  · rw [hg'] at hg
    cases hg
    rcases h with ⟨h, _⟩ | ⟨_, _, h⟩
    · rw [h] at hgrown; omega
    · exact h

theorem get_state_ne_deleted (c : Config K) (t : Table K V) (hinv : Inv c t)
    (hnt : t.m_occupied = t.m_size) (i : Nat) (hi : i < t.m_bucket_count) :
    get_state t.m_flags i ≠ .ok State.Deleted := by
  intro h
  exact hinv.no_deleted hnt i hi (slot_state_of_get_state t i _ hinv.len_flags hi h)

end FastSTL

namespace FastSTL

/-! ## The example tables -/

theorem example_pair_reachable : Reachable nat_config example_pair :=
  reachable_of_run nat_config [.emplace 1 10, .emplace 2 20] Table.init example_pair
    Reachable.init (by simp [Call.valid]) (by decide)

theorem example_tombstone_reachable : Reachable nat_config example_tombstone :=
  reachable_of_run nat_config [.emplace 1 10, .erase 1] Table.init example_tombstone
    Reachable.init (by simp [Call.valid]) (by decide)

theorem example_three_reachable : Reachable nat_config example_three :=
  reachable_of_run nat_config [.emplace 0 0, .emplace 1 10, .emplace 2 20] Table.init
    example_three Reachable.init (by simp [Call.valid]) (by decide)

theorem example_single_reachable : Reachable nat_config example_single :=
  reachable_of_run nat_config [.emplace 0 0] Table.init example_single
    Reachable.init (by simp [Call.valid]) (by decide)

theorem example_gap_reachable : Reachable nat_config example_gap :=
  reachable_of_run nat_config [.emplace 1 10, .emplace 2 20, .emplace 3 30, .erase 2] Table.init
    example_gap Reachable.init (by simp [Call.valid]) (by decide)

theorem scenario_calls_valid : ∀ call ∈ scenario_calls, call.valid := by
  simp [scenario_calls, Call.valid]

theorem scenario_runs : run nat_config scenario_calls Table.init = .ok scenario_table := by
  decide

end FastSTL

namespace FastSTL

variable {K V : Type}

/-! ## The load factor bound where the float comparison is exact -/

/-- With at most `2 ^ 24` buckets and the default factor, a count that passes
the growth test is at most half the buckets. -/
theorem no_growth_bound (x k : Nat) (hk : k ≤ 24) (h : exceeds x (2 ^ k) ⟨1, 2⟩ = false) :
    2 * x ≤ 2 ^ k := by
  have h1 := not_exceeds_half x k (by omega) h
  have h2 := le_two_to_float x
  have h3 : 2 ^ k ≤ 2 ^ 24 := Nat.pow_le_pow_right (by norm_num) hk
  by_cases hx : x < 2 ^ 24
  · rw [to_float_small x hx] at h1; exact h1
  · have hx' : x = 2 ^ 24 := by omega
    rw [hx', to_float_pow2 24 (by norm_num)] at h1
    omega

/-- The growth step never shrinks the table, and leaves room for one more
occupied slot under the load factor when the table has at most `2 ^ 24`
buckets. -/
theorem grow_bound (c : Config K) (hc : Lawful c) (t t1 : Table K V) (hinv : Inv c t)
    (hlf : t.m_max_load_factor = ⟨1, 2⟩)
    (ih : t.m_bucket_count ≤ 2 ^ 24 → 2 * t.m_occupied ≤ t.m_bucket_count)
    (hg : grow_if_needed c t = .ok t1) :
    t.m_bucket_count ≤ t1.m_bucket_count ∧
      (t1.m_bucket_count ≤ 2 ^ 24 → 2 * (t1.m_occupied + 1) ≤ t1.m_bucket_count) := by
  rcases grow_if_needed_spec c hc t hinv with ⟨hg', _⟩ | ⟨t1', hg', _, _, hsz, _, _, h⟩
  · rw [hg'] at hg; exact Outcome.noConfusion hg
  · rw [hg'] at hg
    cases hg
    rcases h with ⟨he, hne, hex⟩ | ⟨_, hbc, hnt⟩
    · subst he
      refine ⟨le_refl _, fun hsmall => ?_⟩
      obtain ⟨k, _, _, hk⟩ := hinv.pos_pow2 (by omega)
      rw [hk, hlf] at hex
      rw [hk] at hsmall ⊢
      have hk24 : k ≤ 24 := by
        by_contra hcon
        have : 2 ^ 25 ≤ 2 ^ k := Nat.pow_le_pow_right (by norm_num) (by omega)
        omega
      exact no_growth_bound _ k hk24 hex
    · have hso := hinv.size_le_occupied
      have hob := hinv.occupied_le
      by_cases h0 : t.m_bucket_count = 0
      · rw [if_pos h0] at hbc
        refine ⟨by omega, fun _ => ?_⟩
        rw [hnt, hsz, hbc]
        omega
      · rw [if_neg h0] at hbc
        refine ⟨by omega, fun hsmall => ?_⟩
        have := ih (by omega)
        obtain ⟨k, hk2, _, hk⟩ := hinv.pos_pow2 (by omega)
        have h4 : 4 ≤ t.m_bucket_count := by
          rw [hk]
          calc 4 = 2 ^ 2 := by norm_num
            _ ≤ 2 ^ k := Nat.pow_le_pow_right (by norm_num) hk2
        rw [hnt, hsz, hbc]
        omega

/-- An insertion call (`emplace`, `insert`, `operator[]`) keeps the bound. -/
theorem insert_bound (c : Config K) (hc : Lawful c) (t t1 t2 : Table K V) (hinv : Inv c t)
    (hlf : t.m_max_load_factor = ⟨1, 2⟩)
    (ih : t.m_bucket_count ≤ 2 ^ 24 → 2 * t.m_occupied ≤ t.m_bucket_count)
    (hg : grow_if_needed c t = .ok t1)
    (h2 : t2 = t1 ∨ ∃ p slot, (∀ i q, Holds t i q → c.m_key_equal q.1 p.1 = false) ∧
      insert_new c t1 p = .ok (t2, slot)) :
    t.m_bucket_count ≤ t2.m_bucket_count ∧
      (t2.m_bucket_count ≤ 2 ^ 24 → 2 * t2.m_occupied ≤ t2.m_bucket_count) := by
  obtain ⟨hmono, hb⟩ := grow_bound c hc t t1 hinv hlf ih hg
  rcases h2 with he | ⟨p, slot, habs, hins⟩
  · subst he
    exact ⟨hmono, fun h => by have := hb h; omega⟩
  · rcases grow_if_needed_spec c hc t hinv with ⟨hg', _⟩ | ⟨t1', hg', hinv1, hsame, _, _, hroom, _⟩
    · rw [hg'] at hg; exact Outcome.noConfusion hg
    · rw [hg'] at hg
      cases hg
      have habs1 : ∀ i q, Holds t1 i q → c.m_key_equal q.1 p.1 = false := by
        intro i q hq
        obtain ⟨j, hj⟩ := (hsame q).mp ⟨i, hq⟩
        exact habs j q hj
      obtain ⟨t2', slot', hins', _, _, _, _, _, hbc2, _, _, hocc2, _⟩ :=
        insert_new_spec c hc t1 hinv1 p habs1 hroom
      rw [hins] at hins'
      cases hins'
      refine ⟨by rw [hbc2]; exact hmono, fun h => ?_⟩
      rw [hbc2] at h ⊢
      have := hb h
      rw [hocc2]
      split <;> omega

/-- The load factor bound of the default configuration holds in every reachable
table with at most `2 ^ 24` buckets, where the growth test is exact. -/
theorem load_bound_small [Inhabited V] (c : Config K) (hc : Lawful c) (t : Table K V)
    (hr : Reachable c t) :
    t.m_bucket_count ≤ 2 ^ 24 → 2 * t.m_occupied ≤ t.m_bucket_count := by
  have hemplace : ∀ (t t2 : Table K V) key value it b, Reachable c t →
      (t.m_bucket_count ≤ 2 ^ 24 → 2 * t.m_occupied ≤ t.m_bucket_count) →
      emplace c t key value = .ok (t2, it, b) →
      t2.m_bucket_count ≤ 2 ^ 24 → 2 * t2.m_occupied ≤ t2.m_bucket_count := by
    intro t t2 key value it b hrt ih h
    obtain ⟨hinv, hlf⟩ := reachable_inv c hc t hrt
    rcases emplace_spec c hc t hinv key value with ⟨h1, _⟩ | ⟨t1, t2', index, b', hg, h1, _, _, h2⟩
    · rw [h1] at h; exact Outcome.noConfusion h
    · rw [h1] at h
      cases h
      refine (insert_bound c hc t t1 t2 hinv hlf ih hg ?_).2
      rcases h2 with ⟨_, he, _⟩ | ⟨_, habs, hins⟩
      · exact Or.inl he
      · exact Or.inr ⟨(key, value), index, habs, hins⟩
  induction hr with
  | init => intro _; show 2 * 0 ≤ 0; omega
  | @emplace t key value r hrt hr ih =>
    obtain ⟨t2, it, b⟩ := r
    exact hemplace t t2 key value it b hrt ih hr
  | @insert t value r hrt hr ih =>
    obtain ⟨t2, it, b⟩ := r
    exact hemplace t t2 value.1 value.2 it b hrt ih hr
  | @operator_subscript t key r hrt hr ih =>
    obtain ⟨hinv, hlf⟩ := reachable_inv c hc t hrt
    rcases operator_subscript_spec c hc t hinv key with
      ⟨h1, _⟩ | ⟨t1, t2, index, hg, h1, _, _, h2⟩
    · rw [h1] at hr; exact Outcome.noConfusion hr
    · rw [h1] at hr
      cases hr
      refine (insert_bound c hc t t1 t2 hinv hlf ih hg ?_).2
      rcases h2 with ⟨he, _⟩ | ⟨habs, hins⟩
      · exact Or.inl he
      · exact Or.inr ⟨(key, default), index, habs, hins⟩
  | @erase_pos t pos r hrt hr ih =>
    obtain ⟨hinv, _⟩ := reachable_inv c hc t hrt
    rcases erase_pos_spec c t hinv pos with
      ⟨_, h1⟩ | ⟨_, _, t1, a, it, h1, _, _, _, _, hbc, _, _, hocc, _⟩
    · rw [h1] at hr
      cases hr
      exact ih
    · rw [h1] at hr
      cases hr
      show t1.m_bucket_count ≤ 2 ^ 24 → 2 * t1.m_occupied ≤ t1.m_bucket_count
      rw [hbc, hocc]
      exact ih
  | @erase t key r hrt hr ih =>
    obtain ⟨hinv, _⟩ := reachable_inv c hc t hrt
    rcases erase_spec c hc t hinv key with
      ⟨_, h1⟩ | ⟨_, _, t1, _, _, _, h1, _, _, hbc, _, _, hocc, _⟩
    · rw [h1] at hr
      cases hr
      exact ih
    · rw [h1] at hr
      cases hr
      show t1.m_bucket_count ≤ 2 ^ 24 → 2 * t1.m_occupied ≤ t1.m_bucket_count
      rw [hbc, hocc]
      exact ih
  | @clear t r hrt hr ih =>
    obtain ⟨hinv, _⟩ := reachable_inv c hc t hrt
    obtain ⟨t1, h1, _, _, _, hocc, _⟩ := clear_spec c t hinv
    rw [h1] at hr
    cases hr
    intro _
    rw [hocc]
    omega
  | @reserve t r count hrt _ hr ih =>
    obtain ⟨hinv, hlf⟩ := reachable_inv c hc t hrt
    rcases reserve_spec c hc t hinv hlf count with
      ⟨h1, _⟩ | ⟨_, _, h1⟩ | ⟨_, _, _, h1⟩ | ⟨_, hlt, _, t1, h1, hre, hbc⟩
    · rw [h1] at hr
      cases hr
      exact ih
    · rw [h1] at hr; exact Outcome.noConfusion hr
    · rw [h1] at hr; exact Outcome.noConfusion hr
    · rw [h1] at hr
      cases hr
      intro hsmall
      have := ih (by omega)
      have := hinv.size_le_occupied
      rw [hre.no_tomb, hre.size]
      omega
  | @rehash t r count hrt h64 hr ih =>
    obtain ⟨hinv, _⟩ := reachable_inv c hc t hrt
    rcases rehash_spec c hc t hinv count h64 with
      ⟨h1, _⟩ | ⟨_, _, h1⟩ | ⟨_, hlt, _, t1, h1, hre, hbc⟩
    · rw [h1] at hr
      cases hr
      exact ih
    · rw [h1] at hr; exact Outcome.noConfusion hr
    · rw [h1] at hr
      cases hr
      intro hsmall
      have := ih (by omega)
      have := hinv.size_le_occupied
      rw [hre.no_tomb, hre.size]
      omega

end FastSTL

namespace FastSTL

variable {K V : Type}

/-! ## The contract -/

/-- C1 (round-trip).  Take any finite sequence of `emplace`, `operator[]`,
`erase(key)`, `clear`, `reserve` and `rehash` calls applied to the
default-constructed table, with a hash and an equality that are lawful.  Unless
the allocator refuses a growth, the sequence returns a table on which, for
every key: if the specified mapping associates the pair `p` with the key (the
key was inserted and not erased or cleared since), `find` returns the position
of an occupied slot that holds `p` and `count` returns 1; if it associates
nothing, `find` returns `end()` and `count` returns 0. -/
theorem round_trip [Inhabited V] (c : Config K) (hc : Lawful c) (calls : List (Call K V))
    (hv : ∀ call ∈ calls, call.valid) :
    run c calls Table.init = .fault .bad_alloc ∨
      ∃ t, run c calls Table.init = .ok t ∧
        ∀ key, RoundTrip c (spec_run c calls []) t key := by
  rcases run_refines c hc calls [] Table.init (init_refines c) hv with h | ⟨t, h, hr⟩
  · exact Or.inl h
  · exact Or.inr ⟨t, h, fun key => refines_lookup c hc _ t hr key⟩

/-- Witness of C1: the scenario of the specification (keys 1 to 10 inserted,
keys 1, 3 and 5 erased, key 1 inserted again) returns the table
`scenario_table`, and the round-trip property holds of it. -/
theorem round_trip_witness :
    Lawful nat_config ∧ (∀ call ∈ scenario_calls, call.valid) ∧
      run nat_config scenario_calls Table.init = .ok scenario_table ∧
      (run nat_config scenario_calls Table.init = .fault .bad_alloc ∨
        ∃ t, run nat_config scenario_calls Table.init = .ok t ∧
          ∀ key, RoundTrip nat_config (spec_run nat_config scenario_calls []) t key) :=
  ⟨nat_config_lawful, scenario_calls_valid, scenario_runs,
    round_trip nat_config nat_config_lawful scenario_calls scenario_calls_valid⟩

/-- C2 (uniqueness).  In every table reachable from the default-constructed one
by `emplace`, `insert`, `operator[]`, `erase`, `clear`, `reserve` and `rehash`
calls, two distinct occupied slots never hold keys that the equality predicate
considers equal. -/
theorem unique_keys [Inhabited V] (c : Config K) (hc : Lawful c) (t : Table K V)
    (hr : Reachable c t) (i j : Nat) (p q : K × V) (hij : i ≠ j)
    (hi : i < t.m_bucket_count) (hj : j < t.m_bucket_count)
    (hsi : get_state t.m_flags i = .ok State.Occupied)
    (hsj : get_state t.m_flags j = .ok State.Occupied)
    (hp : t.m_buckets[i]? = some (some p)) (hq : t.m_buckets[j]? = some (some q)) :
    c.m_key_equal p.1 q.1 = false := by
  have hinv := (reachable_inv c hc t hr).1
  by_contra hne
  have heq : c.m_key_equal p.1 q.1 = true := by simpa using hne
  exact hij (hinv.unique i j p q (holds_of_get_state t i p hinv.len_flags hi hsi hp)
    (holds_of_get_state t j q hinv.len_flags hj hsj hq) heq)

/-- Witness of C2: the two occupied slots of `example_pair`. -/
theorem unique_keys_witness :
    Lawful nat_config ∧ Reachable nat_config example_pair ∧
      get_state example_pair.m_flags 1 = .ok State.Occupied ∧
      get_state example_pair.m_flags 2 = .ok State.Occupied ∧
      example_pair.m_buckets[1]? = some (some (1, 10)) ∧
      example_pair.m_buckets[2]? = some (some (2, 20)) ∧
      nat_config.m_key_equal (1, 10).1 (2, 20).1 = false :=
  ⟨nat_config_lawful, example_pair_reachable, by decide, by decide, by decide, by decide,
    unique_keys nat_config nat_config_lawful example_pair example_pair_reachable 1 2 (1, 10)
      (2, 20) (by decide) (by decide) (by decide) (by decide) (by decide) (by decide)
      (by decide)⟩

/-- C3 (erase-then-lookup).  On a reachable table in which slot `i` holds a
pair whose key equals `key`, `erase(key)` returns 1, and on the table it
leaves: `find(key)` returns `end()` and `count(key)` returns 0; every other
pair is still found, in its slot; and `emplace(key, value)` either is refused
by the allocator (its growth step asks for twice the buckets) or returns an
iterator and `true`, makes `size()` one larger, and `find(key)` then returns
the position of a slot holding `(key, value)`. -/
theorem erase_then_lookup [Inhabited V] (c : Config K) (hc : Lawful c) (t : Table K V)
    (hr : Reachable c t) (key : K) (i : Nat) (p : K × V) (hp : Holds t i p)
    (heq : c.m_key_equal p.1 key = true) :
    ∃ t1, erase c t key = .ok (t1, 1) ∧
      find c t1 key = Table.end t1 ∧ count c t1 key = .ok 0 ∧
      (∀ j q, Holds t j q → c.m_key_equal q.1 key = false →
        Holds t1 j q ∧ find c t1 q.1 = .ok ⟨j⟩) ∧
      ∀ value,
        (emplace c t1 key value = .fault .bad_alloc ∧ c.max_size < 2 * t1.m_bucket_count) ∨
        ∃ t2 i2, emplace c t1 key value = .ok (t2, ⟨i2⟩, true) ∧
          t2.m_size = t1.m_size + 1 ∧ find c t2 key = .ok ⟨i2⟩ ∧
          Holds t2 i2 (key, value) := by
  have hinv := (reachable_inv c hc t hr).1
  rcases erase_spec c hc t hinv key with
    ⟨habs, _⟩ | ⟨index, p', t1, hp', he', _, h, _, hinv1, hbc, _, _, _, hb, hs, ho⟩
  · have := habs i p hp
    rw [heq] at this
    exact Bool.noConfusion this
  · have hcont := erase_content c hc t t1 hinv key index p' hp' he' hbc hb hs ho
    have hholds := holds_unset t t1 index hbc hb hs ho
    have habs1 : ∀ j q, Holds t1 j q → c.m_key_equal q.1 key = false := by
      intro j q hq
      exact ((hcont q).mp ⟨j, hq⟩).2
    obtain ⟨hf1, _, hf3⟩ := find_absent c hc t1 hinv1 key habs1
    refine ⟨t1, h, hf1, hf3, ?_, ?_⟩
    · intro j q hq hne
      have hj : j ≠ index := by
        intro e
        subst e
        rw [holds_unique_pair t _ q p' hq hp', he'] at hne
        exact Bool.noConfusion hne
      have hq1 : Holds t1 j q := (hholds j q).mpr ⟨hj, hq⟩
      exact ⟨hq1, (find_present c hc t1 hinv1 q.1 j q hq1 (hc.refl _)).1⟩
    · intro value
      have hpos : t1.m_bucket_count ≠ 0 := by
        rw [hbc]
        have := hp.1
        omega
      rcases emplace_absent c hc t1 hinv1 key value habs1 with
        ⟨h1, h2⟩ | ⟨_, t2, i2, _, _, h1, hinv2, hh, hsz, _, _⟩
      · rw [if_neg hpos] at h2
        exact Or.inl ⟨h1, h2⟩
      · exact Or.inr ⟨t2, i2, h1, hsz,
          (find_present c hc t2 hinv2 key i2 (key, value) hh (hc.refl _)).1, hh⟩

/-- Witness of C3: key 1 of `example_pair`. -/
theorem erase_then_lookup_witness :
    Lawful nat_config ∧ Reachable nat_config example_pair ∧ Holds example_pair 1 (1, 10) ∧
      nat_config.m_key_equal (1, 10).1 1 = true ∧
      ∃ t1, erase nat_config example_pair 1 = .ok (t1, 1) ∧
        find nat_config t1 1 = Table.end t1 ∧ count nat_config t1 1 = .ok 0 ∧
        (∀ j q, Holds example_pair j q → nat_config.m_key_equal q.1 1 = false →
          Holds t1 j q ∧ find nat_config t1 q.1 = .ok ⟨j⟩) ∧
        ∀ value,
          (emplace nat_config t1 1 value = .fault .bad_alloc ∧
            nat_config.max_size < 2 * t1.m_bucket_count) ∨
          ∃ t2 i2, emplace nat_config t1 1 value = .ok (t2, ⟨i2⟩, true) ∧
            t2.m_size = t1.m_size + 1 ∧ find nat_config t2 1 = .ok ⟨i2⟩ ∧
            Holds t2 i2 (1, value) :=
  ⟨nat_config_lawful, example_pair_reachable, ⟨by decide, by decide, by decide⟩, by decide,
    erase_then_lookup nat_config nat_config_lawful example_pair example_pair_reachable 1 1 (1, 10)
      ⟨by decide, by decide, by decide⟩ (by decide)⟩

/-- C4 (idempotent duplicate insert).  On a reachable table in which slot `i`
holds the pair `p` whose key equals `key`, `emplace(key, value)` and
`insert((key, value))` either are refused by the allocator (the growth step
runs before the lookup) or return the position of the slot of `p` and `false`;
then `size()` is unchanged and `find(key)` and `at(key)` still yield the slot
and the value of `p`, not `value`. -/
theorem duplicate_insert [Inhabited V] (c : Config K) (hc : Lawful c) (t : Table K V)
    (hr : Reachable c t) (key : K) (value : V) (i : Nat) (p : K × V) (hp : Holds t i p)
    (heq : c.m_key_equal p.1 key = true) :
    (emplace c t key value = .fault .bad_alloc ∧ insert c t (key, value) = .fault .bad_alloc ∧
      c.max_size < 2 * t.m_bucket_count) ∨
    ∃ t2 i2, emplace c t key value = .ok (t2, ⟨i2⟩, false) ∧
      insert c t (key, value) = .ok (t2, ⟨i2⟩, false) ∧
      Holds t2 i2 p ∧ t2.m_size = t.m_size ∧ find c t2 key = .ok ⟨i2⟩ ∧
      at_key c t2 key = .ok p.2 := by
  have hinv := (reachable_inv c hc t hr).1
  have hpos : t.m_bucket_count ≠ 0 := by
    have := hp.1
    omega
  rcases emplace_present c hc t hinv key value i p hp heq with
    ⟨h1, h2⟩ | ⟨t2, i2, _, h1, hinv2, _, hp2, hsz, _⟩
  · rw [if_neg hpos] at h2
    exact Or.inl ⟨h1, h1, h2⟩
  · refine Or.inr ⟨t2, i2, h1, h1, hp2, hsz, (find_present c hc t2 hinv2 key i2 p hp2 heq).1, ?_⟩
    unfold at_key
    rw [find_key_present c hc t2 hinv2 key i2 p hp2 heq]
    simp only [Nat.ne_of_lt hp2.1, if_false, hp2.2.2]

/-- Witness of C4: key 2 of `example_pair`, inserted again with value 99. -/
theorem duplicate_insert_witness :
    Lawful nat_config ∧ Reachable nat_config example_pair ∧ Holds example_pair 2 (2, 20) ∧
      nat_config.m_key_equal (2, 20).1 2 = true ∧
      ((emplace nat_config example_pair 2 99 = .fault .bad_alloc ∧
          insert nat_config example_pair (2, 99) = .fault .bad_alloc ∧
          nat_config.max_size < 2 * example_pair.m_bucket_count) ∨
        ∃ t2 i2, emplace nat_config example_pair 2 99 = .ok (t2, ⟨i2⟩, false) ∧
          insert nat_config example_pair (2, 99) = .ok (t2, ⟨i2⟩, false) ∧
          Holds t2 i2 (2, 20) ∧ t2.m_size = example_pair.m_size ∧
          find nat_config t2 2 = .ok ⟨i2⟩ ∧ at_key nat_config t2 2 = .ok (2, 20).2) :=
  ⟨nat_config_lawful, example_pair_reachable, ⟨by decide, by decide, by decide⟩, by decide,
    duplicate_insert nat_config nat_config_lawful example_pair example_pair_reachable 2 99 2
      (2, 20) ⟨by decide, by decide, by decide⟩ (by decide)⟩

/-- C5 (load factor bound, default configuration): the code breaks the bound.
The calls `rehash(2 ^ 25)` and `emplace(k, 0)` for `k = 0, ..., 2 ^ 24` return
a table with `2 ^ 25` buckets and `2 ^ 24 + 1` occupied slots, one more than
half the buckets.  The growth test of the last call compares `2 ^ 24 + 1` with
`2 ^ 25 * 0.5f` in `float`, where `2 ^ 24 + 1` rounds to `2 ^ 24`, so the table
does not grow.  (In tables of at most `2 ^ 24` buckets the comparison is exact
and the bound holds, see `load_bound_small`.) -/
theorem load_factor_bound_broken :
    ∃ t, run nat_config (fill_calls (2 ^ 24 + 1)) Table.init = .ok t ∧
      Reachable nat_config t ∧ t.m_size ≤ t.m_occupied ∧
      t.m_bucket_count = 2 ^ 25 ∧ t.m_occupied = 2 ^ 24 + 1 ∧
      t.m_bucket_count < 2 * t.m_occupied := by
  obtain ⟨t, hrun, hinv, _, hbc, hocc, _, _⟩ := fill_run (2 ^ 24 + 1) (le_refl _)
  refine ⟨t, hrun, ?_, hinv.size_le_occupied, hbc, hocc, by rw [hbc, hocc]; norm_num⟩
  apply reachable_of_run nat_config (fill_calls (2 ^ 24 + 1)) Table.init t Reachable.init _ hrun
  intro call hmem
  unfold fill_calls at hmem
  rcases List.mem_cons.mp hmem with h | h
  · rw [h]
    show 2 ^ 25 < 2 ^ 64
    norm_num
  · obtain ⟨k, _, hk⟩ := List.mem_map.mp h
    rw [← hk]
    trivial

/-- C6 (iteration completeness).  On every reachable table the loop from
`begin()` by `++` to `end()` returns, visiting exactly the occupied slots, each
once, in ascending index order, in `size()` steps. -/
theorem iteration_complete [Inhabited V] (c : Config K) (hc : Lawful c) (t : Table K V)
    (hr : Reachable c t) :
    traverse_all t = .ok ((List.range t.m_bucket_count).filter
        (fun i => decide (slot_state t.m_flags i = State.Occupied))) ∧
      ((List.range t.m_bucket_count).filter
        (fun i => decide (slot_state t.m_flags i = State.Occupied))).length = t.m_size :=
  traverse_all_spec c t (reachable_inv c hc t hr).1

/-- Witness of C6: the traversal of `example_gap` skips the empty slot 0 and
the tombstone in slot 2, and visits slots 1 and 3. -/
theorem iteration_complete_witness :
    Lawful nat_config ∧ Reachable nat_config example_gap ∧
      traverse_all example_gap = .ok [1, 3] ∧
      (traverse_all example_gap = .ok ((List.range example_gap.m_bucket_count).filter
          (fun i => decide (slot_state example_gap.m_flags i = State.Occupied))) ∧
        ((List.range example_gap.m_bucket_count).filter
          (fun i => decide (slot_state example_gap.m_flags i = State.Occupied))).length
          = example_gap.m_size) :=
  ⟨nat_config_lawful, example_gap_reachable, by decide,
    iteration_complete nat_config nat_config_lawful example_gap example_gap_reachable⟩

/-- C7 (position-based erase): the code returns the wrong iterator.  On
`example_three` (slots 0, 1, 2 occupied) `erase(begin())` returns the iterator
at slot 2 although slot 1 is occupied; on `example_single` (slot 0 occupied, 4
buckets) it returns index 5, which is not `end()`; and the loop
`it = erase(it)` from `begin()` leaves the pair in slot 1 of `example_three`
live. -/
theorem erase_pos_skips_next :
    Reachable nat_config example_three ∧ Reachable nat_config example_single ∧
      Table.begin example_three = .ok ⟨0⟩ ∧
      (∃ t1, erase_pos example_three ⟨0⟩ = .ok (t1, ⟨2⟩) ∧
        get_state t1.m_flags 1 = .ok State.Occupied) ∧
      Table.begin example_single = .ok ⟨0⟩ ∧
      (∃ t1, erase_pos example_single ⟨0⟩ = .ok (t1, ⟨5⟩) ∧ Table.end t1 = .ok ⟨4⟩) ∧
      (∃ t1, erase_all_loop example_three 9 ⟨0⟩ = .ok t1 ∧ t1.m_size = 1 ∧
        get_state t1.m_flags 1 = .ok State.Occupied) :=
  ⟨example_three_reachable, example_single_reachable, by decide,
    ⟨{ m_buckets := [none, some (1, 10), some (2, 20), none, none, none, none, none],
       m_flags := [2863311489], m_bucket_count := 8, m_size := 2, m_occupied := 3,
       m_max_load_factor := { num := 1, den := 2 } }, by decide, by decide⟩,
    by decide,
    ⟨{ m_buckets := [none, none, none, none], m_flags := [2863311529], m_bucket_count := 4,
       m_size := 0, m_occupied := 1, m_max_load_factor := { num := 1, den := 2 } },
      by decide, by decide⟩,
    ⟨{ m_buckets := [none, some (1, 10), none, none, none, none, none, none],
       m_flags := [2863311505], m_bucket_count := 8, m_size := 1, m_occupied := 3,
       m_max_load_factor := { num := 1, den := 2 } }, by decide, by decide, by decide⟩⟩

/-- Counterexample to C8 as stated: `example_tombstone` has 4 buckets, one
tombstone (in slot 1) and no live entry; `rehash(2)` and `reserve(1)` return
with the table unchanged, so the occupied count 1 still differs from the live
count 0 and slot 1 still reads as deleted. -/
theorem rehash_noop_keeps_tombstone :
    Reachable nat_config example_tombstone ∧
      rehash nat_config example_tombstone 2 = .ok example_tombstone ∧
      reserve nat_config example_tombstone 1 = .ok example_tombstone ∧
      example_tombstone.m_occupied = 1 ∧ example_tombstone.m_size = 0 ∧
      get_state example_tombstone.m_flags 1 = .ok State.Deleted :=
  ⟨example_tombstone_reachable, by decide, by decide, by decide, by decide, by decide⟩

/-- C8 as amended (rehash reclaims tombstones).  On a reachable table, whenever
a `rehash`, a `reserve`, an `emplace`, an `insert` or an `operator[]` call
returns a table with more buckets than before, that table has equal occupied
and live counts and no slot in state `Deleted`. -/
theorem growing_rehash_reclaims [Inhabited V] (c : Config K) (hc : Lawful c) (t : Table K V)
    (hr : Reachable c t) (t1 : Table K V) (hgrown : t.m_bucket_count < t1.m_bucket_count)
    (hcall :
      (∃ count, count < 2 ^ 64 ∧ rehash c t count = .ok t1) ∨
      (∃ count, reserve c t count = .ok t1) ∨
      (∃ key value it b, emplace c t key value = .ok (t1, it, b)) ∨
      (∃ value it b, insert c t value = .ok (t1, it, b)) ∨
      (∃ key index, operator_subscript c t key = .ok (t1, index))) :
    t1.m_occupied = t1.m_size ∧
      ∀ i, i < t1.m_bucket_count → get_state t1.m_flags i ≠ .ok State.Deleted := by
  obtain ⟨hinv, hlf⟩ := reachable_inv c hc t hr
  have hemplace : ∀ key value it b, emplace c t key value = .ok (t1, it, b) →
      Inv c t1 ∧ t1.m_occupied = t1.m_size := by
    intro key value it b h
    rcases emplace_spec c hc t hinv key value with ⟨h1, _⟩ | ⟨t1', t2, index, b', hg, h1, hinv2, _, h2⟩
    · rw [h1] at h; exact Outcome.noConfusion h
    · rw [h1] at h
      cases h
      refine ⟨hinv2, ?_⟩
      rcases h2 with ⟨_, he, _⟩ | ⟨_, habs, hins⟩
      · subst he
        exact grown_no_tomb c hc t t1 hinv hg hgrown
      · exact grown_insert_no_tomb c hc t t1' t1 hinv (key, value) index hg hgrown habs hins
  have hmain : Inv c t1 ∧ t1.m_occupied = t1.m_size := by
    rcases hcall with ⟨count, h64, h⟩ | ⟨count, h⟩ | ⟨key, value, it, b, h⟩ | ⟨value, it, b, h⟩ |
      ⟨key, index, h⟩
    · rcases rehash_spec c hc t hinv count h64 with ⟨h1, _⟩ | ⟨_, _, h1⟩ | ⟨_, _, _, t2, h1, hre, _⟩
      · rw [h1] at h
        cases h
        omega
      · rw [h1] at h; exact Outcome.noConfusion h
      · rw [h1] at h
        cases h
        exact ⟨hre.inv, hre.no_tomb⟩
    · rcases reserve_spec c hc t hinv hlf count with
        ⟨h1, _⟩ | ⟨_, _, h1⟩ | ⟨_, _, _, h1⟩ | ⟨_, _, _, t2, h1, hre, _⟩
      · rw [h1] at h
        cases h
        omega
      · rw [h1] at h; exact Outcome.noConfusion h
      · rw [h1] at h; exact Outcome.noConfusion h
      · rw [h1] at h
        cases h
        exact ⟨hre.inv, hre.no_tomb⟩
    · exact hemplace key value it b h
    · exact hemplace value.1 value.2 it b h
    · rcases operator_subscript_spec c hc t hinv key with
        ⟨h1, _⟩ | ⟨t1', t2, index', hg, h1, hinv2, _, h2⟩
      · rw [h1] at h; exact Outcome.noConfusion h
      · rw [h1] at h
        cases h
        refine ⟨hinv2, ?_⟩
        rcases h2 with ⟨he, _⟩ | ⟨habs, hins⟩
        · subst he
          exact grown_no_tomb c hc t t1 hinv hg hgrown
        · exact grown_insert_no_tomb c hc t t1' t1 hinv (key, default) index hg hgrown habs hins
  exact ⟨hmain.2, fun i hi => get_state_ne_deleted c t1 hmain.1 hmain.2 i hi⟩

/-- Witness of C8 as amended: `rehash(5)` on `example_tombstone` grows the
table from 4 to 8 buckets and drops the tombstone. -/
theorem growing_rehash_reclaims_witness :
    Lawful nat_config ∧ Reachable nat_config example_tombstone ∧
      example_tombstone.m_bucket_count < example_regrown.m_bucket_count ∧
      rehash nat_config example_tombstone 5 = .ok example_regrown ∧
      (example_regrown.m_occupied = example_regrown.m_size ∧
        ∀ i, i < example_regrown.m_bucket_count →
          get_state example_regrown.m_flags i ≠ .ok State.Deleted) :=
  ⟨nat_config_lawful, example_tombstone_reachable, by decide, by decide,
    growing_rehash_reclaims nat_config nat_config_lawful example_tombstone
      example_tombstone_reachable example_regrown (by decide)
      (Or.inl ⟨5, by decide, by decide⟩)⟩

/-- C9 (`at`).  On a reachable table `at(key)` raises `out_of_range` exactly
when no occupied slot holds a key equal to `key`, which is exactly when
`find(key)` returns `end()`; and when a slot holds such a key, `at(key)`
returns the value stored in that slot.  The call only reads the table. -/
theorem at_key_fails_iff_absent [Inhabited V] (c : Config K) (hc : Lawful c) (t : Table K V)
    (hr : Reachable c t) (key : K) :
    (at_key c t key = .fault .out_of_range ↔
      ∀ i p, Holds t i p → c.m_key_equal p.1 key = false) ∧
    (at_key c t key = .fault .out_of_range ↔ find c t key = Table.end t) ∧
    (∀ i p, Holds t i p → c.m_key_equal p.1 key = true → at_key c t key = .ok p.2) := by
  have hinv := (reachable_inv c hc t hr).1
  have hpresent : ∀ i p, Holds t i p → c.m_key_equal p.1 key = true →
      at_key c t key = .ok p.2 := by
    intro i p hp heq
    unfold at_key
    rw [find_key_present c hc t hinv key i p hp heq]
    simp only [Nat.ne_of_lt hp.1, if_false, hp.2.2]
  by_cases hex : ∃ i p, Holds t i p ∧ c.m_key_equal p.1 key = true
  · obtain ⟨i, p, hp, heq⟩ := hex
    have hat := hpresent i p hp heq
    have hfind := (find_present c hc t hinv key i p hp heq).1
    refine ⟨?_, ?_, hpresent⟩
    · constructor
      · intro h
        rw [hat] at h
        exact Outcome.noConfusion h
      · intro h
        have := h i p hp
        rw [heq] at this
        exact Bool.noConfusion this
    · constructor
      · intro h
        rw [hat] at h
        exact Outcome.noConfusion h
      · intro h
        rw [hfind, end_eq] at h
        have hlt := hp.1
        injection h with h
        injection h with h
        omega
  · have habs : ∀ i p, Holds t i p → c.m_key_equal p.1 key = false := by
      intro i p hp
      by_contra hne
      exact hex ⟨i, p, hp, by simpa using hne⟩
    have hat : at_key c t key = .fault .out_of_range := by
      unfold at_key
      rw [find_key_absent c hc t hinv key habs]
      simp only [if_true]
    exact ⟨⟨fun _ => habs, fun _ => hat⟩,
      ⟨fun _ => (find_absent c hc t hinv key habs).1, fun _ => hat⟩, hpresent⟩

/-- Witness of C9: on `example_pair`, `at(7)` raises `out_of_range` and `at(2)`
returns 20. -/
theorem at_key_fails_iff_absent_witness :
    Lawful nat_config ∧ Reachable nat_config example_pair ∧
      at_key nat_config example_pair 7 = .fault .out_of_range ∧
      at_key nat_config example_pair 2 = .ok 20 ∧
      ((at_key nat_config example_pair 7 = .fault .out_of_range ↔
          ∀ i p, Holds example_pair i p → nat_config.m_key_equal p.1 7 = false) ∧
        (at_key nat_config example_pair 7 = .fault .out_of_range ↔
          find nat_config example_pair 7 = Table.end example_pair) ∧
        (∀ i p, Holds example_pair i p → nat_config.m_key_equal p.1 7 = true →
          at_key nat_config example_pair 7 = .ok p.2)) :=
  ⟨nat_config_lawful, example_pair_reachable, by decide, by decide,
    at_key_fails_iff_absent nat_config nat_config_lawful example_pair example_pair_reachable 7⟩

/-- C10 (frame of key-based erase).  On a reachable table `erase(key)` returns 0
and the table itself when no occupied slot holds a key equal to `key`.  When
slot `i` holds such a key it returns 1; the live count decreases by one, slot
`i` goes from `Occupied` to `Deleted`, and the occupied count, the bucket
count, the load factor and the state and content of every other slot are
unchanged. -/
theorem erase_key_frame [Inhabited V] (c : Config K) (hc : Lawful c) (t : Table K V)
    (hr : Reachable c t) (key : K) :
    ((∀ i p, Holds t i p → c.m_key_equal p.1 key = false) → erase c t key = .ok (t, 0)) ∧
    (∀ i p, Holds t i p → c.m_key_equal p.1 key = true →
      ∃ t1, erase c t key = .ok (t1, 1) ∧ t1.m_size + 1 = t.m_size ∧
        get_state t.m_flags i = .ok State.Occupied ∧
        get_state t1.m_flags i = .ok State.Deleted ∧
        t1.m_occupied = t.m_occupied ∧ t1.m_bucket_count = t.m_bucket_count ∧
        t1.m_max_load_factor = t.m_max_load_factor ∧
        ∀ j, j ≠ i → j < t.m_bucket_count →
          get_state t1.m_flags j = get_state t.m_flags j ∧
          t1.m_buckets[j]? = t.m_buckets[j]?) := by
  have hinv := (reachable_inv c hc t hr).1
  constructor
  · intro habs
    rcases erase_spec c hc t hinv key with ⟨_, h⟩ | ⟨index, p, _, hp, he, _⟩
    · exact h
    · have := habs index p hp
      rw [he] at this
      exact Bool.noConfusion this
  · intro i p hp heq
    rcases erase_spec c hc t hinv key with
      ⟨habs, _⟩ | ⟨index, p', t1, hp', he', _, h, _, hinv1, hbc, hlf, hsz, hocc, hb, hs, ho⟩
    · have := habs i p hp
      rw [heq] at this
      exact Bool.noConfusion this
    · have hidx : index = i :=
        hinv.unique index i p' p hp' hp (hc.trans _ _ _ he' (hc.symm _ _ heq))
      subst hidx
      refine ⟨t1, h, hsz, get_state_holds t index p hp hinv.len_flags, ?_, hocc, hbc, hlf, ?_⟩
      · rw [get_state_eq _ _ (by rw [hinv1.len_flags, hbc]; have := hp.1; omega), hs]
      · intro j hj hjlt
        constructor
        · rw [get_state_eq _ _ (by rw [hinv1.len_flags, hbc]; omega),
            get_state_eq _ _ (by rw [hinv.len_flags]; omega), ho j hj]
        · rw [hb, List.getElem?_set, if_neg (fun e => hj e.symm)]

/-- Witness of C10: on `example_pair`, `erase(7)` returns 0 and `erase(1)`
returns 1 and turns slot 1 into a tombstone. -/
theorem erase_key_frame_witness :
    Lawful nat_config ∧ Reachable nat_config example_pair ∧
      erase nat_config example_pair 7 = .ok (example_pair, 0) ∧
      erase nat_config example_pair 1 =
        .ok ({ m_buckets := [none, none, some (2, 20), none], m_flags := [2863311494],
               m_bucket_count := 4, m_size := 1, m_occupied := 2,
               m_max_load_factor := { num := 1, den := 2 } }, 1) ∧
      (((∀ i p, Holds example_pair i p → nat_config.m_key_equal p.1 1 = false) →
          erase nat_config example_pair 1 = .ok (example_pair, 0)) ∧
        (∀ i p, Holds example_pair i p → nat_config.m_key_equal p.1 1 = true →
          ∃ t1, erase nat_config example_pair 1 = .ok (t1, 1) ∧
            t1.m_size + 1 = example_pair.m_size ∧
            get_state example_pair.m_flags i = .ok State.Occupied ∧
            get_state t1.m_flags i = .ok State.Deleted ∧
            t1.m_occupied = example_pair.m_occupied ∧
            t1.m_bucket_count = example_pair.m_bucket_count ∧
            t1.m_max_load_factor = example_pair.m_max_load_factor ∧
            ∀ j, j ≠ i → j < example_pair.m_bucket_count →
              get_state t1.m_flags j = get_state example_pair.m_flags j ∧
              t1.m_buckets[j]? = example_pair.m_buckets[j]?)) :=
  ⟨nat_config_lawful, example_pair_reachable, by decide, by decide,
    erase_key_frame nat_config nat_config_lawful example_pair example_pair_reachable 1⟩

end FastSTL

namespace FastSTL

variable {K V : Type}

/-! ## Capacity requests -/

/-- Rounding to `float` never falls below a power of two that the integer
reaches. -/
theorem to_float_ge_pow (n j : Nat) (h : 2 ^ j ≤ n) : 2 ^ j ≤ to_float n := by
  unfold to_float
  simp only []
  set e := f32_drop 64 n with he
  have hpos : 0 < 2 ^ e := Nat.pos_pow_of_pos _ (by norm_num)
  have hq : n >>> e = n / 2 ^ e := Nat.shiftRight_eq_div_pow n e
  have hge : n / 2 ^ e * 2 ^ e ≤
      (if 2 ^ e < 2 * (n % 2 ^ e) ∨ 2 ^ e = 2 * (n % 2 ^ e) ∧ n >>> e % 2 = 1 then n >>> e + 1
        else n >>> e) * 2 ^ e := by
    apply Nat.mul_le_mul_right
    rw [hq]; split <;> omega
  refine le_trans ?_ hge
  by_cases hej : e ≤ j
  · have hsplit : 2 ^ j = 2 ^ (j - e) * 2 ^ e := by
      rw [← pow_add]; congr 1; omega
    rw [hsplit]
    apply Nat.mul_le_mul_right
    apply (Nat.le_div_iff_mul_le hpos).mpr
    rw [← hsplit]; exact h
  · have hlt : 2 ^ j < 2 ^ e := Nat.pow_lt_pow_right (by norm_num) (by omega)
    have h1 : 1 ≤ n / 2 ^ e := by
      rcases f32_drop_bound 64 n with h0 | h0
      · rw [← he] at h0; omega
      · rw [← he] at h0
        apply (Nat.one_le_div_iff hpos).mpr
        exact le_trans (Nat.pow_le_pow_right (by norm_num) (by omega)) h0
    have : 2 ^ e ≤ n / 2 ^ e * 2 ^ e := Nat.le_mul_of_pos_left _ h1
    omega

/-- A `float` is at most twice the integer it was converted from. -/
theorem to_float_le_two_mul (n : Nat) : to_float n ≤ 2 * n := by
  unfold to_float
  simp only []
  set e := f32_drop 64 n with he
  have hpos : 0 < 2 ^ e := Nat.pos_pow_of_pos _ (by norm_num)
  have hq : n >>> e = n / 2 ^ e := Nat.shiftRight_eq_div_pow n e
  have hdm : n / 2 ^ e * 2 ^ e + n % 2 ^ e = n := by
    rw [Nat.mul_comm]; exact Nat.div_add_mod n (2 ^ e)
  rcases f32_drop_bound 64 n with h0 | h0
  · rw [← he] at h0
    rw [h0]
    simp [Nat.mod_one]
    omega
  · rw [← he] at h0
    have hen : 2 ^ e ≤ n := le_trans (Nat.pow_le_pow_right (by norm_num) (by omega)) h0
    have hle : (if 2 ^ e < 2 * (n % 2 ^ e) ∨ 2 ^ e = 2 * (n % 2 ^ e) ∧ n >>> e % 2 = 1
        then n >>> e + 1 else n >>> e) * 2 ^ e ≤ (n / 2 ^ e + 1) * 2 ^ e := by
      apply Nat.mul_le_mul_right
      rw [hq]; split <;> omega
    have : (n / 2 ^ e + 1) * 2 ^ e = n / 2 ^ e * 2 ^ e + 2 ^ e := by ring
    omega

/-- Shape of `roundup32` on requests that do not wrap: the least power of two
that is at least `max 4 n`. -/
theorem roundup32_least (n : Nat) (hn : (if n < 4 then 4 else n) ≤ 2 ^ 63) :
    ∃ k, 2 ≤ k ∧ k ≤ 63 ∧ roundup32 n = 2 ^ k ∧ (if n < 4 then 4 else n) ≤ 2 ^ k ∧
      ∀ j, (if n < 4 then 4 else n) ≤ 2 ^ j → 2 ^ k ≤ 2 ^ j := by
  have hn64 : n < 2 ^ 64 := by
    split at hn <;> omega
  have hne : roundup32 n ≠ 0 := by
    rw [roundup32_eq n hn64]
    have hm : (if n < 4 then 4 else n) - 1 < 2 ^ 63 := by
      have : 0 < (if n < 4 then 4 else n) := by split <;> omega
      omega
    have hsz : Nat.size ((if n < 4 then 4 else n) - 1) ≤ 63 := Nat.size_le.mpr hm
    have hlt : 2 ^ Nat.size ((if n < 4 then 4 else n) - 1) < 2 ^ 64 :=
      Nat.pow_lt_pow_right (by norm_num) (by omega)
    rw [Nat.mod_eq_of_lt hlt]
    exact Nat.ne_of_gt (Nat.pos_pow_of_pos _ (by norm_num))
  rcases roundup32_spec n hn64 with h0 | ⟨k, hk2, hk64, hk, hle, hlt⟩
  · exact absurd h0 hne
  · have hmax : (if n < 4 then 4 else n) ≤ 2 ^ k := by
      split
      · calc 4 = 2 ^ 2 := by norm_num
          _ ≤ 2 ^ k := Nat.pow_le_pow_right (by norm_num) hk2
      · exact hle
    have hmin : ∀ j, (if n < 4 then 4 else n) ≤ 2 ^ j → 2 ^ k ≤ 2 ^ j := by
      intro j hj
      apply Nat.pow_le_pow_right (by norm_num)
      by_contra hcon
      have : 2 ^ (j + 1) ≤ 2 ^ k := Nat.pow_le_pow_right (by norm_num) (by omega)
      rw [pow_succ] at this
      omega
    refine ⟨k, hk2, ?_, hk, hmax, hmin⟩
    by_contra hcon
    have h1 : 2 ^ 64 ≤ 2 ^ k := Nat.pow_le_pow_right (by norm_num) (by omega)
    have h2 : 2 ^ k < 2 ^ 64 := Nat.pow_lt_pow_right (by norm_num) hk64
    omega

/-- Request of `reserve` under the default factor: the bucket count that
`roundup32` makes of it is more than twice the count. -/
theorem reserve_request_bound (count : Nat) (h61 : count < 2 ^ 61) :
    ∃ k, 2 ≤ k ∧ k ≤ 63 ∧ roundup32 (2 * to_float count + 1) = 2 ^ k ∧
      2 * count < 2 ^ k := by
  have hup := to_float_le_two_mul count
  have hreq : (if 2 * to_float count + 1 < 4 then 4 else 2 * to_float count + 1) ≤ 2 ^ 63 := by
    split <;> omega
  obtain ⟨k, hk2, hk63, hk, hmax, _⟩ := roundup32_least _ hreq
  refine ⟨k, hk2, hk63, hk, ?_⟩
  have hge : 2 * to_float count + 1 ≤ 2 ^ k := by
    split at hmax <;> omega
  have hk1 : 2 ^ k = 2 * 2 ^ (k - 1) := by
    rw [← pow_succ']; congr 1; omega
  by_contra hcon
  have hcnt : 2 ^ (k - 1) ≤ count := by omega
  have := to_float_ge_pow count (k - 1) hcnt
  omega

/-! ## Reads of the state array -/

/-- Function `get_state` reads the same after `set_state` at another slot, also
outside the array. -/
theorem get_state_frame (fl fl1 : List Nat) (j : Nat) (hlen : fl1.length = fl.length)
    (h : slot_state fl1 j = slot_state fl j) : get_state fl1 j = get_state fl j := by
  by_cases hj : j / 16 < fl.length
  · rw [get_state_eq fl j hj, get_state_eq fl1 j (by rw [hlen]; exact hj), h]
  · unfold get_state
    rw [shr4_eq]
    have h1 : fl[j / 16]? = none := List.getElem?_eq_none (by omega)
    have h2 : fl1[j / 16]? = none := List.getElem?_eq_none (by omega)
    rw [h1, h2]

theorem probe_eq_mask (c : Config K) (t : Table K V) (key : K) (k d : Nat)
    (hn : t.m_bucket_count = 2 ^ k) :
    ((c.m_hasher key &&& (t.m_bucket_count - 1)) + d) % t.m_bucket_count = probe c t key d := by
  unfold probe home
  rw [hn, mask_eq_mod]

end FastSTL

namespace FastSTL

variable {K V : Type}

/-! ## Counting slots by state -/

theorem cnt_split (P Q R : Nat → Bool) (n : Nat)
    (h : ∀ i, i < n →
      (if P i then 1 else 0) = (if Q i then 1 else 0) + (if R i then 1 else 0)) :
    cnt P n = cnt Q n + cnt R n := by
  induction n with
  | zero => simp [cnt]
  | succ n ih =>
    simp only [cnt]
    rw [ih (fun i hi => h i (by omega)), h n (by omega)]
    omega

/-- The count of slots that `get_state` reports in state `s` is the count over
the decoded state array. -/
theorem count_state_eq (c : Config K) (t : Table K V) (hinv : Inv c t) (s : State) :
    count_state t s = cnt (fun i => decide (slot_state t.m_flags i = s)) t.m_bucket_count := by
  unfold count_state
  rw [length_filter_range]
  apply cnt_congr
  intro i hi
  rw [get_state_eq _ _ (hinv.flag_idx hi)]
  by_cases h : slot_state t.m_flags i = s
  · simp [h]
  · have : (Outcome.ok (slot_state t.m_flags i) : Outcome State) ≠ .ok s := by
      intro hcon
      injection hcon with hcon
      exact h hcon
    simp [h, this]

/-- Counters of a table that satisfies the invariant, in terms of the states
that `get_state` reports. -/
theorem counters_eq (c : Config K) (t : Table K V) (hinv : Inv c t) :
    t.m_size = count_state t State.Occupied ∧
      t.m_occupied = count_state t State.Occupied + count_state t State.Deleted := by
  rw [count_state_eq c t hinv, count_state_eq c t hinv]
  refine ⟨hinv.size_eq, ?_⟩
  rw [hinv.occupied_eq]
  apply cnt_split
  intro i hi
  have hv := hinv.valid i hi
  have h3 : slot_state t.m_flags i = 0 ∨ slot_state t.m_flags i = 1 ∨
      slot_state t.m_flags i = 2 := by omega
  rcases h3 with h | h | h <;> rw [h] <;> decide

/-! ## Growth and bucket counts -/

theorem insert_new_bucket_count (c : Config K) (t t2 : Table K V) (p : K × V) (slot : Nat)
    (h : insert_new c t p = .ok (t2, slot)) : t2.m_bucket_count = t.m_bucket_count := by
  unfold insert_new at h
  split at h
  · exact Outcome.noConfusion h
  · split at h
    · exact Outcome.noConfusion h
    · split at h
      · exact Outcome.noConfusion h
      · split at h
        · exact Outcome.noConfusion h
        · injection h with h
          injection h with h1 _
          rw [← h1]

/-- The growth step leaves the bucket count or sets it to 4 (from 0) or to
twice the old count. -/
theorem grow_bucket_count (c : Config K) (hc : Lawful c) (t t1 : Table K V) (hinv : Inv c t)
    (h : grow_if_needed c t = .ok t1) :
    t1.m_bucket_count = t.m_bucket_count ∨
      t1.m_bucket_count = (if t.m_bucket_count = 0 then 4 else 2 * t.m_bucket_count) := by
  rcases grow_if_needed_spec c hc t hinv with ⟨h1, _⟩ | ⟨t1', h1, _, _, _, _, _, h2⟩
  · rw [h1] at h; exact Outcome.noConfusion h
  · rw [h1] at h
    injection h with h
    subst h
    rcases h2 with ⟨he, _, _⟩ | ⟨_, hb, _⟩
    · left; rw [he]
    · right; exact hb

/-- The growth step does nothing when the table has buckets and the test does
not fire. -/
theorem grow_if_needed_skip (c : Config K) (t : Table K V) (hpos : t.m_bucket_count ≠ 0)
    (hex : exceeds (t.m_occupied + 1) t.m_bucket_count t.m_max_load_factor = false) :
    grow_if_needed c t = .ok t := by
  unfold grow_if_needed
  rw [if_neg]
  rintro (h | h)
  · exact hpos h
  · rw [hex] at h
    exact Bool.noConfusion h

/-- A request that a table with buckets already covers rounds to at most its
bucket count. -/
theorem roundup32_le_bucket_count (c : Config K) (t : Table K V) (hinv : Inv c t) (n : Nat)
    (hn : n ≤ t.m_bucket_count) (hpos : 0 < t.m_bucket_count) :
    roundup32 n ≤ t.m_bucket_count := by
  obtain ⟨k, hk2, hk63, hk⟩ := hinv.pos_pow2 hpos
  have h4 : 4 ≤ 2 ^ k := by
    calc 4 = 2 ^ 2 := by norm_num
      _ ≤ 2 ^ k := Nat.pow_le_pow_right (by norm_num) hk2
  have h63 : 2 ^ k ≤ 2 ^ 63 := Nat.pow_le_pow_right (by norm_num) (by omega)
  have hreq : (if n < 4 then 4 else n) ≤ 2 ^ k := by
    split <;> omega
  obtain ⟨j, _, _, hj, _, hmin⟩ := roundup32_least n (le_trans hreq h63)
  rw [hj, hk]
  exact hmin k hreq

/-! ## The probe path -/

theorem probe_path_eq (c : Config K) (t : Table K V) (key : K) (k d : Nat)
    (hn : t.m_bucket_count = 2 ^ k) : probe_path c t key d = probe c t key d := by
  unfold probe_path
  exact probe_eq_mask c t key k d hn

end FastSTL

namespace FastSTL

variable {K V : Type}

/-! ## Capacity requests -/

/-- C11 (capacity after `rehash`), counterexample to the claim as stated.
The call `rehash(5)` on the default-constructed table returns a table of 8
buckets: at the default factor 0.5 that is capacity for 4 entries, not for 5.
The argument of `rehash` counts buckets, it is not divided by the load
factor. -/
theorem rehash_capacity_short :
    Reachable nat_config (Table.init : Table Nat Nat) ∧
      rehash nat_config (Table.init : Table Nat Nat) 5 = .ok example_regrown ∧
      example_regrown.m_bucket_count = 8 ∧ ¬ CapacityFor example_regrown 5 :=
  ⟨Reachable.init, by decide, by decide, by decide⟩

/-- C11 (capacity requests), as amended.  On a reachable table (load factor
0.5) and for `0 < n < 2 ^ 61`: `reserve(n)` either is refused by the allocator
or returns a table whose bucket count exceeds `2 * n`, so `n` entries fit
under the load factor; `rehash(n)` either is refused by the allocator or
returns a table with at least `n` buckets. -/
theorem capacity_after_request [Inhabited V] (c : Config K) (hc : Lawful c) (t : Table K V)
    (hr : Reachable c t) (n : Nat) (hn : 0 < n) (h61 : n < 2 ^ 61) :
    ((reserve c t n = .fault .bad_alloc ∧ c.max_size < roundup32 (2 * to_float n + 1)) ∨
      ∃ t1, reserve c t n = .ok t1 ∧ CapacityFor t1 n ∧ 2 * n < t1.m_bucket_count) ∧
    ((rehash c t n = .fault .bad_alloc ∧ c.max_size < roundup32 n) ∨
      ∃ t1, rehash c t n = .ok t1 ∧ n ≤ t1.m_bucket_count) := by
  obtain ⟨hinv, hlf⟩ := reachable_inv c hc t hr
  obtain ⟨k, _, _, hk, hlt⟩ := reserve_request_bound n h61
  have hup := to_float_le_two_mul n
  constructor
  · rcases reserve_spec c hc t hinv hlf n with
      ⟨h1, h2⟩ | ⟨_, h2, _⟩ | ⟨_, _, h2, h1⟩ | ⟨_, _, _, t1, h1, hre, hbc⟩
    · have hb : 2 * n < t.m_bucket_count := by
        rcases h2 with h2 | h2
        · omega
        · rw [hk] at h2; omega
      refine Or.inr ⟨t, h1, ?_, hb⟩
      show n * t.m_max_load_factor.den ≤ t.m_bucket_count * t.m_max_load_factor.num
      rw [hlf]
      show n * 2 ≤ t.m_bucket_count * 1
      omega
    · omega
    · exact Or.inl ⟨h1, h2⟩
    · have hb : 2 * n < t1.m_bucket_count := by rw [hbc, hk]; exact hlt
      refine Or.inr ⟨t1, h1, ?_, hb⟩
      show n * t1.m_max_load_factor.den ≤ t1.m_bucket_count * t1.m_max_load_factor.num
      rw [hre.lf, hlf]
      show n * 2 ≤ t1.m_bucket_count * 1
      omega
  · have hreq : (if n < 4 then 4 else n) ≤ 2 ^ 63 := by
      split <;> omega
    obtain ⟨j, _, _, hj, hmax, _⟩ := roundup32_least n hreq
    have hle : n ≤ roundup32 n := by
      rw [hj]
      split at hmax <;> omega
    rcases rehash_spec c hc t hinv n (by omega) with
      ⟨h1, h2⟩ | ⟨_, h2, h1⟩ | ⟨_, _, _, t1, h1, _, hbc⟩
    · refine Or.inr ⟨t, h1, ?_⟩
      rcases h2 with h2 | h2 <;> omega
    · exact Or.inl ⟨h1, h2⟩
    · exact Or.inr ⟨t1, h1, by rw [hbc]; exact hle⟩

/-- Witness of C11 as amended: `reserve(5)` and `rehash(5)` on the
default-constructed table. -/
theorem capacity_after_request_witness :
    Lawful nat_config ∧ Reachable nat_config (Table.init : Table Nat Nat) ∧ 0 < 5 ∧
      5 < 2 ^ 61 ∧
      (((reserve nat_config (Table.init : Table Nat Nat) 5 = .fault .bad_alloc ∧
            nat_config.max_size < roundup32 (2 * to_float 5 + 1)) ∨
          ∃ t1, reserve nat_config (Table.init : Table Nat Nat) 5 = .ok t1 ∧
            CapacityFor t1 5 ∧ 2 * 5 < t1.m_bucket_count) ∧
        ((rehash nat_config (Table.init : Table Nat Nat) 5 = .fault .bad_alloc ∧
            nat_config.max_size < roundup32 5) ∨
          ∃ t1, rehash nat_config (Table.init : Table Nat Nat) 5 = .ok t1 ∧
            5 ≤ t1.m_bucket_count)) :=
  ⟨nat_config_lawful, Reachable.init, by decide, by decide,
    capacity_after_request nat_config nat_config_lawful Table.init Reachable.init 5
      (by decide) (by decide)⟩

/-- C12 (requests that the capacity covers), counterexample to the claim as
stated.  The table `example_pair` has 4 buckets, so at the factor 0.5 it has
capacity for 2 entries; still `reserve(2)` requests `2 / 0.5 + 1 = 5` buckets
and rehashes the table into 8. -/
theorem reserve_grows_within_capacity :
    Reachable nat_config example_pair ∧ CapacityFor example_pair 2 ∧
      reserve nat_config example_pair 2 = .ok example_pair_grown ∧
      example_pair_grown.m_bucket_count ≠ example_pair.m_bucket_count :=
  ⟨example_pair_reachable, by decide, by decide, by decide⟩

/-- C12 (requests that the capacity covers), as amended.  On a reachable table
(load factor 0.5): `rehash(n)` returns the table unchanged when `n` entries
fit under the load factor, and more generally when `n` is at most the bucket
count; `reserve(m)` returns the table unchanged when `m` is 0 or twice `m`
(as a `float`) is less than the bucket count. -/
theorem covered_request_noop [Inhabited V] (c : Config K) (hc : Lawful c) (t : Table K V)
    (hr : Reachable c t) (n m : Nat) (hn : CapacityFor t n ∨ n ≤ t.m_bucket_count)
    (hm : m = 0 ∨ 2 * to_float m < t.m_bucket_count) :
    rehash c t n = .ok t ∧ reserve c t m = .ok t := by
  obtain ⟨hinv, hlf⟩ := reachable_inv c hc t hr
  constructor
  · have hle : n ≤ t.m_bucket_count := by
      rcases hn with h | h
      · have h2 : n * t.m_max_load_factor.den ≤ t.m_bucket_count * t.m_max_load_factor.num := h
        rw [hlf] at h2
        have h3 : n * 2 ≤ t.m_bucket_count * 1 := h2
        omega
      · exact h
    unfold rehash
    rw [if_neg (by omega)]
  · rcases hm with h0 | hlt
    · subst h0
      unfold reserve
      rw [if_neg (by omega)]
    · have hpos : 0 < t.m_bucket_count := by omega
      obtain ⟨k, _, hk63, hk⟩ := hinv.pos_pow2 hpos
      have h63 : t.m_bucket_count < 2 ^ 63 := by
        rw [hk]; exact Nat.pow_lt_pow_right (by norm_num) hk63
      have hround := roundup32_le_bucket_count c t hinv (2 * to_float m + 1) (by omega) hpos
      rcases reserve_spec c hc t hinv hlf m with
        ⟨h1, _⟩ | ⟨_, h2, _⟩ | ⟨_, h2, _⟩ | ⟨_, h2, _⟩
      · exact h1
      · omega
      · omega
      · omega

/-- Witness of C12 as amended: `rehash(2)` and `reserve(1)` on
`example_pair`. -/
theorem covered_request_noop_witness :
    Lawful nat_config ∧ Reachable nat_config example_pair ∧
      (CapacityFor example_pair 2 ∨ 2 ≤ example_pair.m_bucket_count) ∧
      (1 = 0 ∨ 2 * to_float 1 < example_pair.m_bucket_count) ∧
      (rehash nat_config example_pair 2 = .ok example_pair ∧
        reserve nat_config example_pair 1 = .ok example_pair) :=
  ⟨nat_config_lawful, example_pair_reachable, Or.inl (by decide), Or.inr (by decide),
    covered_request_noop nat_config nat_config_lawful example_pair example_pair_reachable 2 1
      (Or.inl (by decide)) (Or.inr (by decide))⟩

/-- C13 (zero-capacity request), counterexample to the claim as stated.  The
public calls `rehash(0)` and `reserve(0)` on `example_pair` return the table
as it was, with its 2 entries and 4 buckets: the guards `count > m_bucket_count`
and `count > 0` keep a zero request from reaching `rehash_internal`. -/
theorem zero_request_keeps_entries :
    Reachable nat_config example_pair ∧
      rehash nat_config example_pair 0 = .ok example_pair ∧
      reserve nat_config example_pair 0 = .ok example_pair ∧
      example_pair.m_size = 2 ∧ example_pair.m_bucket_count = 4 :=
  ⟨example_pair_reachable, by decide, by decide, by decide, by decide⟩

/-- C13 (zero-capacity request), as amended.  On every reachable table the
public calls `rehash(0)` and `reserve(0)` return the table unchanged; the
private `rehash_internal(0)`, which they do not reach, is what clears and
deallocates: it returns a table with `size() == 0` and `bucket_count() == 0`. -/
theorem zero_request_noop [Inhabited V] (c : Config K) (hc : Lawful c) (t : Table K V)
    (hr : Reachable c t) :
    rehash c t 0 = .ok t ∧ reserve c t 0 = .ok t ∧
      ∃ t1, rehash_internal c t 0 = .ok t1 ∧ t1.m_size = 0 ∧ t1.m_bucket_count = 0 := by
  have hinv := (reachable_inv c hc t hr).1
  refine ⟨?_, ?_, ?_⟩
  · unfold rehash
    rw [if_neg (by omega)]
  · unfold reserve
    rw [if_neg (by omega)]
  · obtain ⟨t1, h1, _, hbc, hsz, _, _⟩ := rehash_internal_zero c t hinv
    exact ⟨t1, h1, hsz, hbc⟩

/-- Witness of C13 as amended: the table `example_pair`. -/
theorem zero_request_noop_witness :
    Lawful nat_config ∧ Reachable nat_config example_pair ∧
      (rehash nat_config example_pair 0 = .ok example_pair ∧
        reserve nat_config example_pair 0 = .ok example_pair ∧
        ∃ t1, rehash_internal nat_config example_pair 0 = .ok t1 ∧ t1.m_size = 0 ∧
          t1.m_bucket_count = 0) :=
  ⟨nat_config_lawful, example_pair_reachable,
    zero_request_noop nat_config nat_config_lawful example_pair example_pair_reachable⟩

/-- C14 (`clear`).  On every reachable table `clear()` returns a table with
live count 0 and occupied count 0 and the same bucket count, in which
`get_state(i)` is `Empty` for every slot `i` below the bucket count, and on
which `find(key)` returns `end()` for every key. -/
theorem clear_empties [Inhabited V] (c : Config K) (hc : Lawful c) (t : Table K V)
    (hr : Reachable c t) :
    ∃ t1, clear t = .ok t1 ∧ t1.m_size = 0 ∧ t1.m_occupied = 0 ∧
      t1.m_bucket_count = t.m_bucket_count ∧
      (∀ i, i < t1.m_bucket_count → get_state t1.m_flags i = .ok State.Empty) ∧
      ∀ key, find c t1 key = Table.end t1 := by
  have hinv := (reachable_inv c hc t hr).1
  obtain ⟨t1, h1, hinv1, hbc, hsz, hocc, _, hall⟩ := clear_spec c t hinv
  refine ⟨t1, h1, hsz, hocc, hbc, ?_, ?_⟩
  · intro i hi
    rw [get_state_eq _ _ (hinv1.flag_idx hi), hall i hi]
  · intro key
    refine (find_absent c hc t1 hinv1 key ?_).1
    intro i p hp
    have h2 := hall i hp.1
    rw [hp.2.1] at h2
    exact absurd h2 (by decide)

/-- Witness of C14: `clear()` on `example_pair`. -/
theorem clear_empties_witness :
    Lawful nat_config ∧ Reachable nat_config example_pair ∧
      clear example_pair = .ok example_pair_cleared ∧
      ∃ t1, clear example_pair = .ok t1 ∧ t1.m_size = 0 ∧ t1.m_occupied = 0 ∧
        t1.m_bucket_count = example_pair.m_bucket_count ∧
        (∀ i, i < t1.m_bucket_count → get_state t1.m_flags i = .ok State.Empty) ∧
        ∀ key, find nat_config t1 key = Table.end t1 :=
  ⟨nat_config_lawful, example_pair_reachable, by decide,
    clear_empties nat_config nat_config_lawful example_pair example_pair_reachable⟩

/-! ## Growth policy and invariant -/

/-- C15 (growth policy).  For a request `n` with `max(4, n) <= 2 ^ 63`,
`roundup32(n)` is a power of two, at least `max(4, n)`, and at most every
power of two that is at least `max(4, n)`.  On a reachable table
`rehash_internal(n)` is refused by the allocator or returns a table whose
bucket count has not grown or is exactly `roundup32(n)`; `emplace` and
`operator[]` are refused by the allocator or return a table whose bucket count
is the old one or, after the implicit growth, exactly twice the old one (4 when
the old one is 0). -/
theorem growth_policy [Inhabited V] (c : Config K) (hc : Lawful c) (t : Table K V)
    (hr : Reachable c t) (n : Nat) (hn : max 4 n ≤ 2 ^ 63) (key : K) (value : V) :
    (∃ k, roundup32 n = 2 ^ k) ∧ max 4 n ≤ roundup32 n ∧
    (∀ j, max 4 n ≤ 2 ^ j → roundup32 n ≤ 2 ^ j) ∧
    (rehash_internal c t n = .fault .bad_alloc ∨
      ∃ t1, rehash_internal c t n = .ok t1 ∧
        (t1.m_bucket_count ≤ t.m_bucket_count ∨ t1.m_bucket_count = roundup32 n)) ∧
    (emplace c t key value = .fault .bad_alloc ∨
      ∃ t1 it b, emplace c t key value = .ok (t1, it, b) ∧
        (t1.m_bucket_count = t.m_bucket_count ∨
          t1.m_bucket_count = (if t.m_bucket_count = 0 then 4 else 2 * t.m_bucket_count))) ∧
    (operator_subscript c t key = .fault .bad_alloc ∨
      ∃ t1 index, operator_subscript c t key = .ok (t1, index) ∧
        (t1.m_bucket_count = t.m_bucket_count ∨
          t1.m_bucket_count = (if t.m_bucket_count = 0 then 4 else 2 * t.m_bucket_count))) := by
  have hinv := (reachable_inv c hc t hr).1
  have hmax : max 4 n = (if n < 4 then 4 else n) := by
    split
    · exact max_eq_left (by omega)
    · exact max_eq_right (by omega)
  rw [hmax] at hn ⊢
  obtain ⟨k, _, _, hk, hge, hmin⟩ := roundup32_least n hn
  refine ⟨⟨k, hk⟩, by rw [hk]; exact hge, ?_, ?_, ?_, ?_⟩
  · intro j hj
    rw [hk]
    exact hmin j hj
  · by_cases h0 : n = 0
    · subst h0
      obtain ⟨t1, h1, _, hbc, _⟩ := rehash_internal_zero c t hinv
      exact Or.inr ⟨t1, h1, Or.inl (by omega)⟩
    · have h64 : n < 2 ^ 64 := by
        split at hn <;> omega
      rcases rehash_internal_spec c hc t hinv n h0 h64 with
        ⟨_, h1⟩ | ⟨_, _, h1⟩ | ⟨_, _, t1, h1, _, hbc⟩
      · exact Or.inr ⟨t, h1, Or.inl (le_refl _)⟩
      · exact Or.inl h1
      · exact Or.inr ⟨t1, h1, Or.inr hbc⟩
  · rcases emplace_spec c hc t hinv key value with
      ⟨h1, _⟩ | ⟨t1, t2, index, b, hg, h1, _, _, h2⟩
    · exact Or.inl h1
    · refine Or.inr ⟨t2, ⟨index⟩, b, h1, ?_⟩
      have hb : t2.m_bucket_count = t1.m_bucket_count := by
        rcases h2 with ⟨_, he, _⟩ | ⟨_, _, hins⟩
        · rw [he]
        · exact insert_new_bucket_count c t1 t2 (key, value) index hins
      rw [hb]
      exact grow_bucket_count c hc t t1 hinv hg
  · rcases operator_subscript_spec c hc t hinv key with
      ⟨h1, _⟩ | ⟨t1, t2, index, hg, h1, _, _, h2⟩
    · exact Or.inl h1
    · refine Or.inr ⟨t2, index, h1, ?_⟩
      have hb : t2.m_bucket_count = t1.m_bucket_count := by
        rcases h2 with ⟨he, _⟩ | ⟨_, hins⟩
        · rw [he]
        · exact insert_new_bucket_count c t1 t2 (key, default) index hins
      rw [hb]
      exact grow_bucket_count c hc t t1 hinv hg

/-- Witness of C15: the request 9 on `example_pair`, and the key 3, whose
insertion doubles the 4 buckets. -/
theorem growth_policy_witness :
    Lawful nat_config ∧ Reachable nat_config example_pair ∧ max 4 9 ≤ 2 ^ 63 ∧
      rehash_internal nat_config example_pair 9 = .ok example_pair_sixteen ∧
      ((∃ k, roundup32 9 = 2 ^ k) ∧ max 4 9 ≤ roundup32 9 ∧
        (∀ j, max 4 9 ≤ 2 ^ j → roundup32 9 ≤ 2 ^ j) ∧
        (rehash_internal nat_config example_pair 9 = .fault .bad_alloc ∨
          ∃ t1, rehash_internal nat_config example_pair 9 = .ok t1 ∧
            (t1.m_bucket_count ≤ example_pair.m_bucket_count ∨
              t1.m_bucket_count = roundup32 9)) ∧
        (emplace nat_config example_pair 3 30 = .fault .bad_alloc ∨
          ∃ t1 it b, emplace nat_config example_pair 3 30 = .ok (t1, it, b) ∧
            (t1.m_bucket_count = example_pair.m_bucket_count ∨
              t1.m_bucket_count =
                (if example_pair.m_bucket_count = 0 then 4
                  else 2 * example_pair.m_bucket_count))) ∧
        (operator_subscript nat_config example_pair 3 = .fault .bad_alloc ∨
          ∃ t1 index, operator_subscript nat_config example_pair 3 = .ok (t1, index) ∧
            (t1.m_bucket_count = example_pair.m_bucket_count ∨
              t1.m_bucket_count =
                (if example_pair.m_bucket_count = 0 then 4
                  else 2 * example_pair.m_bucket_count)))) :=
  ⟨nat_config_lawful, example_pair_reachable, by decide, by decide,
    growth_policy nat_config nat_config_lawful example_pair example_pair_reachable 9
      (by decide) 3 30⟩

/-- C16 (table invariant).  In every table reachable from the empty table by
`emplace`, `insert`, `operator[]`, `erase`, `clear`, `reserve` and `rehash`:
the bucket count is 0 or a power of two that is at least 4; the live count is
the number of slots in state Occupied; the occupied count is the number of
slots in state Occupied plus the number in state Deleted; and live count,
occupied count and bucket count are in ascending order. -/
theorem table_invariant [Inhabited V] (c : Config K) (hc : Lawful c) (t : Table K V)
    (hr : Reachable c t) :
    (t.m_bucket_count = 0 ∨ ∃ k, 2 ≤ k ∧ t.m_bucket_count = 2 ^ k) ∧
      t.m_size = count_state t State.Occupied ∧
      t.m_occupied = count_state t State.Occupied + count_state t State.Deleted ∧
      t.m_size ≤ t.m_occupied ∧ t.m_occupied ≤ t.m_bucket_count := by
  have hinv := (reachable_inv c hc t hr).1
  obtain ⟨hsz, hocc⟩ := counters_eq c t hinv
  refine ⟨?_, hsz, hocc, hinv.size_le_occupied, hinv.occupied_le⟩
  rcases hinv.pow2 with h | ⟨k, hk2, _, hk⟩
  · exact Or.inl h
  · exact Or.inr ⟨k, hk2, hk⟩

/-- Witness of C16: the table `example_gap`, with 8 buckets, 2 live entries and
a tombstone. -/
theorem table_invariant_witness :
    Lawful nat_config ∧ Reachable nat_config example_gap ∧
      count_state example_gap State.Occupied = 2 ∧ count_state example_gap State.Deleted = 1 ∧
      ((example_gap.m_bucket_count = 0 ∨ ∃ k, 2 ≤ k ∧ example_gap.m_bucket_count = 2 ^ k) ∧
        example_gap.m_size = count_state example_gap State.Occupied ∧
        example_gap.m_occupied =
          count_state example_gap State.Occupied + count_state example_gap State.Deleted ∧
        example_gap.m_size ≤ example_gap.m_occupied ∧
        example_gap.m_occupied ≤ example_gap.m_bucket_count) :=
  ⟨nat_config_lawful, example_gap_reachable, by decide, by decide,
    table_invariant nat_config nat_config_lawful example_gap example_gap_reachable⟩

/-! ## Placement and state encoding -/

/-- C17 (placement rule of `find_insert_slot`).  Take a table of `2 ^ k`
buckets whose state array covers them and that has an Empty slot, and any key.
Then the probe path of the key reaches a first Empty slot, at a distance `e`
below the bucket count, and `find_insert_slot(key)` returns the first Deleted
slot of the path before distance `e` if there is one, and the Empty slot at
distance `e` if there is none. -/
theorem find_insert_slot_placement (c : Config K) (t : Table K V) (key : K) (k : Nat)
    (hk : k < 64) (hn : t.m_bucket_count = 2 ^ k)
    (hlen : t.m_flags.length = (t.m_bucket_count + 15) / 16)
    (hempty : ∃ i, i < t.m_bucket_count ∧ get_state t.m_flags i = .ok State.Empty) :
    ∃ e r, e < t.m_bucket_count ∧
      get_state t.m_flags (probe_path c t key e) = .ok State.Empty ∧
      (∀ d, d < e → get_state t.m_flags (probe_path c t key d) ≠ .ok State.Empty) ∧
      find_insert_slot c t key = .ok r ∧
      ((∃ d0, d0 < e ∧ r = probe_path c t key d0 ∧
          get_state t.m_flags r = .ok State.Deleted ∧
          ∀ d, d < d0 → get_state t.m_flags (probe_path c t key d) ≠ .ok State.Deleted) ∨
       (r = probe_path c t key e ∧
          ∀ d, d < e → get_state t.m_flags (probe_path c t key d) ≠ .ok State.Deleted)) := by
  have hpos : 0 < t.m_bucket_count := by
    rw [hn]; exact Nat.pos_pow_of_pos _ (by norm_num)
  have hpp : ∀ d, probe_path c t key d = probe c t key d :=
    fun d => probe_path_eq c t key k d hn
  have hlt : ∀ d, probe c t key d < t.m_bucket_count := fun d => Nat.mod_lt _ hpos
  have hg : ∀ d, get_state t.m_flags (probe c t key d) =
      .ok (slot_state t.m_flags (probe c t key d)) := by
    intro d
    apply get_state_eq
    rw [hlen]
    have := hlt d
    omega
  have hne : ∀ d s, slot_state t.m_flags (probe c t key d) ≠ s →
      get_state t.m_flags (probe c t key d) ≠ .ok s := by
    intro d s h hcon
    rw [hg d] at hcon
    injection hcon with hcon
    exact h hcon
  obtain ⟨r, hr, e, hele, hE, hbefore, hcase⟩ := find_insert_slot_spec c t key k hk hn hlen
  obtain ⟨i, hi, hie⟩ := hempty
  have hsi := slot_state_of_get_state t i State.Empty hlen hi hie
  obtain ⟨d, hd, hdi⟩ := probe_surj (home c t key) i t.m_bucket_count (Nat.mod_lt _ hpos) hi
  have hed : e ≤ d := by
    by_contra hcon
    apply hbefore d (by omega)
    show slot_state t.m_flags ((home c t key + d) % t.m_bucket_count) = State.Empty
    rw [hdi]
    exact hsi
  have he : e < t.m_bucket_count := by omega
  refine ⟨e, r, he, ?_, ?_, hr, ?_⟩
  · rw [hpp, hg, hE he]
  · intro d1 hd1
    rw [hpp]
    exact hne d1 _ (hbefore d1 hd1)
  · rcases hcase with ⟨e0, he0, hr0, hdel, hfirst⟩ | ⟨hr0, hnone⟩
    · refine Or.inl ⟨e0, he0, by rw [hpp]; exact hr0, ?_, ?_⟩
      · rw [hr0, hg, hdel]
      · intro d1 hd1
        rw [hpp]
        exact hne d1 _ (hfirst d1 hd1)
    · refine Or.inr ⟨?_, ?_⟩
      · rw [hpp, hr0, if_pos he]
      · intro d1 hd1
        rw [hpp]
        exact hne d1 _ (hnone d1 hd1)

/-- Witness of C17: key 9 on `example_gap`.  Its path starts at slot 1
(Occupied), passes the tombstone in slot 2 and slot 3 (Occupied) and reaches
the Empty slot 4; the result is the tombstone. -/
theorem find_insert_slot_placement_witness :
    example_gap.m_bucket_count = 2 ^ 3 ∧
      find_insert_slot nat_config example_gap 9 = .ok 2 ∧
      ∃ e r, e < example_gap.m_bucket_count ∧
        get_state example_gap.m_flags (probe_path nat_config example_gap 9 e) =
          .ok State.Empty ∧
        (∀ d, d < e →
          get_state example_gap.m_flags (probe_path nat_config example_gap 9 d) ≠
            .ok State.Empty) ∧
        find_insert_slot nat_config example_gap 9 = .ok r ∧
        ((∃ d0, d0 < e ∧ r = probe_path nat_config example_gap 9 d0 ∧
            get_state example_gap.m_flags r = .ok State.Deleted ∧
            ∀ d, d < d0 →
              get_state example_gap.m_flags (probe_path nat_config example_gap 9 d) ≠
                .ok State.Deleted) ∨
         (r = probe_path nat_config example_gap 9 e ∧
            ∀ d, d < e →
              get_state example_gap.m_flags (probe_path nat_config example_gap 9 d) ≠
                .ok State.Deleted)) :=
  ⟨by decide, by decide,
    find_insert_slot_placement nat_config example_gap 9 3 (by decide) (by decide) (by decide)
      ⟨0, by decide, by decide⟩⟩

/-- C18 (state encoding).  For every state array, every slot index `i` that
the array covers and every state `s` among Occupied, Deleted and Empty:
`set_state(i, s)` returns an array on which `get_state(i)` is `s` and on which
`get_state(j)` is what it was for every other index `j`, in the same word or
another. -/
theorem set_state_get_state (m_flags : List Nat) (i : Nat) (s : State)
    (hi : i < FLAGS_PER_U32 * m_flags.length)
    (hs : s = State.Occupied ∨ s = State.Deleted ∨ s = State.Empty) :
    ∃ fl1, set_state m_flags i s = .ok fl1 ∧ get_state fl1 i = .ok s ∧
      ∀ j, j ≠ i → get_state fl1 j = get_state m_flags j := by
  have hidx : i / 16 < m_flags.length := by
    have h16 : i < 16 * m_flags.length := hi
    omega
  have hs4 : s < 4 := by
    rcases hs with h | h | h <;> rw [h] <;> decide
  obtain ⟨fl1, h1, hlen1, hget, hframe⟩ := set_state_spec m_flags i s hidx hs4
  refine ⟨fl1, h1, ?_, ?_⟩
  · rw [get_state_eq fl1 i (by rw [hlen1]; exact hidx), hget]
  · intro j hj
    exact get_state_frame m_flags fl1 j hlen1 (hframe j hj)

/-- Witness of C18: slot 17 of a two-word array of Empty slots is set to
Deleted. -/
theorem set_state_get_state_witness :
    17 < FLAGS_PER_U32 * [2863311530, 2863311530].length ∧
      set_state [2863311530, 2863311530] 17 State.Deleted = .ok [2863311530, 2863311526] ∧
      ∃ fl1, set_state [2863311530, 2863311530] 17 State.Deleted = .ok fl1 ∧
        get_state fl1 17 = .ok State.Deleted ∧
        ∀ j, j ≠ 17 → get_state fl1 j = get_state [2863311530, 2863311530] j :=
  ⟨by decide, by decide,
    set_state_get_state [2863311530, 2863311530] 17 State.Deleted (by decide)
      (Or.inr (Or.inl rfl))⟩

/-! ## Duplicate insertion and configured load factors -/

/-- C19 (duplicate `emplace`), counterexample to the claim as stated.  The
table `example_pair` holds key 2 in slot 2 of its 4 buckets, 2 of which are
occupied.  The call `emplace(2, 99)` runs the growth test before the lookup:
`2 + 1 > 4 * 0.5`, so it rehashes the table into 8 buckets, and only then
finds the key and returns `false`. -/
theorem duplicate_emplace_resizes :
    Reachable nat_config example_pair ∧ Holds example_pair 2 (2, 20) ∧
      emplace nat_config example_pair 2 99 = .ok (example_pair_grown, ⟨2⟩, false) ∧
      example_pair_grown.m_bucket_count ≠ example_pair.m_bucket_count :=
  ⟨example_pair_reachable, ⟨by decide, by decide, by decide⟩, by decide, by decide⟩

/-- C19 (duplicate `emplace`), as amended.  On a reachable table in which slot
`i` holds the pair `p` whose key equals `key`: when the growth test
`occupied + 1 > bucket_count * max_load_factor` does not fire,
`emplace(key, value)` returns the table unchanged, the position `i` and
`false`; when it fires, the call is refused by the allocator or returns
`false` with a table of twice the buckets that holds the same pairs, `p`
among them, has the same live count and has no tombstone. -/
theorem duplicate_emplace_frame [Inhabited V] (c : Config K) (hc : Lawful c) (t : Table K V)
    (hr : Reachable c t) (key : K) (value : V) (i : Nat) (p : K × V) (hp : Holds t i p)
    (heq : c.m_key_equal p.1 key = true) :
    (exceeds (t.m_occupied + 1) t.m_bucket_count t.m_max_load_factor = false ∧
      emplace c t key value = .ok (t, ⟨i⟩, false)) ∨
    (exceeds (t.m_occupied + 1) t.m_bucket_count t.m_max_load_factor = true ∧
      ((emplace c t key value = .fault .bad_alloc ∧ c.max_size < 2 * t.m_bucket_count) ∨
        ∃ t2 i2, emplace c t key value = .ok (t2, ⟨i2⟩, false) ∧
          t2.m_bucket_count = 2 * t.m_bucket_count ∧ SameContent t t2 ∧ Holds t2 i2 p ∧
          t2.m_size = t.m_size ∧ t2.m_occupied = t.m_size)) := by
  have hinv := (reachable_inv c hc t hr).1
  have hpos : t.m_bucket_count ≠ 0 := by
    have := hp.1
    omega
  rcases emplace_present c hc t hinv key value i p hp heq with
    ⟨h1, h2⟩ | ⟨t2, i2, hg, h1, _, hsame, hp2, hsz, _⟩
  · rw [if_neg hpos] at h2
    right
    refine ⟨?_, Or.inl ⟨h1, h2⟩⟩
    by_contra hex
    have hskip := grow_if_needed_skip c t hpos (by simpa using hex)
    unfold emplace at h1
    rw [hskip] at h1
    simp only [] at h1
    rw [find_key_present c hc t hinv key i p hp heq] at h1
    simp only [] at h1
    rw [if_pos (Nat.ne_of_lt hp.1)] at h1
    obtain ⟨r, hcr, _⟩ := create_spec t hinv.len_flags i
    rw [hcr] at h1
    exact Outcome.noConfusion h1
  · by_cases hex : exceeds (t.m_occupied + 1) t.m_bucket_count t.m_max_load_factor = true
    · right
      refine ⟨hex, Or.inr ⟨t2, i2, h1, ?_, hsame, hp2, hsz, ?_⟩⟩
      · rcases grow_if_needed_spec c hc t hinv with ⟨h3, _⟩ | ⟨t1, h3, _, _, _, _, _, h4⟩
        · rw [hg] at h3; exact Outcome.noConfusion h3
        · rw [hg] at h3
          injection h3 with h3
          subst h3
          rcases h4 with ⟨_, _, h5⟩ | ⟨_, hb, _⟩
          · rw [hex] at h5; exact Bool.noConfusion h5
          · rw [hb, if_neg hpos]
      · rcases grow_if_needed_spec c hc t hinv with ⟨h3, _⟩ | ⟨t1, h3, _, _, _, _, _, h4⟩
        · rw [hg] at h3; exact Outcome.noConfusion h3
        · rw [hg] at h3
          injection h3 with h3
          subst h3
          rcases h4 with ⟨_, _, h5⟩ | ⟨_, _, ho⟩
          · rw [hex] at h5; exact Bool.noConfusion h5
          · rw [ho, hsz]
    · left
      have hex2 : exceeds (t.m_occupied + 1) t.m_bucket_count t.m_max_load_factor = false := by
        simpa using hex
      have hskip := grow_if_needed_skip c t hpos hex2
      rw [hskip] at hg
      injection hg with hg
      subst hg
      have hii : i2 = i :=
        hinv.unique i2 i p p hp2 hp (hc.refl p.1)
      rw [hii] at h1
      exact ⟨hex2, h1⟩

/-- Witness of C19 as amended: key 0 of `example_single`, inserted again with
value 5; one of 4 buckets is occupied, so the growth test does not fire. -/
theorem duplicate_emplace_frame_witness :
    Lawful nat_config ∧ Reachable nat_config example_single ∧
      Holds example_single 0 (0, 0) ∧ nat_config.m_key_equal (0, 0).1 0 = true ∧
      emplace nat_config example_single 0 5 = .ok (example_single, ⟨0⟩, false) ∧
      ((exceeds (example_single.m_occupied + 1) example_single.m_bucket_count
            example_single.m_max_load_factor = false ∧
          emplace nat_config example_single 0 5 = .ok (example_single, ⟨0⟩, false)) ∨
        (exceeds (example_single.m_occupied + 1) example_single.m_bucket_count
            example_single.m_max_load_factor = true ∧
          ((emplace nat_config example_single 0 5 = .fault .bad_alloc ∧
              nat_config.max_size < 2 * example_single.m_bucket_count) ∨
            ∃ t2 i2, emplace nat_config example_single 0 5 = .ok (t2, ⟨i2⟩, false) ∧
              t2.m_bucket_count = 2 * example_single.m_bucket_count ∧
              SameContent example_single t2 ∧ Holds t2 i2 (0, 0) ∧
              t2.m_size = example_single.m_size ∧ t2.m_occupied = example_single.m_size))) :=
  ⟨nat_config_lawful, example_single_reachable, ⟨by decide, by decide, by decide⟩, by decide,
    by decide,
    duplicate_emplace_frame nat_config nat_config_lawful example_single
      example_single_reachable 0 5 0 (0, 0) ⟨by decide, by decide, by decide⟩ (by decide)⟩

/-- C20 (load factor bound for a configured factor): the code breaks the
bound.  After `max_load_factor(0.125f)` on the default-constructed table, the
first `emplace(1, 10)`, and likewise the first `operator[](1)`, allocates the
minimum of 4 buckets and stores the entry: 1 occupied slot against
`4 * 0.125 = 0.5`.  The growth step runs once, to 4 buckets or to twice the
old count, and the test is not repeated after it. -/
theorem small_factor_bound_broken :
    emplace nat_config (max_load_factor Table.init ⟨1, 8⟩) 1 10 =
        .ok (example_eighth, ⟨1⟩, true) ∧
      operator_subscript nat_config (max_load_factor Table.init ⟨1, 8⟩) 1 =
        .ok (example_eighth_default, 1) ∧
      example_eighth.m_max_load_factor = ⟨1, 8⟩ ∧
      ¬ CapacityFor example_eighth example_eighth.m_occupied ∧
      ¬ CapacityFor example_eighth_default example_eighth_default.m_occupied :=
  ⟨by decide, by decide, by decide, by decide, by decide⟩

end FastSTL

namespace FastSTL

variable {K V : Type}

/-! ## The growth test with the load factor 1 -/

/-- Rounding to `float` never rises above a power of two that bounds the
integer. -/
theorem to_float_le_pow (n j : Nat) (h : n ≤ 2 ^ j) : to_float n ≤ 2 ^ j := by
  unfold to_float
  simp only []
  set e := f32_drop 64 n with he
  have hpos : 0 < 2 ^ e := Nat.pos_pow_of_pos _ (by norm_num)
  have hq : n >>> e = n / 2 ^ e := Nat.shiftRight_eq_div_pow n e
  have hdm : n / 2 ^ e * 2 ^ e + n % 2 ^ e = n := by
    rw [Nat.mul_comm]; exact Nat.div_add_mod n (2 ^ e)
  have hej : e ≤ j := by
    rcases f32_drop_bound 64 n with h0 | h0
    · rw [← he] at h0; omega
    · rw [← he] at h0
      by_contra hcon
      have h1 : 2 ^ (j + 1) ≤ 2 ^ (e + 23) := Nat.pow_le_pow_right (by norm_num) (by omega)
      rw [pow_succ] at h1
      have h2 : 0 < 2 ^ j := Nat.pos_pow_of_pos _ (by norm_num)
      omega
  have hsplit : 2 ^ j = 2 ^ (j - e) * 2 ^ e := by
    rw [← pow_add]; congr 1; omega
  rw [hsplit]
  apply Nat.mul_le_mul_right
  have hqle : n / 2 ^ e ≤ 2 ^ (j - e) := by
    apply Nat.div_le_of_le_mul
    rw [Nat.mul_comm, ← hsplit]
    exact h
  rw [hq]
  by_cases hlt : n / 2 ^ e < 2 ^ (j - e)
  · split <;> omega
  · have heq : n / 2 ^ e = 2 ^ (j - e) := by omega
    have hr : n % 2 ^ e = 0 := by
      rw [heq, ← hsplit] at hdm
      omega
    rw [hr, if_neg]
    · omega
    · rintro (h1 | ⟨h1, _⟩) <;> omega

theorem to_float_two_pow_25_succ : to_float (2 ^ 25 + 1) = 2 ^ 25 := by decide

/-- With `2 ^ 25` buckets and the load factor 1 the growth test of `emplace`
does not fire up to `2 ^ 25` occupied slots: the float nearest to `2 ^ 25 + 1`
is `2 ^ 25`. -/
theorem not_exceeds_unit (n : Nat) (hn : n ≤ 2 ^ 25) :
    exceeds (n + 1) (2 ^ 25) ⟨1, 1⟩ = false := by
  unfold exceeds
  rw [to_float_pow2 25 (by norm_num)]
  simp only [decide_eq_false_iff_not, not_lt, Nat.mul_one]
  by_cases h1 : n + 1 ≤ 2 ^ 25
  · exact to_float_le_pow _ 25 h1
  · have h3 : n = 2 ^ 25 := by omega
    rw [h3, to_float_two_pow_25_succ]

/-- Every load factor below 1 keeps a count that passes the growth test within
the bucket count. -/
theorem fits_below_one (f : LoadFactor) (h : f.num < f.den) : f.Fits := by
  intro x k hk hex
  unfold exceeds at hex
  rw [to_float_pow2 k hk] at hex
  simp only [decide_eq_false_iff_not, not_lt] at hex
  by_contra hcon
  have h1 : 2 ^ k ≤ to_float x := to_float_ge_pow x k (by omega)
  have h2 : 2 ^ k * f.den ≤ to_float x * f.den := Nat.mul_le_mul_right _ h1
  have hpos : 0 < 2 ^ k := Nat.pos_pow_of_pos _ (by norm_num)
  have h3 : 2 ^ k * f.num < 2 ^ k * f.den := Nat.mul_lt_mul_of_pos_left h hpos
  omega

/-! ## The operations do not read the load factor -/

theorem max_load_factor_restore (t : Table K V) (ml : LoadFactor) :
    max_load_factor (max_load_factor t ml) t.m_max_load_factor = t := by
  cases t
  rfl

theorem find_key_loop_lf (c : Config K) (t : Table K V) (ml : LoadFactor) (key : K)
    (mask start fuel i word_idx flag_word : Nat) :
    find_key_loop c (max_load_factor t ml) key mask start fuel i word_idx flag_word =
      find_key_loop c t key mask start fuel i word_idx flag_word := by
  induction fuel generalizing i word_idx flag_word with
  | zero => rfl
  | succ n ih =>
    simp only [find_key_loop, ih]
    rfl

theorem find_key_lf (c : Config K) (t : Table K V) (ml : LoadFactor) (key : K) :
    find_key c (max_load_factor t ml) key = find_key c t key := by
  unfold find_key
  simp only [find_key_loop_lf]
  rfl

theorem find_insert_slot_loop_lf (t : Table K V) (ml : LoadFactor)
    (mask start fuel i tombstone word_idx flag_word : Nat) :
    find_insert_slot_loop (max_load_factor t ml) mask start fuel i tombstone word_idx flag_word =
      find_insert_slot_loop t mask start fuel i tombstone word_idx flag_word := by
  induction fuel generalizing i tombstone word_idx flag_word with
  | zero => rfl
  | succ n ih =>
    simp only [find_insert_slot_loop, ih]
    rfl

theorem find_insert_slot_lf (c : Config K) (t : Table K V) (ml : LoadFactor) (key : K) :
    find_insert_slot c (max_load_factor t ml) key = find_insert_slot c t key := by
  unfold find_insert_slot
  simp only [find_insert_slot_loop_lf]
  rfl

theorem advance_loop_lf (t : Table K V) (ml : LoadFactor) (fuel m_index : Nat) :
    advance_loop (max_load_factor t ml) fuel m_index = advance_loop t fuel m_index := by
  induction fuel generalizing m_index with
  | zero => rfl
  | succ n ih =>
    simp only [advance_loop, ih]
    rfl

theorem create_lf (t : Table K V) (ml : LoadFactor) (index : Nat) :
    map_iterator.create (max_load_factor t ml) index = map_iterator.create t index := by
  unfold map_iterator.create map_iterator.advance
  simp only [advance_loop_lf]
  rfl

theorem insert_new_lf (c : Config K) (t t2 : Table K V) (ml : LoadFactor) (p : K × V)
    (slot : Nat) (h : insert_new c t p = .ok (t2, slot)) :
    insert_new c (max_load_factor t ml) p = .ok (max_load_factor t2 ml, slot) := by
  unfold insert_new at h ⊢
  rw [find_insert_slot_lf]
  have hfl : (max_load_factor t ml).m_flags = t.m_flags := rfl
  have hbk : (max_load_factor t ml).m_buckets = t.m_buckets := rfl
  rw [hfl, hbk]
  cases h1 : find_insert_slot c t p.1 with
  | fault e => rw [h1] at h; exact Outcome.noConfusion h
  | ok slot1 =>
    rw [h1] at h
    simp only [] at h ⊢
    cases h2 : get_state t.m_flags slot1 with
    | fault e => rw [h2] at h; exact Outcome.noConfusion h
    | ok s =>
      rw [h2] at h
      simp only [] at h ⊢
      cases h3 : construct t.m_buckets slot1 p with
      | fault e => rw [h3] at h; exact Outcome.noConfusion h
      | ok b =>
        rw [h3] at h
        simp only [] at h ⊢
        cases h4 : set_state t.m_flags slot1 State.Occupied with
        | fault e => rw [h4] at h; exact Outcome.noConfusion h
        | ok fl =>
          rw [h4] at h
          simp only [] at h ⊢
          injection h with h
          injection h with ht hs
          subst ht hs
          rfl

theorem rehash_init_lf (c : Config K) (ml : LoadFactor) (n : Nat) (t1 : Table K V)
    (h : rehash c (Table.init : Table K V) n = .ok t1) :
    rehash c (max_load_factor (Table.init : Table K V) ml) n = .ok (max_load_factor t1 ml) := by
  unfold rehash rehash_internal at h ⊢
  simp only [Table.init, max_load_factor, List.isEmpty_nil, Bool.not_true,
    Bool.false_eq_true, if_false] at h ⊢
  split_ifs at h ⊢ <;> first
    | omega
    | (injection h with h; subst h; rfl)

/-- An `emplace` of an absent key whose growth test does not fire, on a table
whose load factor was replaced: the insertion is the one of the table with the
original load factor. -/
theorem emplace_lift (c : Config K) (s s2 : Table K V) (ml : LoadFactor) (key : K) (value : V)
    (slot : Nat) (it : map_iterator)
    (hskip : grow_if_needed c (max_load_factor s ml) = .ok (max_load_factor s ml))
    (hfk : find_key c s key = .ok s.m_bucket_count)
    (hins : insert_new c s (key, value) = .ok (s2, slot))
    (hcr : map_iterator.create s2 slot = .ok it) :
    emplace c (max_load_factor s ml) key value = .ok (max_load_factor s2 ml, it, true) := by
  have hbc : (max_load_factor s ml).m_bucket_count = s.m_bucket_count := rfl
  unfold emplace
  rw [hskip]
  simp only []
  rw [find_key_lf, hfk]
  simp only []
  rw [hbc, if_neg (by simp), insert_new_lf c s s2 ml (key, value) slot hins]
  simp only []
  rw [create_lf, hcr]

/-- The table after `max_load_factor(1.0f)`, `rehash(2 ^ 25)` and the insertion
of the keys below `n`, for `n` up to `2 ^ 25`: no growth happens and every key
takes a fresh slot.  The table is given as the table `s` of the same content
with the load factor 0.5, on which the invariant is stated. -/
theorem fill_run_unit (n : Nat) (hn : n ≤ 2 ^ 25) :
    ∃ s, run nat_config (fill_calls n) (max_load_factor Table.init ⟨1, 1⟩) =
        .ok (max_load_factor s ⟨1, 1⟩) ∧ Inv nat_config s ∧
      s.m_bucket_count = 2 ^ 25 ∧ s.m_occupied = n ∧ s.m_size = n ∧
      ∀ j q, Holds s j q → q.1 < n := by
  induction n with
  | zero =>
    have hinit : Inv nat_config (Table.init : Table Nat Nat) := init_inv nat_config
    have hround : roundup32 (2 ^ 25) = 2 ^ 25 := roundup32_pow2 25 (by norm_num) (by norm_num)
    have hmax : nat_config.max_size = 2 ^ 40 := rfl
    have hbc0 : (Table.init : Table Nat Nat).m_bucket_count = 0 := rfl
    rcases rehash_spec nat_config nat_config_lawful Table.init hinit (2 ^ 25) (by norm_num) with
      ⟨_, h⟩ | ⟨_, h, _⟩ | ⟨_, _, _, t1, h1, hre, hbc⟩
    · rw [hround, hbc0] at h
      norm_num at h
    · rw [hround, hmax] at h
      norm_num at h
    · refine ⟨t1, ?_, hre.inv, by rw [hbc, hround], ?_, ?_, ?_⟩
      · have happ : Call.apply nat_config (max_load_factor (Table.init : Table Nat Nat) ⟨1, 1⟩)
            (Call.rehash (2 ^ 25)) = .ok (max_load_factor t1 ⟨1, 1⟩) :=
          rehash_init_lf nat_config ⟨1, 1⟩ (2 ^ 25) t1 h1
        simp only [fill_calls, List.range_zero, List.map_nil, run, happ]
      · rw [hre.no_tomb, hre.size]; rfl
      · rw [hre.size]; rfl
      · intro j q hq
        obtain ⟨j', hq'⟩ := (hre.content q).mp ⟨j, hq⟩
        have : j' < 0 := hq'.1
        omega
  | succ n ih =>
    obtain ⟨s, hrun, hinv, hbc, hocc, hsz, hkeys⟩ := ih (by omega)
    have habs : ∀ i p, Holds s i p → nat_config.m_key_equal p.1 (n, (0 : Nat)).1 = false := by
      intro i p hp
      have := hkeys i p hp
      simp only [nat_config, beq_eq_false_iff_ne, ne_eq]
      omega
    have hroom : s.m_occupied < s.m_bucket_count := by rw [hocc, hbc]; omega
    have hskip : grow_if_needed nat_config (max_load_factor s ⟨1, 1⟩) =
        .ok (max_load_factor s ⟨1, 1⟩) := by
      apply grow_if_needed_skip
      · show s.m_bucket_count ≠ 0
        rw [hbc]; norm_num
      · show exceeds (s.m_occupied + 1) s.m_bucket_count ⟨1, 1⟩ = false
        rw [hocc, hbc]
        exact not_exceeds_unit n (by omega)
    obtain ⟨s2, slot, hins, _, _, hslot_lt, hfree, _, hbc2, _, hsz2, hocc2, _⟩ :=
      insert_new_spec nat_config nat_config_lawful s hinv (n, 0) habs hroom
    obtain ⟨s3, slot3, hins3, hinv2, _, _, _, _, _, _, hcont⟩ :=
      insert_new_content nat_config nat_config_lawful s hinv (n, 0) habs hroom
    rw [hins] at hins3
    cases hins3
    have hempty : slot_state s.m_flags slot = State.Empty := by
      rcases hfree with h | h
      · exact absurd h (hinv.no_deleted (by rw [hocc, hsz]) slot hslot_lt)
      · exact h
    rw [if_pos hempty] at hocc2
    obtain ⟨r, hcr, _⟩ := create_spec s2 hinv2.len_flags slot
    have hemp := emplace_lift nat_config s s2 ⟨1, 1⟩ n 0 slot ⟨r⟩ hskip
      (find_key_absent nat_config nat_config_lawful s hinv n habs) hins hcr
    refine ⟨s2, ?_, hinv2, by rw [hbc2, hbc], by rw [hocc2, hocc], by rw [hsz2, hsz], ?_⟩
    · rw [fill_calls_succ, run_append, hrun]
      simp only [run, Call.apply, hemp]
    · intro j q hq
      rcases (hcont q).mp ⟨j, hq⟩ with h | ⟨j', h⟩
      · rw [h]; show n < n + 1; omega
      · have := hkeys j' q h
        omega

/-- A table in which every slot is occupied: `find_insert_slot` completes the
cycle and returns the bucket count. -/
theorem find_insert_slot_full (c : Config K) (t : Table K V) (hinv : Inv c t)
    (hfull : t.m_size = t.m_bucket_count) (hpos : 0 < t.m_bucket_count) (key : K) :
    (∀ i, i < t.m_bucket_count → slot_state t.m_flags i = State.Occupied) ∧
      find_insert_slot c t key = .ok t.m_bucket_count := by
  have hall : ∀ i, i < t.m_bucket_count → slot_state t.m_flags i = State.Occupied := by
    intro i hi
    have he : cnt (fun i => decide (slot_state t.m_flags i = State.Occupied)) t.m_bucket_count =
        cnt (fun _ => true) t.m_bucket_count := by
      rw [← hinv.size_eq, hfull, cnt_all_of_true _ _ (fun _ _ => rfl)]
    have := cnt_eq_imp _ _ t.m_bucket_count (fun _ _ _ => rfl) he i hi rfl
    simpa using this
  refine ⟨hall, ?_⟩
  obtain ⟨k, _, hk63, hk⟩ := hinv.pos_pow2 hpos
  obtain ⟨r, hr, e, _, hE, _, hcase⟩ :=
    find_insert_slot_spec c t key k (by omega) hk hinv.len_flags
  have hlt : ∀ d, probe c t key d < t.m_bucket_count := fun d => Nat.mod_lt _ hpos
  have he : ¬ e < t.m_bucket_count := by
    intro hcon
    have h1 := hE hcon
    rw [hall _ (hlt e)] at h1
    exact absurd h1 (by decide)
  rcases hcase with ⟨e0, _, _, hdel, _⟩ | ⟨hr0, _⟩
  · rw [hall _ (hlt e0)] at hdel
    exact absurd hdel (by decide)
  · rw [if_neg he] at hr0
    rw [hr, hr0]

/-- On a table that satisfies the invariant, whose load factor therefore keeps
a passed growth test within the bucket count, the insertion of an absent key
finds an Empty slot in the table and lands below the bucket count, on a slot
that is Deleted or Empty. -/
theorem insert_slot_in_bounds (c : Config K) (hc : Lawful c) (t : Table K V) (hinv : Inv c t)
    (key : K) (habs : ∀ i p, Holds t i p → c.m_key_equal p.1 key = false) :
    grow_if_needed c t = .fault .bad_alloc ∨
    ∃ t1 r, grow_if_needed c t = .ok t1 ∧
      (∃ i, i < t1.m_bucket_count ∧ slot_state t1.m_flags i = State.Empty) ∧
      find_insert_slot c t1 key = .ok r ∧ r < t1.m_bucket_count ∧
      (slot_state t1.m_flags r = State.Deleted ∨ slot_state t1.m_flags r = State.Empty) := by
  rcases grow_if_needed_spec c hc t hinv with ⟨h1, _⟩ | ⟨t1, h1, hinv1, hsame, _, _, hroom, _⟩
  · exact Or.inl h1
  · have habs1 : ∀ i q, Holds t1 i q → c.m_key_equal q.1 (key, (default : Unit)).1 = false := by
      intro i q hq
      obtain ⟨j, hj⟩ := (hsame q).mp ⟨i, hq⟩
      exact habs j q hj
    have hpos : 0 < t1.m_bucket_count := by omega
    obtain ⟨k, _, hk63, hk⟩ := hinv1.pos_pow2 hpos
    obtain ⟨r, hr, hpost⟩ := find_insert_slot_spec c t1 key k (by omega) hk hinv1.len_flags
    obtain ⟨d, hd, hde⟩ := hinv1.exists_empty hroom key
    obtain ⟨e, he, hre, hfree, _⟩ := hpost.free hpos ⟨d, hd, hde⟩
    refine Or.inr ⟨t1, r, h1, ⟨probe c t1 key d, Nat.mod_lt _ hpos, hde⟩, hr, ?_, hfree⟩
    rw [hre]
    exact Nat.mod_lt _ hpos

end FastSTL

namespace FastSTL

variable {K V : Type}

/-! ## The Empty pattern and the bounds of the insert slot -/

/-- C21 (Empty and the fill pattern), counterexample to the claim as stated.
`Empty` is not the encoding with both bits set, and in a state word filled
with the all-ones byte pattern each of the 16 slots decodes as `0b11`, which
is no state of the table; in particular it is not `Empty`. -/
theorem all_ones_not_empty :
    State.Empty ≠ 0b11 ∧
      ∀ i, i < FLAGS_PER_U32 →
        get_state [0xffffffff] i = .ok 0b11 ∧ get_state [0xffffffff] i ≠ .ok State.Empty := by
  decide

/-- C21 (Empty and the fill pattern), as amended.  `Empty` is the encoding
`0b10`, and a state array bulk-filled with the byte `0xaa`, as `clear` and
`rehash_internal` fill it, decodes as `Empty` at every slot it covers. -/
theorem fill_pattern_reads_empty (m_flags : List Nat) (i : Nat)
    (hi : i < FLAGS_PER_U32 * m_flags.length) :
    State.Empty = 0b10 ∧
      ∃ fl, memset_flags m_flags m_flags.length = .ok fl ∧
        fl = List.replicate m_flags.length 0xaaaaaaaa ∧ get_state fl i = .ok State.Empty := by
  have hidx : i / 16 < m_flags.length := by
    have h16 : i < 16 * m_flags.length := hi
    omega
  refine ⟨rfl, List.replicate m_flags.length 0xaaaaaaaa, ?_, rfl, ?_⟩
  · unfold memset_flags
    rw [if_pos (le_refl _), List.drop_length, List.append_nil]
  · rw [get_state_eq _ _ (by rw [List.length_replicate]; exact hidx),
      slot_state_replicate _ _ hidx]

/-- Witness of C21 as amended: slot 21 of a two-word state array. -/
theorem fill_pattern_reads_empty_witness :
    21 < FLAGS_PER_U32 * [2863311490, 0].length ∧
      (State.Empty = 0b10 ∧
        ∃ fl, memset_flags [2863311490, 0] [2863311490, 0].length = .ok fl ∧
          fl = List.replicate [2863311490, 0].length 0xaaaaaaaa ∧
          get_state fl 21 = .ok State.Empty) :=
  ⟨by decide, fill_pattern_reads_empty [2863311490, 0] 21 (by decide)⟩

/-- C22 (bounds of the insert slot): the code breaks the property for the load
factor 1.  After `max_load_factor(1.0f)`, `rehash(2 ^ 25)` and `emplace(k, 0)`
for the `2 ^ 25` keys `k = 0, ..., 2 ^ 25 - 1`, every one of the `2 ^ 25` slots
is Occupied.  The growth test of the next `emplace(2 ^ 25, 0)` compares
`2 ^ 25 + 1` with `2 ^ 25 * 1.0f` in `float`, where `2 ^ 25 + 1` rounds to
`2 ^ 25`, so the table does not grow; `find_insert_slot` then finds no Empty
slot, completes the cycle and returns the bucket count, and the read of the
state of that slot is outside the state array. -/
theorem insert_slot_out_of_bounds :
    ∃ t, run nat_config (fill_calls (2 ^ 25)) (max_load_factor Table.init ⟨1, 1⟩) = .ok t ∧
      t.m_max_load_factor = ⟨1, 1⟩ ∧ t.m_bucket_count = 2 ^ 25 ∧ t.m_occupied = 2 ^ 25 ∧
      (∀ i, i < t.m_bucket_count → get_state t.m_flags i = .ok State.Occupied) ∧
      grow_if_needed nat_config t = .ok t ∧
      find_key nat_config t (2 ^ 25) = .ok t.m_bucket_count ∧
      find_insert_slot nat_config t (2 ^ 25) = .ok t.m_bucket_count ∧
      get_state t.m_flags t.m_bucket_count = .fault .undefined ∧
      emplace nat_config t (2 ^ 25) 0 = .fault .undefined := by
  obtain ⟨s, hrun, hinv, hbc, hocc, hsz, hkeys⟩ := fill_run_unit (2 ^ 25) (le_refl _)
  have hpos : 0 < s.m_bucket_count := by rw [hbc]; norm_num
  obtain ⟨hall, hfis⟩ := find_insert_slot_full nat_config s hinv (by rw [hsz, hbc]) hpos (2 ^ 25)
  have habs : ∀ i p, Holds s i p → nat_config.m_key_equal p.1 (2 ^ 25) = false := by
    intro i p hp
    have := hkeys i p hp
    simp only [nat_config, beq_eq_false_iff_ne, ne_eq]
    omega
  have hskip : grow_if_needed nat_config (max_load_factor s ⟨1, 1⟩) =
      .ok (max_load_factor s ⟨1, 1⟩) := by
    apply grow_if_needed_skip
    · show s.m_bucket_count ≠ 0
      omega
    · show exceeds (s.m_occupied + 1) s.m_bucket_count ⟨1, 1⟩ = false
      rw [hocc, hbc]
      exact not_exceeds_unit (2 ^ 25) (le_refl _)
  have hfk : find_key nat_config (max_load_factor s ⟨1, 1⟩) (2 ^ 25) = .ok s.m_bucket_count := by
    rw [find_key_lf]
    exact find_key_absent nat_config nat_config_lawful s hinv (2 ^ 25) habs
  have hfis1 : find_insert_slot nat_config (max_load_factor s ⟨1, 1⟩) (2 ^ 25) =
      .ok s.m_bucket_count := by
    rw [find_insert_slot_lf]
    exact hfis
  have hgs : get_state s.m_flags s.m_bucket_count = .fault .undefined := by
    have hlen : s.m_flags.length = 2097152 := by
      rw [hinv.len_flags, hbc]
      norm_num
    unfold get_state
    rw [shr4_eq]
    have hnone : s.m_flags[s.m_bucket_count / 16]? = none := by
      apply List.getElem?_eq_none
      rw [hlen, hbc]
      norm_num
    rw [hnone]
  refine ⟨max_load_factor s ⟨1, 1⟩, hrun, rfl, hbc, hocc, ?_, hskip, hfk, hfis1, hgs, ?_⟩
  · intro i hi
    show get_state s.m_flags i = .ok State.Occupied
    rw [get_state_eq _ _ (hinv.flag_idx hi), hall i hi]
  · unfold emplace
    rw [hskip]
    simp only []
    rw [hfk]
    simp only []
    rw [if_neg (by simp [max_load_factor])]
    unfold insert_new
    rw [hfis1]
    simp only []
    have hfl : (max_load_factor s ⟨1, 1⟩).m_flags = s.m_flags := rfl
    rw [hfl, hgs]

end FastSTL
